import Mathlib

set_option maxHeartbeats 1000000

/-!
Verification development for the WorkNode core module (`work-node.ts`) of the
step-protocol repository.  The definitions below are a shallow embedding of that
module: pure text-processing functions are transliterated directly, the
JavaScript `number` values occurring in this module are modelled as
integer-or-NaN, and filesystem-dependent operations are modelled as explicit
state passing over a file map.
-/

/-- Status enumeration from the `StepStatus` union type in `work-node.ts`:
`"todo" | "in-progress" | "blocked" | "done" | "superseded"`. -/
inductive StepStatus where
  | todo
  | inProgress
  | blocked
  | done
  | superseded
  deriving DecidableEq, Repr

/-- Rendering of a status back to its protocol string. -/
def statusToString (s : StepStatus) : String :=
  match s with
  | StepStatus.todo => "todo"
  | StepStatus.inProgress => "in-progress"
  | StepStatus.blocked => "blocked"
  | StepStatus.done => "done"
  | StepStatus.superseded => "superseded"

/-- Membership test of `VALID_STATUSES`: the five legal status strings. -/
def statusOfString (s : String) : Option StepStatus :=
  if s = "todo" then some StepStatus.todo
  else if s = "in-progress" then some StepStatus.inProgress
  else if s = "blocked" then some StepStatus.blocked
  else if s = "done" then some StepStatus.done
  else if s = "superseded" then some StepStatus.superseded
  else none

/-- Model of a JavaScript number as it occurs in this module: either `NaN` or an
integer value.  Fractional, exponent, hexadecimal and infinite numerals are not
produced by any code path the claims exercise, so they stay outside the model. -/
inductive JSNum where
  | nan
  | int (n : ℤ)
  deriving DecidableEq, Repr

/-- Predicate for a finite (non-`NaN`) modelled JavaScript number. -/
def JSNum.isFinite (x : JSNum) : Bool :=
  match x with
  | JSNum.nan => false
  | JSNum.int _ => true

/-- Characters treated as whitespace by JavaScript regular-expression `\s`,
`String.prototype.trim` and `Number` coercion (WhiteSpace and LineTerminator). -/
def isJsWs (c : Char) : Bool :=
  decide (c.toNat = 0x20 ∨ c.toNat = 0x09 ∨ c.toNat = 0x0A ∨ c.toNat = 0x0D ∨
    c.toNat = 0x0B ∨ c.toNat = 0x0C ∨ c.toNat = 0xA0 ∨ c.toNat = 0x1680 ∨
    (0x2000 ≤ c.toNat ∧ c.toNat ≤ 0x200A) ∨ c.toNat = 0x2028 ∨ c.toNat = 0x2029 ∨
    c.toNat = 0x202F ∨ c.toNat = 0x205F ∨ c.toNat = 0x3000 ∨ c.toNat = 0xFEFF)

/-- Characters counted as line terminators by ECMAScript (`LineTerminator`). -/
def isLineTerm (c : Char) : Bool :=
  decide (c.toNat = 0x0A ∨ c.toNat = 0x0D ∨ c.toNat = 0x2028 ∨ c.toNat = 0x2029)

/-- Trimming of JavaScript whitespace from both ends of a character list. -/
def trimChars (l : List Char) : List Char :=
  ((l.dropWhile isJsWs).reverse.dropWhile isJsWs).reverse

/-- Model of `String.prototype.trim`. -/
def jsTrim (s : String) : String :=
  String.mk (trimChars s.data)

/-- Numeric value of a decimal digit character. -/
def digitVal (c : Char) : Nat := c.toNat - 48

/-- Value of a run of decimal digit characters, most significant first. -/
def digitsToNat (l : List Char) : Nat :=
  l.foldl (fun acc c => 10 * acc + digitVal c) 0

/-- Model of the JavaScript `Number(string)` coercion restricted to the numerals
this module produces and consumes: after trimming whitespace the empty string is
`0`, an optionally signed run of decimal digits is the corresponding integer,
and every other string is `NaN`.  (Fractional, exponent, hexadecimal and
`Infinity` numerals are not exercised by the claims and map to `NaN` here.) -/
def jsToNumber (s : String) : JSNum :=
  if trimChars s.data = [] then JSNum.int 0
  else if (trimChars s.data).head? = some '-' then
    (if (trimChars s.data).tail ≠ [] ∧ (trimChars s.data).tail.all Char.isDigit then
      JSNum.int (-(digitsToNat (trimChars s.data).tail : ℤ))
    else JSNum.nan)
  else if (trimChars s.data).head? = some '+' then
    (if (trimChars s.data).tail ≠ [] ∧ (trimChars s.data).tail.all Char.isDigit then
      JSNum.int (digitsToNat (trimChars s.data).tail)
    else JSNum.nan)
  else if (trimChars s.data).all Char.isDigit then
    JSNum.int (digitsToNat (trimChars s.data))
  else JSNum.nan

/-- Decimal digit character for a value below ten. -/
def digitChar (n : Nat) : Char := Char.ofNat (48 + n)

/-- Decimal digit string of a natural number, most significant digit first,
computed with an explicit fuel bound so that the recursion is structural (any
fuel above the number itself suffices). -/
def natToCharsAux : Nat → Nat → List Char
  | 0, _ => []
  | fuel + 1, n =>
    if n < 10 then [digitChar n]
    else natToCharsAux fuel (n / 10) ++ [digitChar (n % 10)]

/-- Decimal digit string of a natural number, most significant digit first. -/
def natToChars (n : Nat) : List Char :=
  natToCharsAux (n + 1) n

/-- Rendering of a modelled JavaScript number by template-literal interpolation:
`NaN` prints as `"NaN"`, integers print in signed decimal. -/
def jsNumToString (x : JSNum) : String :=
  match x with
  | JSNum.nan => "NaN"
  | JSNum.int n =>
    if n < 0 then String.mk ('-' :: natToChars n.natAbs)
    else String.mk (natToChars n.natAbs)

/-- Record from the `StepIdentifier` interface of `work-node.ts`. -/
structure StepIdentifier where
  phase : JSNum
  step : String
  label : String
  deriving DecidableEq, Repr

/-- Record from the `PlanStep` interface: a step identifier with an optional
detail list (`details?: string[]`, absent when no bullets follow the
declaration). -/
structure PlanStep extends StepIdentifier where
  details : Option (List String) := none
  deriving DecidableEq, Repr

/-- Record from the `StateRow` interface. -/
structure StateRow extends StepIdentifier where
  status : StepStatus
  progressLog : Option String
  deriving DecidableEq, Repr

/-- Collection from the `WorkPlan` class: the ordered `steps` array. -/
structure WorkPlan where
  steps : List PlanStep
  deriving DecidableEq, Repr

/-- Collection from the `WorkState` class: the ordered `entries` array. -/
structure WorkState where
  entries : List StateRow
  deriving DecidableEq, Repr

/-- Splitting of a character list at every occurrence of a single-character
separator, mirroring JavaScript `String.prototype.split` with a one-character
separator string. -/
def splitOnCharAux (sep : Char) (acc : List Char) : List Char → List (List Char)
  | [] => [acc.reverse]
  | c :: rest =>
    if c = sep then acc.reverse :: splitOnCharAux sep [] rest
    else splitOnCharAux sep (c :: acc) rest

/-- Splitting entry point; on the empty list it yields one empty piece, exactly
as `"".split(".")` yields `[""]`. -/
def splitOnChar (sep : Char) (l : List Char) : List (List Char) :=
  splitOnCharAux sep [] l

/-- Coercion of one step segment by `Number`, with `NaN` falling back to `0`
(`Number.isNaN(parsed) ? 0 : parsed` in `parseStepSequence`). -/
def segValue (seg : List Char) : ℤ :=
  match jsToNumber (String.mk seg) with
  | JSNum.nan => 0
  | JSNum.int n => n

/-- Transliteration of `parseStepSequence`: split the step string on `.` and
coerce each segment. -/
def parseStepSequence (step : String) : List ℤ :=
  (splitOnChar '.' step.data).map segValue

/-- Tail of the `compareStepIdentifiers` loop once the first segment sequence
is exhausted: remaining segments of the second sequence are compared against
an implicit `0`. -/
def segZero : List ℤ → ℤ
  | [] => 0
  | b :: br => if 0 ≠ b then 0 - b else segZero br

/-- Transliteration of the index loop of `compareStepIdentifiers` (second
part): walk both segment sequences left to right reading a missing trailing
segment as `0` (`aParts[i] ?? 0`), and return the first non-zero difference,
else `0`.  The loop is rendered as structural recursion on the first sequence,
with `segZero` handling the tail once the first sequence is exhausted. -/
def segCompare : List ℤ → List ℤ → ℤ
  | [], b => segZero b
  | a :: ar, [] => if a ≠ 0 then a - 0 else segCompare ar []
  | a :: ar, b :: br => if a ≠ b then a - b else segCompare ar br

/-- Strict inequality `!==` on modelled JavaScript numbers: `NaN` differs from
every value including itself. -/
def jsStrictNe (x y : JSNum) : Bool :=
  match x, y with
  | JSNum.nan, _ => true
  | _, JSNum.nan => true
  | JSNum.int m, JSNum.int n => decide (m ≠ n)

/-- Subtraction on modelled JavaScript numbers; `NaN` is absorbing. -/
def jsSub (x y : JSNum) : JSNum :=
  match x, y with
  | JSNum.int m, JSNum.int n => JSNum.int (m - n)
  | _, _ => JSNum.nan

/-- Transliteration of `compareStepIdentifiers` from `work-node.ts`. -/
def compareStepIdentifiers (a b : StepIdentifier) : JSNum :=
  if jsStrictNe a.phase b.phase then jsSub a.phase b.phase
  else JSNum.int (segCompare (parseStepSequence a.step) (parseStepSequence b.step))

/-- Numeric value the ECMAScript `SortCompare` operation extracts from a
comparator result: a `NaN` comparator result counts as `+0`. -/
def jsSortVal (x : JSNum) : ℤ :=
  match x with
  | JSNum.nan => 0
  | JSNum.int n => n

/-- Stable insertion of an element into a list sorted by a comparator: the new
element goes in front of the first strictly greater element, hence after every
element that compares equal to it. -/
def jsInsert {α : Type} (cmp : α → α → JSNum) (x : α) : List α → List α
  | [] => [x]
  | y :: ys =>
    if jsSortVal (cmp x y) < 0 then x :: y :: ys else y :: jsInsert cmp x ys

/-- Model of `Array.prototype.sort` with a comparator, as a stable insertion
sort.  ES2019 requires `sort` to be stable, and for a consistent comparator the
stable sorted order is uniquely determined, so any conforming implementation
agrees with this one there. -/
def jsSort {α : Type} (cmp : α → α → JSNum) : List α → List α
  | [] => []
  | x :: xs => jsInsert cmp x (jsSort cmp xs)

/-- Transliteration of `findNextActionableStep` from `work-node.ts`. -/
def findNextActionableStep (state : WorkState) : Option StateRow :=
  let inProgress := state.entries.filter (fun e => e.status == StepStatus.inProgress)
  match inProgress with
  | e :: _ => some e
  | [] =>
    let todo := state.entries.filter (fun e => e.status == StepStatus.todo)
    (jsSort (fun a b => compareStepIdentifiers a.toStepIdentifier b.toStepIdentifier) todo).head?

/-- Identity key of a step as built by `buildStepKey`: the template literal
interpolation of `${identifier.phase}:${identifier.step}`. -/
def buildStepKey (phase : JSNum) (step : String) : String :=
  jsNumToString phase ++ ":" ++ step

/-- Error categories raised by `ensurePlanStateConsistency`; each constructor
corresponds to one of the distinct `throw new Error(...)` sites of the source
and carries the data interpolated into its message. -/
inductive ConsistencyError where
  | duplicatePlanStep (key : String)
  | duplicateStateEntry (key : String)
  | missingStateEntry (key : String) (planLabel : String)
  | labelMismatch (key : String) (planLabel : String) (stateLabel : String)
  | unexpectedStateEntry (key : String) (stateLabel : String)
  deriving DecidableEq, Repr

/-- Construction of an insertion-ordered key-to-value map that fails on the
first repeated key, as the `planMap`/`stateMap` loops of
`ensurePlanStateConsistency` do with a JavaScript `Map`. -/
def insertUnique {α : Type} (keyOf : α → String) (acc : List (String × α)) :
    List α → Except String (List (String × α))
  | [] => Except.ok acc
  | x :: xs =>
    if (acc.map Prod.fst).contains (keyOf x) then Except.error (keyOf x)
    else insertUnique keyOf (acc ++ [(keyOf x, x)]) xs

/-- Lookup in an insertion-ordered map, mirroring `Map.prototype.get`. -/
def mapGet {α : Type} (m : List (String × α)) (key : String) : Option α :=
  (m.find? (fun p => p.fst == key)).map Prod.snd

/-- Loop of `ensurePlanStateConsistency` over the plan map: each plan key must
occur in the state map with an identical label. -/
def checkPlanEntries (stateMap : List (String × StateRow)) :
    List (String × PlanStep) → Except ConsistencyError Unit
  | [] => Except.ok ()
  | (key, stp) :: rest =>
    match mapGet stateMap key with
    | none => Except.error (ConsistencyError.missingStateEntry key stp.label)
    | some entry =>
      if entry.label ≠ stp.label then
        Except.error (ConsistencyError.labelMismatch key stp.label entry.label)
      else checkPlanEntries stateMap rest

/-- Loop of `ensurePlanStateConsistency` over the state map: each state key
must occur in the plan map. -/
def checkStateEntries (planMap : List (String × PlanStep)) :
    List (String × StateRow) → Except ConsistencyError Unit
  | [] => Except.ok ()
  | (key, entry) :: rest =>
    if (planMap.map Prod.fst).contains key then checkStateEntries planMap rest
    else Except.error (ConsistencyError.unexpectedStateEntry key entry.label)

/-- Key of a plan step as used by `ensurePlanStateConsistency`. -/
def planStepKey (s : PlanStep) : String := buildStepKey s.phase s.step

/-- Key of a state row as used by `ensurePlanStateConsistency`. -/
def stateRowKey (e : StateRow) : String := buildStepKey e.phase e.step

/-- Transliteration of `ensurePlanStateConsistency` from `work-node.ts`, with
the thrown `Error` objects represented by `ConsistencyError` values. -/
def ensurePlanStateConsistency (plan : WorkPlan) (state : WorkState) :
    Except ConsistencyError Unit :=
  match insertUnique planStepKey [] plan.steps with
  | Except.error key => Except.error (ConsistencyError.duplicatePlanStep key)
  | Except.ok planMap =>
    match insertUnique stateRowKey [] state.entries with
    | Except.error key => Except.error (ConsistencyError.duplicateStateEntry key)
    | Except.ok stateMap =>
      match checkPlanEntries stateMap planMap with
      | Except.error e => Except.error e
      | Except.ok _ => checkStateEntries planMap stateMap

/-- Splitting of text into lines on the pattern `\r?\n`, as
`content.split(...)` does: every newline ends a line, consuming one
immediately preceding carriage return; a lone carriage return stays inside its line. -/
def splitLinesAux : List Char → List Char → List (List Char)
  | acc, [] => [acc.reverse]
  | acc, [c] =>
    if c = '\n' then [acc.reverse, []]
    else [(c :: acc).reverse]
  | acc, c :: d :: rest =>
    if c = '\n' then acc.reverse :: splitLinesAux [] (d :: rest)
    else if c = '\r' ∧ d = '\n' then acc.reverse :: splitLinesAux [] rest
    else splitLinesAux (c :: acc) (d :: rest)

/-- Line splitting entry point. -/
def splitLines (s : String) : List String :=
  (splitLinesAux [] s.data).map String.mk

/-- Prefix test on strings (the `String.prototype.startsWith` uses in
`parseStateRows`). -/
def strStartsWith (s pre : String) : Bool :=
  pre.data.isPrefixOf s.data

/-- Shape test of `STATE_ROW_REGEX` (five `[^|]+` captures between pipes,
anchored at both ends): a line matches exactly when it
consists of a pipe, five non-empty pipe-free cells separated by pipes, and a
closing pipe, spanning the whole line; the five captured cells are returned
(captures differ from the full cells only by whitespace, which the caller
trims away, so the full cells are returned here). -/
def stateRowMatch (line : String) : Option (String × String × String × String × String) :=
  match splitOnChar '|' line.data with
  | [pre, c1, c2, c3, c4, c5, post] =>
    if pre = [] ∧ post = [] ∧ c1 ≠ [] ∧ c2 ≠ [] ∧ c3 ≠ [] ∧ c4 ≠ [] ∧ c5 ≠ [] then
      some (String.mk c1, String.mk c2, String.mk c3, String.mk c4, String.mk c5)
    else none
  | _ => none

/-- Transliteration of `parseStateRows` from `work-node.ts`: skip blank lines
and the header and separator rows, silently skip lines that do not match the
row shape, abort with an error on an invalid status value, and otherwise
accumulate rows in source order. -/
def parseStateRows : List String → Except String (List StateRow)
  | [] => Except.ok []
  | raw :: rest =>
    if jsTrim raw = "" ∨ strStartsWith (jsTrim raw) "| Phase" = true ∨
        strStartsWith (jsTrim raw) "| -----" = true then
      parseStateRows rest
    else
      match stateRowMatch raw with
      | none => parseStateRows rest
      | some (c1, c2, c3, c4, c5) =>
        match statusOfString (jsTrim c4) with
        | none => Except.error ("unexpected status '" ++ jsTrim c4 ++ "' in STATE.md")
        | some st =>
          match parseStateRows rest with
          | Except.error e => Except.error e
          | Except.ok rows =>
            Except.ok (⟨⟨jsToNumber (jsTrim c1), jsTrim c2, jsTrim c3⟩, st,
              if jsTrim c5 = "-" ∨ jsTrim c5 = "" then none else some (jsTrim c5)⟩ :: rows)

/-- Parsing of a whole STATE document, as `parseState` does after reading the
file: split into lines and scan the rows. -/
def parseStateText (content : String) : Except String (List StateRow) :=
  parseStateRows (splitLines content)

/-- Row serialization of `writeState`: the 5-column template literal with
`progressLog` rendered as `-` when null. -/
def writeStateRow (entry : StateRow) : String :=
  "| " ++ jsNumToString entry.phase ++ " | " ++ entry.step ++ " | " ++ entry.label ++
    " | " ++ statusToString entry.status ++ " | " ++ entry.progressLog.getD "-" ++ " |"

/-- Joining of lines by a newline, as the `join` call of `writeState`. -/
def joinWithNewline : List String → String
  | [] => ""
  | [l] => l
  | l :: rest => l ++ "\n" ++ joinWithNewline rest

/-- Content produced by `writeState`: header, separator, one row line per
entry, joined by newlines, with a final newline appended, handed to the atomic
writer. -/
def writeStateContent (state : WorkState) : String :=
  joinWithNewline
    ("| Phase | Step | Label | Status | Progress Log |" ::
      "| ----- | ---- | ----- | ------ | ------------ |" ::
      state.entries.map writeStateRow) ++ "\n"

/-- Record from the `WorkNodeLayout` interface. -/
structure WorkNodeLayout where
  root : String
  planPath : String
  statePath : String
  logsDir : String
  deriving DecidableEq, Repr

/-- Record from the `LogPaths` interface returned by `canonicalLogPaths`. -/
structure LogPaths where
  absolute : String
  relative : String
  deriving DecidableEq, Repr

/-- Model of `path.join` on the normalized POSIX paths this module passes:
a directory joined with one name segment. -/
def pathJoin (dir name : String) : String := dir ++ "/" ++ name

/-- Model of the `path.relative(root, absolute).split(path.sep).join("/")`
computation of `canonicalLogPaths` on normalized POSIX paths: when the target
lies below the root, the root prefix and its separator are removed. -/
def pathRelative (root target : String) : String :=
  if (root ++ "/").data.isPrefixOf target.data then
    String.mk (target.data.drop (root ++ "/").data.length)
  else target

/-- Transliteration of `canonicalLogPaths`: the deterministic log filename
`p<phase>-s<step>.md` inside the logs directory, with its root-relative form. -/
def canonicalLogPaths (layout : WorkNodeLayout) (identifier : StepIdentifier) : LogPaths :=
  { absolute := pathJoin layout.logsDir
      ("p" ++ jsNumToString identifier.phase ++ "-s" ++ identifier.step ++ ".md"),
    relative := pathRelative layout.root (pathJoin layout.logsDir
      ("p" ++ jsNumToString identifier.phase ++ "-s" ++ identifier.step ++ ".md")) }

/-- File-system model for the log and layout operations: an association list
from paths to file contents.  Directories are not modelled, so the
`fs.mkdir(logsDir, recursive)` call of `createStepLog` is a no-op here. -/
def Fs : Type := List (String × String)

/-- Model of the atomic temp-and-rename write: the path now maps to the new
content, every other path is untouched. -/
def fsWrite (fs : Fs) (path content : String) : Fs :=
  (path, content) :: List.filter (fun p => p.fst ≠ path) fs

/-- Template rendered by `createStepLog` for a fresh log: heading, `status:`
and `started:` lines, a Scope section from the detail bullets (or the label),
a Plan checklist from the bullets (or a single placeholder), and empty Notes
and Outcomes sections.  The `new Date().toISOString()` timestamp enters as the
`now` parameter. -/
def logTemplate (planStep : PlanStep) (status : StepStatus) (now : String) : String :=
  joinWithNewline
    ["# Phase " ++ jsNumToString planStep.phase ++ " – Step " ++ planStep.step ++
        ": " ++ planStep.label,
      "status: " ++ statusToString status,
      "started: " ++ now,
      "",
      "## Scope",
      (if planStep.details.getD [] ≠ [] then
        String.intercalate " · " (planStep.details.getD [])
      else planStep.label),
      "",
      "## Plan",
      (if planStep.details.getD [] ≠ [] then
        String.intercalate "\n" ((planStep.details.getD []).map (fun d => "- [ ] " ++ d))
      else "- [ ] TODO"),
      "",
      "## Notes",
      "",
      "## Outcomes",
      ""]

/-- Transliteration of `createStepLog` (the canonical temp-and-rename
variant): if the canonical file already exists, return its relative path with
the file system unchanged; otherwise write the rendered template and return
the relative path. -/
def createStepLog (layout : WorkNodeLayout) (planStep : PlanStep)
    (status : StepStatus) (now : String) (fs : Fs) : Fs × String :=
  match mapGet fs (canonicalLogPaths layout planStep.toStepIdentifier).absolute with
  | some _ => (fs, (canonicalLogPaths layout planStep.toStepIdentifier).relative)
  | none =>
    (fsWrite fs (canonicalLogPaths layout planStep.toStepIdentifier).absolute
        (logTemplate planStep status now),
      (canonicalLogPaths layout planStep.toStepIdentifier).relative)

/-- Expected kind of a required layout entry (`expected: "file" | "directory"`). -/
inductive EntryKind where
  | file
  | directory
  deriving DecidableEq, Repr

/-- Result of an `fs.stat` call in the layout model. -/
inductive StatResult where
  | file
  | directory
  | other
  | enoent
  | ioError (message : String)
  deriving DecidableEq, Repr

/-- Check of one required entry of `validateWorkNodeLayout`, yielding the
pushed failure message when the entry is violated. -/
def entryFailure (stat : String → StatResult) (candidate : String)
    (expected : EntryKind) (relativeName root : String) : Option String :=
  match stat candidate with
  | StatResult.file =>
    if expected = EntryKind.file then none
    else some (relativeName ++ " exists but is not a directory")
  | StatResult.directory =>
    if expected = EntryKind.directory then none
    else some (relativeName ++ " exists but is not a file")
  | StatResult.other =>
    if expected = EntryKind.file then some (relativeName ++ " exists but is not a file")
    else some (relativeName ++ " exists but is not a directory")
  | StatResult.enoent => some (relativeName ++ " was not found under " ++ root)
  | StatResult.ioError msg => some ("failed to stat " ++ relativeName ++ ": " ++ msg)

/-- Layout derived from a root, as `validateWorkNodeLayout` builds it
(`path.resolve` modelled as the identity: callers pass normalized absolute
roots). -/
def layoutOf (root : String) : WorkNodeLayout :=
  { root := root, planPath := pathJoin root "PLAN.md",
    statePath := pathJoin root "STATE.md", logsDir := pathJoin root "logs" }

/-- Transliteration of `validateWorkNodeLayout`, with the file system entering
as a `stat` function and the concurrent `Promise.all` loop flattened to the
declaration order of `requiredEntries` (the failure set is the same; the sync
variant checks in exactly this order).  Failures accumulate without
short-circuiting; the aggregate error carries every failure message. -/
def validateWorkNodeLayout (stat : String → StatResult) (root : String) :
    Except (List String) WorkNodeLayout :=
  match List.filterMap id
    [entryFailure stat (layoutOf root).planPath EntryKind.file "PLAN.md" root,
      entryFailure stat (layoutOf root).statePath EntryKind.file "STATE.md" root,
      entryFailure stat (layoutOf root).logsDir EntryKind.directory "logs" root] with
  | [] => Except.ok (layoutOf root)
  | failures => Except.error failures

/-- Record from the `WorkNodeRelation` interface. -/
structure WorkNodeRelation where
  layout : WorkNodeLayout
  parent : Option WorkNodeLayout
  children : List WorkNodeLayout
  deriving DecidableEq, Repr

/-- Ancestor test of `buildWorkNodeRelations`: the source computes
`path.relative(ancestor, descendant)` and requires it neither empty, nor
starting with `..`, nor absolute.  On the normalized absolute slash-separated
paths produced by discovery this holds exactly when the ancestor differs from
the descendant and the ancestor followed by a separator is a prefix of the
descendant, which is the path-segment (not string-prefix) relation. -/
def isAncestor (ancestor descendant : String) : Bool :=
  decide (ancestor ≠ descendant) && (ancestor ++ "/").data.isPrefixOf descendant.data

/-- Three-way code-point comparison of strings, modelling the
`localeCompare`-based root sort (collation beyond code points is not modelled;
no property proved depends on the sort order). -/
def charListCompare : List Char → List Char → ℤ
  | [], [] => 0
  | [], _ :: _ => -1
  | _ :: _, [] => 1
  | a :: ar, b :: br =>
    if a.toNat ≠ b.toNat then (a.toNat : ℤ) - (b.toNat : ℤ) else charListCompare ar br

/-- Comparator `(a, b) => b.layout.root.length - a.layout.root.length` used to
pick the deepest ancestor. -/
def rootLengthCompare (a b : WorkNodeLayout) : JSNum :=
  JSNum.int ((b.root.length : ℤ) - (a.root.length : ℤ))

/-- Comparator `(a, b) => a.root.localeCompare(b.root)` used to pre-sort the
layouts. -/
def rootNameCompare (a b : WorkNodeLayout) : JSNum :=
  JSNum.int (charListCompare a.root.data b.root.data)

/-- The `candidates` filter of the relation loop: the other layouts whose root
is an ancestor of this one. -/
def ancestorCandidates (sorted : List WorkNodeLayout) (l : WorkNodeLayout) :
    List WorkNodeLayout :=
  sorted.filter (fun c => c ≠ l ∧ isAncestor c.root l.root = true)

/-- Parent computation of the relation loop: sort the ancestor candidates by
descending root length and take the first (`candidates[0]`), if any. -/
def relationParent (sorted : List WorkNodeLayout) (l : WorkNodeLayout) :
    Option WorkNodeLayout :=
  (jsSort rootLengthCompare (ancestorCandidates sorted l)).head?

/-- Functional rendering of `buildWorkNodeRelations`: the loop mutates a
pre-built relation array, computing each relation-s parent independently and
pushing the relation onto its parent-s children in iteration order; that is
equivalent to mapping each sorted layout to its parent and collecting as
children the sorted layouts whose parent it is.  The `candidate !== relation`
object-identity test coincides with value inequality on a duplicate-free
layout list. -/
def buildWorkNodeRelations (nodes : List WorkNodeLayout) : List WorkNodeRelation :=
  (jsSort rootNameCompare nodes).map
    (fun l =>
      { layout := l,
        parent := relationParent (jsSort rootNameCompare nodes) l,
        children := (jsSort rootNameCompare nodes).filter
          (fun c => relationParent (jsSort rootNameCompare nodes) c = some l) })

/-- Stat outcome required of an entry kind. -/
def expectedStat : EntryKind → StatResult
  | EntryKind.file => StatResult.file
  | EntryKind.directory => StatResult.directory

/-- A concrete file system for the validation example: only `STATE.md` under
the root `/r` exists. -/
def statOnlyState (p : String) : StatResult :=
  if p = "/r/STATE.md" then StatResult.file else StatResult.enoent

/-- `raw.replace(/\\r$/, "")`: one trailing carriage return is removed. -/
def stripCR (l : List Char) : List Char :=
  match l.getLast? with
  | some c => if c = '\r' then l.dropLast else l
  | none => l

/-- Case-insensitive match of the literal `Step` at the front of a line
(without the `u` flag ECMAScript canonicalization folds only ASCII case for
ASCII letters). -/
def stripStepCI (l : List Char) : Option (List Char) :=
  match l with
  | c1 :: c2 :: c3 :: c4 :: rest =>
    if (c1 = 'S' ∨ c1 = 's') ∧ (c2 = 'T' ∨ c2 = 't') ∧ (c3 = 'E' ∨ c3 = 'e') ∧
        (c4 = 'P' ∨ c4 = 'p') then
      some rest
    else none
  | _ => none

/-- Maximal munch of `(?:\\.[0-9]+)*` onto an already-matched digit run:
repeatedly consume a dot followed by a non-empty digit run.  Fuel-driven so
that the definition is structural. -/
def dottedRunAux : Nat → List Char → List Char → List Char × List Char
  | 0, acc, rest => (acc, rest)
  | Nat.succ fuel, acc, rest =>
    if rest.head? = some '.' ∧ rest.tail.takeWhile Char.isDigit ≠ [] then
      dottedRunAux fuel (acc ++ '.' :: rest.tail.takeWhile Char.isDigit)
        (rest.tail.dropWhile Char.isDigit)
    else (acc, rest)

/-- Match of `([0-9]+(?:\\.[0-9]+)*)`: a digit run followed by further
dot-digit groups, maximal.  (Backtracking can never shorten this group: it is
followed by `\\s*:`, and neither a digit nor a dot can satisfy that
continuation.) -/
def dottedRun (l : List Char) : Option (List Char × List Char) :=
  if l.takeWhile Char.isDigit = [] then none
  else some (dottedRunAux l.length (l.takeWhile Char.isDigit) (l.dropWhile Char.isDigit))

/-- Match of a trailing `\\s*(.+)$` (no `m` flag: `$` is the end of the line
string, `.` excludes line terminators), returning the text captured by `.+`.
The greedy `\\s*` first takes the whole whitespace run; if nothing is left for
`.+` it backtracks exactly one character, which must then be matchable by
`.`. -/
def wsDotPlus (r : List Char) : Option (List Char) :=
  if r.dropWhile isJsWs ≠ [] then
    if (r.dropWhile isJsWs).all (fun c => !(isLineTerm c)) then
      some (r.dropWhile isJsWs)
    else none
  else
    match r.getLast? with
    | some c => if isLineTerm c then none else some [c]
    | none => none

/-- Match of the `\\s+(?!Step)(.+)$` tail of `DETAIL_LINE_REGEX` against the
text after the dash.  The greedy `\\s+` takes the maximal whitespace run; when
the remainder starts with `Step` (case-insensitive) the negative lookahead
forces one backtracking step, so the detail matches only when at least two
whitespace characters follow the dash, and the capture then starts at the last
of them.  A line whose tail is all whitespace matches only with a single
trailing whitespace character as the capture. -/
def detailTail (u : List Char) : Option (List Char) :=
  if u.takeWhile isJsWs = [] then none
  else if u.dropWhile isJsWs ≠ [] then
    if (u.dropWhile isJsWs).all (fun c => !(isLineTerm c)) then
      if (stripStepCI (u.dropWhile isJsWs)).isSome then
        if 2 ≤ (u.takeWhile isJsWs).length then
          match (u.takeWhile isJsWs).getLast? with
          | some c =>
            if isLineTerm c then none else some (c :: u.dropWhile isJsWs)
          | none => none
        else none
      else some (u.dropWhile isJsWs)
    else none
  else
    if 2 ≤ u.length then
      match u.getLast? with
      | some c => if isLineTerm c then none else some [c]
      | none => none
    else none

/-- Match of `STEP_DECLARATION_REGEX`
`/^\\s*-\\s*Step\\s+(\\d+)\\.([0-9]+(?:\\.[0-9]+)*)\\s*:\\s*(.+)$/i` against a
line, yielding the three captured groups.  Every quantifier here is greedy
against a continuation its repeated class cannot match, so maximal munch is
exact; only the final `\\s*(.+)$` can backtrack, handled in `wsDotPlus`. -/
def stepDeclParse (l : List Char) : Option (List Char × List Char × List Char) :=
  if (l.dropWhile isJsWs).head? = some '-' then
    match stripStepCI (((l.dropWhile isJsWs).tail).dropWhile isJsWs) with
    | none => none
    | some r4 =>
      if r4.takeWhile isJsWs = [] then none
      else
        if (r4.dropWhile isJsWs).takeWhile Char.isDigit = [] then none
        else
          if ((r4.dropWhile isJsWs).dropWhile Char.isDigit).head? = some '.' then
            match dottedRun ((r4.dropWhile isJsWs).dropWhile Char.isDigit).tail with
            | none => none
            | some (g2, r8) =>
              if (r8.dropWhile isJsWs).head? = some ':' then
                match wsDotPlus (r8.dropWhile isJsWs).tail with
                | none => none
                | some g3 =>
                  some ((r4.dropWhile isJsWs).takeWhile Char.isDigit, g2, g3)
              else none
          else none
  else none

/-- Match of `DETAIL_LINE_REGEX` `/^\\s*-\\s+(?!Step)(.+)$/i` against a line,
yielding the captured detail text. -/
def detailParse (l : List Char) : Option (List Char) :=
  if (l.dropWhile isJsWs).head? = some '-' then detailTail (l.dropWhile isJsWs).tail
  else none

/-- The `PlanStep` built from the three captured groups of a declaration. -/
def declStep (g : List Char × List Char × List Char) : PlanStep :=
  { phase := jsToNumber (String.mk g.1), step := String.mk g.2.1,
    label := String.mk (trimChars g.2.2), details := none }

/-- Flush of the current step: the detail buffer becomes the detail list when
non-empty, otherwise the field stays absent. -/
def planFlushStep (c : PlanStep) (buffer : List String) : PlanStep :=
  if buffer = [] then c else { c with details := some buffer }

/-- Loop of `parsePlanLines`: a declaration flushes the current step and its
buffered details and opens a new one; otherwise, with a step open, a matching
detail line is trimmed and buffered; everything else is skipped.  The final
step is flushed at the end of input. -/
def parsePlanAux :
    Option PlanStep → List String → List PlanStep → List String → List PlanStep
  | current, buffer, steps, [] =>
    match current with
    | none => steps
    | some c => steps ++ [planFlushStep c buffer]
  | current, buffer, steps, raw :: rest =>
    match stepDeclParse (stripCR raw.data) with
    | some g =>
      match current with
      | none => parsePlanAux (some (declStep g)) [] steps rest
      | some c =>
        parsePlanAux (some (declStep g)) [] (steps ++ [planFlushStep c buffer]) rest
    | none =>
      match current with
      | none => parsePlanAux none buffer steps rest
      | some c =>
        match detailParse (stripCR raw.data) with
        | some t =>
          parsePlanAux (some c) (buffer ++ [String.mk (trimChars t)]) steps rest
        | none => parsePlanAux (some c) buffer steps rest

/-- Transliteration of `parsePlanLines`. -/
def parsePlanLines (lines : List String) : List PlanStep :=
  parsePlanAux none [] [] lines

/-- The detail contributed by one line, if any: the trimmed capture of the
detail pattern on the CR-stripped line. -/
def detailOf (l : String) : Option String :=
  (detailParse (stripCR l.data)).map (fun t => String.mk (trimChars t))

/-- A bulleted line in the sense of the specification text: after leading
whitespace, a dash, at least one whitespace character, and some content.
(This definition follows the specification wording, for comparison against the
parser translated from the source.) -/
def isBulletLine (s : String) : Bool :=
  decide ((s.data.dropWhile isJsWs).head? = some '-') &&
    decide ((s.data.dropWhile isJsWs).tail.takeWhile isJsWs ≠ []) &&
    decide ((s.data.dropWhile isJsWs).tail.dropWhile isJsWs ≠ [])

/-- Truthiness of an optional string under JavaScript coercion: absent and
empty are falsy. -/
def jsTruthyStr : Option String → Bool
  | none => false
  | some s => decide (s ≠ "")

/-- The `updates` argument of `updateLogHeader`. -/
structure HeaderUpdates where
  status : Option StepStatus
  completed : Option String

/-- Indices at which a `^` anchor with the `m` flag can match beyond the
start: one past every `LineTerminator` character, in ascending order. -/
def lineStartsAux : Nat → List Char → List Nat
  | _, [] => []
  | i, c :: rest =>
    if isLineTerm c then (i + 1) :: lineStartsAux (i + 1) rest
    else lineStartsAux (i + 1) rest

/-- All match positions of `^` under the `m` flag: the start of the string and
one past every line terminator, ascending. -/
def lineStarts (l : List Char) : List Nat :=
  0 :: lineStartsAux 0 l

/-- Length matched by a trailing `\\s*.+$` (with the `m` flag) at a fixed
position, against the rest of the string `r`.  The greedy `\\s*` takes the
maximal whitespace run — `\\s` includes line terminators, so it can cross
lines — after which `.+` takes the maximal run of non-terminators, and `$`
holds at its end.  When the whole of `r` is whitespace, backtracking hands
back characters until `.+` can take the last non-terminator before the
trailing terminators, if there is one. -/
def tailMatchLen (r : List Char) : Option Nat :=
  if r.dropWhile isJsWs ≠ [] then
    some ((r.takeWhile isJsWs).length +
      ((r.dropWhile isJsWs).takeWhile (fun c => !(isLineTerm c))).length)
  else
    if r.length - (r.reverse.takeWhile isLineTerm).length = 0 then none
    else some (r.length - (r.reverse.takeWhile isLineTerm).length)

/-- Match attempt of `^<lit>\\s*.+$` (flag `m`) at position `i`: the literal
must follow, and then `tailMatchLen` gives the rest of the extent. -/
def matchHeaderAt (lit : List Char) (l : List Char) (i : Nat) : Option Nat :=
  if lit.isPrefixOf (l.drop i) then
    (tailMatchLen ((l.drop i).drop lit.length)).map (fun n => lit.length + n)
  else none

/-- Match attempt of `/^started:.*$/m` at position `i`: `.*` takes the maximal
non-terminator run, after which `$` always holds. -/
def matchStartedAt (l : List Char) (i : Nat) : Option Nat :=
  if ("started:".data).isPrefixOf (l.drop i) then
    some (8 + (((l.drop i).drop 8).takeWhile (fun c => !(isLineTerm c))).length)
  else none

/-- First successful attempt over a list of candidate positions, as the
regular-expression engine scans left to right. -/
def findFirst (f : Nat → Option Nat) : List Nat → Option (Nat × Nat)
  | [] => none
  | i :: rest =>
    match f i with
    | some len => some (i, len)
    | none => findFirst f rest

/-- First match of `STATUS_LINE_REGEX` (`/^status:\\s*.+$/m`): position and
length. -/
def statusRegexMatch (l : List Char) : Option (Nat × Nat) :=
  findFirst (matchHeaderAt ("status:".data) l) (lineStarts l)

/-- First match of `COMPLETED_LINE_REGEX` (`/^completed:\\s*.+$/m`). -/
def completedRegexMatch (l : List Char) : Option (Nat × Nat) :=
  findFirst (matchHeaderAt ("completed:".data) l) (lineStarts l)

/-- First match of `/^started:.*$/m`. -/
def startedRegexMatch (l : List Char) : Option (Nat × Nat) :=
  findFirst (matchStartedAt l) (lineStarts l)

/-- `String.prototype.replace` of one matched extent by a literal replacement.
(`$`-substitution patterns are not modelled: the strings substituted here are
canonical status names and timestamps, which contain no dollar sign.) -/
def replaceExtent (l : List Char) (pos len : Nat) (repl : List Char) : List Char :=
  l.take pos ++ repl ++ l.drop (pos + len)

/-- The status step of `updateLogHeader`: a present (hence truthy) status
replaces the first `STATUS_LINE_REGEX` match, or is prepended when there is
none. -/
def applyStatus (contents : List Char) (status : Option StepStatus) : List Char :=
  match status with
  | none => contents
  | some st =>
    match statusRegexMatch contents with
    | some (pos, len) =>
      replaceExtent contents pos len ("status: " ++ statusToString st).data
    | none => ("status: " ++ statusToString st).data ++ '\n' :: contents

/-- The completed step of `updateLogHeader`: a falsy (absent or empty) value
is skipped; otherwise it replaces the first `COMPLETED_LINE_REGEX` match, or
is inserted right after the first `/^started:.*$/m` match, or is prepended. -/
def applyCompleted (contents : List Char) (completed : Option String) : List Char :=
  match completed with
  | none => contents
  | some comp =>
    if comp = "" then contents
    else
      match completedRegexMatch contents with
      | some (pos, len) => replaceExtent contents pos len ("completed: " ++ comp).data
      | none =>
        match startedRegexMatch contents with
        | some (pos, len) =>
          contents.take (pos + len) ++ ('\n' :: ("completed: " ++ comp).data) ++
            contents.drop (pos + len)
        | none => ("completed: " ++ comp).data ++ '\n' :: contents

/-- Transliteration of `updateLogHeader` on in-memory contents: if both
updates are falsy the contents are returned unchanged; otherwise the status
step runs first and the completed step runs on its result. -/
def updateLogHeader (contents : List Char) (updates : HeaderUpdates) : List Char :=
  if updates.status.isSome = false ∧ jsTruthyStr updates.completed = false then
    contents
  else applyCompleted (applyStatus contents updates.status) updates.completed

/-- Block-level specification of the plan parser over a whole line list,
fuel-driven so that it is executable (each step consumes at least the
declaration line, so the line count is enough fuel): each declaration line
opens a step whose detail list collects the trimmed detail captures of the
following lines up to the next declaration, in source order, and stays absent
when there are none; lines before the first declaration contribute nothing. -/
def planSpecAux : Nat → List String → List PlanStep
  | 0, _ => []
  | Nat.succ _, [] => []
  | Nat.succ fuel, raw :: rest =>
    match stepDeclParse (stripCR raw.data) with
    | none => planSpecAux fuel rest
    | some g =>
      planFlushStep (declStep g)
          ((rest.takeWhile (fun l => stepDeclParse (stripCR l.data) = none)).filterMap
            detailOf) ::
        planSpecAux fuel
          (rest.dropWhile (fun l => stepDeclParse (stripCR l.data) = none))

/-- The block-level reading of a plan text: declarations delimit blocks, each
block's detail captures become that step's detail list. -/
def planSpec (lines : List String) : List PlanStep :=
  planSpecAux lines.length lines

/-! Lemmas about the segment comparison underlying `compareStepIdentifiers`. -/

theorem segCompare_nil_right (b : List ℤ) : segCompare b [] = -segZero b := by
  induction b with
  | nil => simp [segCompare, segZero]
  | cons y ys ih =>
    simp only [segCompare, segZero, ih]
    by_cases h : y = 0 <;> simp [h] <;> omega

theorem segCompare_neg (a : List ℤ) : ∀ b, segCompare b a = -segCompare a b := by
  induction a with
  | nil =>
    intro b
    simp only [segCompare]
    exact segCompare_nil_right b
  | cons x xs ih =>
    intro b
    cases b with
    | nil =>
      rw [segCompare_nil_right (x :: xs)]
      simp [segCompare]
    | cons y ys =>
      simp only [segCompare]
      by_cases h : x = y
      · simp [h, ih ys]
      · simp [h, Ne.symm h]

theorem segCompare_self (a : List ℤ) : segCompare a a = 0 := by
  induction a with
  | nil => simp [segCompare, segZero]
  | cons x xs ih => simp [segCompare, ih]

theorem segCompare_rep_nil (k : Nat) : segCompare (List.replicate k 0) [] = 0 := by
  induction k with
  | zero => simp [segCompare, segZero]
  | succ n ih => simp [List.replicate, segCompare, ih]

theorem segCompare_rep_left (b : List ℤ) : ∀ k, segCompare (List.replicate k 0) b = segZero b := by
  induction b with
  | nil =>
    intro k
    rw [segCompare_rep_nil]
    simp [segZero]
  | cons y ys ih =>
    intro k
    cases k with
    | zero => rfl
    | succ n => simp [List.replicate, segCompare, segZero, ih]

theorem segCompare_append_rep_left (a : List ℤ) : ∀ b k, segCompare (a ++ List.replicate k 0) b = segCompare a b := by
  induction a with
  | nil => intro b k; simp [segCompare_rep_left, segCompare]
  | cons x xs ih =>
    intro b k
    cases b with
    | nil => simp [segCompare, ih]
    | cons y ys => simp [segCompare, ih]

theorem segCompare_append_rep_right (a b : List ℤ) (k : Nat) :
    segCompare a (b ++ List.replicate k 0) = segCompare a b := by
  rw [segCompare_neg b a] at *
  rw [segCompare_neg (b ++ List.replicate k 0) a, segCompare_append_rep_left]

theorem segCompare_le_trans_len (a : List ℤ) : ∀ b c, a.length = b.length → b.length = c.length →
    segCompare a b ≤ 0 → segCompare b c ≤ 0 → segCompare a c ≤ 0 := by
  induction a with
  | nil =>
    intro b c hab hbc
    cases b <;> cases c <;> simp_all [segCompare, segZero]
  | cons x xs ih =>
    intro b c hab hbc
    cases b with
    | nil => simp at hab
    | cons y ys =>
      cases c with
      | nil => simp at hbc
      | cons z zs =>
        simp only [List.length_cons, Nat.add_right_cancel_iff] at hab hbc
        simp only [segCompare]
        intro h1 h2
        by_cases hxy : x = y <;> by_cases hyz : y = z
        · subst hxy; subst hyz
          simp only [ne_eq, not_true_eq_false, if_false] at h1 h2 ⊢
          exact ih ys zs hab hbc h1 h2
        · subst hxy
          rw [if_pos hyz] at h2
          rw [if_pos hyz]
          exact h2
        · subst hyz
          rw [if_pos hxy] at h1
          rw [if_pos hxy]
          exact h1
        · rw [if_pos hxy] at h1
          rw [if_pos hyz] at h2
          rw [if_pos (show x ≠ z by omega)]
          omega

theorem segCompare_le_trans (a b c : List ℤ)
    (h1 : segCompare a b ≤ 0) (h2 : segCompare b c ≤ 0) : segCompare a c ≤ 0 := by
  set n := max (max a.length b.length) c.length with hn
  have e1 : segCompare (a ++ List.replicate (n - a.length) 0) (b ++ List.replicate (n - b.length) 0) ≤ 0 := by
    rw [segCompare_append_rep_left, segCompare_append_rep_right]; exact h1
  have e2 : segCompare (b ++ List.replicate (n - b.length) 0) (c ++ List.replicate (n - c.length) 0) ≤ 0 := by
    rw [segCompare_append_rep_left, segCompare_append_rep_right]; exact h2
  have e3 := segCompare_le_trans_len (a ++ List.replicate (n - a.length) 0)
    (b ++ List.replicate (n - b.length) 0) (c ++ List.replicate (n - c.length) 0)
    (by simp; omega) (by simp; omega) e1 e2
  rwa [segCompare_append_rep_left, segCompare_append_rep_right] at e3

theorem segZero_eq_zero_iff (b : List ℤ) : segZero b = 0 ↔ ∀ i, b.getD i 0 = 0 := by
  induction b with
  | nil => simp [segZero]
  | cons y ys ih =>
    simp only [segZero]
    by_cases h : y = 0
    · subst h
      simp only [ne_eq, not_true_eq_false, if_false]
      constructor
      · intro hz i
        cases i with
        | zero => rfl
        | succ j => simpa using ih.mp hz j
      · intro hall
        exact ih.mpr fun j => by simpa using hall (j + 1)
    · simp only [if_pos (Ne.symm h)]
      constructor
      · intro hz; omega
      · intro hall; have := hall 0; simp at this; omega

theorem segCompare_eq_zero_iff (a : List ℤ) : ∀ b,
    segCompare a b = 0 ↔ ∀ i, a.getD i 0 = b.getD i 0 := by
  induction a with
  | nil =>
    intro b
    simp only [segCompare]
    rw [segZero_eq_zero_iff]
    constructor
    · intro h i; simpa using (h i).symm
    · intro h i; simpa using (h i).symm
  | cons x xs ih =>
    intro b
    cases b with
    | nil =>
      rw [segCompare_nil_right, neg_eq_zero, segZero_eq_zero_iff]
      simp
    | cons y ys =>
      simp only [segCompare]
      by_cases h : x = y
      · subst h
        simp only [ne_eq, not_true_eq_false, if_false]
        rw [ih ys]
        constructor
        · intro hall i
          cases i with
          | zero => rfl
          | succ j => simpa using hall j
        · intro hall j
          simpa using hall (j + 1)
      · simp only [if_pos h]
        constructor
        · intro hz; omega
        · intro hall; have := hall 0; simp at this; omega

/-- Antisymmetry of `compareStepIdentifiers` under `SortCompare` evaluation, for
identifiers with finite phases. -/
theorem compareVal_neg (a b : StepIdentifier)
    (ha : a.phase.isFinite = true) (hb : b.phase.isFinite = true) :
    jsSortVal (compareStepIdentifiers b a) = -jsSortVal (compareStepIdentifiers a b) := by
  cases hpa : a.phase with
  | nan => rw [hpa] at ha; simp [JSNum.isFinite] at ha
  | int m =>
    cases hpb : b.phase with
    | nan => rw [hpb] at hb; simp [JSNum.isFinite] at hb
    | int n =>
      simp only [compareStepIdentifiers, hpa, hpb, jsStrictNe, jsSub]
      by_cases h : m = n
      · subst h
        simp [jsSortVal]
        exact segCompare_neg _ _
      · simp [h, Ne.symm h, jsSortVal]

/-- Reflexivity: the comparator applied to equal arguments evaluates to `0`
under `SortCompare` (also for a `NaN` phase, whose comparison result is `NaN`
and is read back as `0`). -/
theorem compareVal_self (a : StepIdentifier) :
    jsSortVal (compareStepIdentifiers a a) = 0 := by
  cases hpa : a.phase with
  | nan => simp [compareStepIdentifiers, hpa, jsStrictNe, jsSub, jsSortVal]
  | int m =>
    simp [compareStepIdentifiers, hpa, jsStrictNe, jsSub, jsSortVal, segCompare_self]

/-- Transitivity of the comparator order on identifiers with finite phases. -/
theorem compareVal_trans (a b c : StepIdentifier)
    (ha : a.phase.isFinite = true) (hb : b.phase.isFinite = true)
    (hc : c.phase.isFinite = true)
    (h1 : jsSortVal (compareStepIdentifiers a b) ≤ 0)
    (h2 : jsSortVal (compareStepIdentifiers b c) ≤ 0) :
    jsSortVal (compareStepIdentifiers a c) ≤ 0 := by
  cases hpa : a.phase with
  | nan => rw [hpa] at ha; simp [JSNum.isFinite] at ha
  | int p =>
    cases hpb : b.phase with
    | nan => rw [hpb] at hb; simp [JSNum.isFinite] at hb
    | int q =>
      cases hpc : c.phase with
      | nan => rw [hpc] at hc; simp [JSNum.isFinite] at hc
      | int r =>
        simp only [compareStepIdentifiers, hpa, hpb, hpc, jsStrictNe, jsSub] at h1 h2 ⊢
        by_cases hpq : p = q <;> by_cases hqr : q = r
        · subst hpq; subst hqr
          simp only [jsSortVal] at h1 h2 ⊢
          simp at h1 h2 ⊢
          exact segCompare_le_trans _ _ _ h1 h2
        · subst hpq
          simp [hqr, jsSortVal] at h2 ⊢
          omega
        · subst hqr
          simp [hpq, jsSortVal] at h1 ⊢
          omega
        · simp [hpq, hqr, jsSortVal] at h1 h2
          have hpr : p ≠ r := by omega
          simp [hpr, jsSortVal]
          omega

/-- Insertion produces a permutation of consing. -/
theorem jsInsert_perm {α : Type} (cmp : α → α → JSNum) (x : α) (l : List α) :
    List.Perm (jsInsert cmp x l) (x :: l) := by
  induction l with
  | nil => simp [jsInsert]
  | cons y ys ih =>
    simp only [jsInsert]
    by_cases h : jsSortVal (cmp x y) < 0
    · simp [h]
    · simp only [h, if_false]
      exact List.Perm.trans (List.Perm.cons y ih) (List.Perm.swap x y ys)

/-- Sorting produces a permutation of the input. -/
theorem jsSort_perm {α : Type} (cmp : α → α → JSNum) (l : List α) :
    List.Perm (jsSort cmp l) l := by
  induction l with
  | nil => simp [jsSort]
  | cons x xs ih =>
    simp only [jsSort]
    exact List.Perm.trans (jsInsert_perm cmp x (jsSort cmp xs)) (List.Perm.cons x ih)

/-- Membership in a sorted list coincides with membership in the input. -/
theorem jsSort_mem {α : Type} (cmp : α → α → JSNum) (l : List α) (y : α) :
    y ∈ jsSort cmp l ↔ y ∈ l :=
  (jsSort_perm cmp l).mem_iff

/-- Head-minimality of the stable sort: under a property `P` of the elements
for which the comparator is reflexive, antisymmetric and transitive in the
`SortCompare` order, the head of the sorted list is a minimum of the input. -/
theorem jsSort_head_min {α : Type} (cmp : α → α → JSNum) (P : α → Prop)
    (hrefl : ∀ x, P x → jsSortVal (cmp x x) ≤ 0)
    (hanti : ∀ x y, P x → P y → 0 ≤ jsSortVal (cmp x y) → jsSortVal (cmp y x) ≤ 0)
    (htrans : ∀ x y z, P x → P y → P z →
      jsSortVal (cmp x y) ≤ 0 → jsSortVal (cmp y z) ≤ 0 → jsSortVal (cmp x z) ≤ 0) :
    ∀ l : List α, (∀ x ∈ l, P x) → ∀ x rest, jsSort cmp l = x :: rest →
      ∀ y ∈ l, jsSortVal (cmp x y) ≤ 0 := by
  intro l
  induction l with
  | nil => intro hP x rest hx; simp [jsSort] at hx
  | cons a l' ih =>
    intro hP x rest hsort y hy
    have hPa : P a := hP a (List.mem_cons_self a l')
    have hPl' : ∀ z ∈ l', P z := fun z hz => hP z (List.mem_cons_of_mem a hz)
    simp only [jsSort] at hsort
    cases hs : jsSort cmp l' with
    | nil =>
      have hnil : l' = [] := by
        have hp := jsSort_perm cmp l'
        rw [hs] at hp
        exact hp.symm.eq_nil
      subst hnil
      rw [hs] at hsort
      simp [jsInsert] at hsort
      obtain ⟨hax, -⟩ := hsort
      subst hax
      simp at hy
      subst hy
      exact hrefl _ hPa
    | cons h t =>
      rw [hs] at hsort
      have hhl' : h ∈ l' := by
        have hmem : h ∈ jsSort cmp l' := by rw [hs]; exact List.mem_cons_self h t
        exact (jsSort_mem cmp l' h).mp hmem
      have hmin : ∀ z ∈ l', jsSortVal (cmp h z) ≤ 0 := fun z hz => ih hPl' h t hs z hz
      simp only [jsInsert] at hsort
      by_cases hc : jsSortVal (cmp a h) < 0
      · rw [if_pos hc] at hsort
        have hax : a = x := by simpa using congrArg List.head? hsort
        subst hax
        rcases List.mem_cons.mp hy with hya | hyl'
        · subst hya
          exact hrefl y (hP y hy)
        · exact htrans a h y hPa (hPl' h hhl') (hPl' y hyl') (le_of_lt hc) (hmin y hyl')
      · rw [if_neg hc] at hsort
        have hhx : h = x := by simpa using congrArg List.head? hsort
        subst hhx
        rcases List.mem_cons.mp hy with hya | hyl'
        · subst hya
          exact hanti y h hPa (hPl' h hhl') (by omega)
        · exact hmin y hyl'

/-- Padding characterization: appending trailing zero segments never changes a
comparison against the unpadded sequence. -/
theorem segCompare_pad_self (s : List ℤ) (k : Nat) :
    segCompare (s ++ List.replicate k 0) s = 0 := by
  rw [segCompare_append_rep_left]
  exact segCompare_self s

/-- Claim C3: `compareStepIdentifiers` is a total dotted-decimal-numeric order:
phase decides first (ascending, numeric difference); on equal phases the step
strings are split on `.`, segments are coerced to integers with non-numeric
segments falling back to `0`, missing trailing segments read as `0`, and the
first unequal segment decides, equal sequences comparing as `0`.  Totality,
antisymmetry and transitivity hold on identifiers with finite phases; the
concrete facts hold: within a phase `"2.1"` sorts before `"2.10"` numerically,
and sorting the todo identifiers `(1,"2"), (1,"10"), (2,"1")` yields them in
exactly that order. -/
theorem claim_C3_comparator :
    (∀ a b : StepIdentifier, ∀ m n : ℤ, a.phase = JSNum.int m → b.phase = JSNum.int n →
        m ≠ n → compareStepIdentifiers a b = JSNum.int (m - n)) ∧
    (∀ a b : StepIdentifier, ∀ m : ℤ, a.phase = JSNum.int m → b.phase = JSNum.int m →
        compareStepIdentifiers a b =
          JSNum.int (segCompare (parseStepSequence a.step) (parseStepSequence b.step))) ∧
    (∀ sa sb : List ℤ, segCompare sa sb = 0 ↔ ∀ i, sa.getD i 0 = sb.getD i 0) ∧
    (∀ s : List ℤ, ∀ k : Nat, segCompare (s ++ List.replicate k 0) s = 0) ∧
    (parseStepSequence "1.x.3" = [1, 0, 3]) ∧
    (∀ a : StepIdentifier, jsSortVal (compareStepIdentifiers a a) = 0) ∧
    (∀ a b : StepIdentifier, a.phase.isFinite = true → b.phase.isFinite = true →
        jsSortVal (compareStepIdentifiers b a) = -jsSortVal (compareStepIdentifiers a b)) ∧
    (∀ a b : StepIdentifier, a.phase.isFinite = true → b.phase.isFinite = true →
        jsSortVal (compareStepIdentifiers a b) ≤ 0 ∨
          jsSortVal (compareStepIdentifiers b a) ≤ 0) ∧
    (∀ a b c : StepIdentifier, a.phase.isFinite = true → b.phase.isFinite = true →
        c.phase.isFinite = true →
        jsSortVal (compareStepIdentifiers a b) ≤ 0 →
        jsSortVal (compareStepIdentifiers b c) ≤ 0 →
        jsSortVal (compareStepIdentifiers a c) ≤ 0) ∧
    (jsSortVal (compareStepIdentifiers ⟨JSNum.int 2, "2.1", "a"⟩ ⟨JSNum.int 2, "2.10", "b"⟩) < 0) ∧
    (jsSort compareStepIdentifiers
        [⟨JSNum.int 2, "1", "c"⟩, ⟨JSNum.int 1, "10", "b"⟩, ⟨JSNum.int 1, "2", "a"⟩] =
      [⟨JSNum.int 1, "2", "a"⟩, ⟨JSNum.int 1, "10", "b"⟩, ⟨JSNum.int 2, "1", "c"⟩]) := by
  refine ⟨?_, ?_, ?_, ?_, ?_, ?_, ?_, ?_, ?_, ?_, ?_⟩
  · intro a b m n hm hn hne
    simp [compareStepIdentifiers, hm, hn, jsStrictNe, hne, jsSub]
  · intro a b m hm hn
    simp [compareStepIdentifiers, hm, hn, jsStrictNe]
  · exact segCompare_eq_zero_iff
  · exact segCompare_pad_self
  · decide
  · exact compareVal_self
  · exact compareVal_neg
  · intro a b ha hb
    have h := compareVal_neg a b ha hb
    omega
  · exact compareVal_trans
  · decide
  · decide

/-- Witness for claim C3: the hypotheses are discharged at concrete identifiers
with finite phases and the antisymmetry equation evaluates there. -/
theorem claim_C3_comparator_witness :
    (JSNum.int 1).isFinite = true ∧
      jsSortVal (compareStepIdentifiers ⟨JSNum.int 1, "3", "y"⟩ ⟨JSNum.int 1, "2.5", "x"⟩) =
        -jsSortVal (compareStepIdentifiers ⟨JSNum.int 1, "2.5", "x"⟩ ⟨JSNum.int 1, "3", "y"⟩) :=
  ⟨by decide, claim_C3_comparator.2.2.2.2.2.2.1
    ⟨JSNum.int 1, "2.5", "x"⟩ ⟨JSNum.int 1, "3", "y"⟩ (by decide) (by decide)⟩

/-- Head of a filtered list agrees with `find?`. -/
theorem filter_head_eq_find {α : Type} (p : α → Bool) (l : List α) :
    (l.filter p).head? = l.find? p := by
  induction l with
  | nil => simp
  | cons a l' ih =>
    cases h : p a with
    | true => simp [List.filter_cons, List.find?_cons, h]
    | false => simp [List.filter_cons, List.find?_cons, h, ih]

/-- Claim C2: next-actionable-step selection.  If some row has status
in-progress, the first such row in stored entry order is returned (in
particular never a todo row); otherwise, if some row is todo, a todo row
minimal under the step-identifier comparator is returned; otherwise the result
is empty, a normal value rather than an error.  A returned row is never
blocked, done or superseded.  The minimality conjunct assumes the rows carry
finite phases, the only domain on which the comparator is an order. -/
theorem claim_C2_next_actionable (state : WorkState) :
    (∀ r, state.entries.find? (fun e => e.status == StepStatus.inProgress) = some r →
        findNextActionableStep state = some r) ∧
    ((∀ e ∈ state.entries, e.status ≠ StepStatus.inProgress) →
      (∀ e ∈ state.entries, e.toStepIdentifier.phase.isFinite = true) →
      ∀ t ∈ state.entries, t.status = StepStatus.todo →
        ∃ r ∈ state.entries, r.status = StepStatus.todo ∧
          findNextActionableStep state = some r ∧
          ∀ y ∈ state.entries, y.status = StepStatus.todo →
            jsSortVal (compareStepIdentifiers r.toStepIdentifier y.toStepIdentifier) ≤ 0) ∧
    ((∀ e ∈ state.entries, e.status ≠ StepStatus.inProgress) →
      (∀ e ∈ state.entries, e.status ≠ StepStatus.todo) →
      findNextActionableStep state = none) ∧
    (∀ r, findNextActionableStep state = some r →
        r.status = StepStatus.inProgress ∨ r.status = StepStatus.todo) := by
  refine ⟨?_, ?_, ?_, ?_⟩
  · intro r hr
    rw [← filter_head_eq_find] at hr
    cases hfi : state.entries.filter (fun e => e.status == StepStatus.inProgress) with
    | nil => rw [hfi] at hr; simp at hr
    | cons e rest =>
      rw [hfi] at hr
      simp at hr
      subst hr
      simp only [findNextActionableStep, hfi]
  · intro hnoIn hfin t ht htodo
    have hfi : state.entries.filter (fun e => e.status == StepStatus.inProgress) = [] := by
      rw [List.filter_eq_nil_iff]
      intro e he
      simpa using hnoIn e he
    have ht' : t ∈ state.entries.filter (fun e => e.status == StepStatus.todo) :=
      List.mem_filter.mpr ⟨ht, by simp [htodo]⟩
    cases hs : jsSort (fun a b => compareStepIdentifiers a.toStepIdentifier b.toStepIdentifier)
        (state.entries.filter (fun e => e.status == StepStatus.todo)) with
    | nil =>
      exfalso
      have hp := jsSort_perm
        (fun a b => compareStepIdentifiers a.toStepIdentifier b.toStepIdentifier)
        (state.entries.filter (fun e => e.status == StepStatus.todo))
      rw [hs] at hp
      rw [hp.symm.eq_nil] at ht'
      simp at ht'
    | cons r rest =>
      have hrmem : r ∈ state.entries.filter (fun e => e.status == StepStatus.todo) := by
        have : r ∈ jsSort (fun a b => compareStepIdentifiers a.toStepIdentifier b.toStepIdentifier)
            (state.entries.filter (fun e => e.status == StepStatus.todo)) := by
          rw [hs]; exact List.mem_cons_self r rest
        exact (jsSort_mem _ _ _).mp this
      obtain ⟨hre, hrs⟩ := List.mem_filter.mp hrmem
      refine ⟨r, hre, by simpa using hrs, ?_, ?_⟩
      · simp only [findNextActionableStep, hfi, hs]
        rfl
      · intro y hy hys
        have hy' : y ∈ state.entries.filter (fun e => e.status == StepStatus.todo) :=
          List.mem_filter.mpr ⟨hy, by simp [hys]⟩
        refine jsSort_head_min
          (fun a b => compareStepIdentifiers a.toStepIdentifier b.toStepIdentifier)
          (fun e => e.toStepIdentifier.phase.isFinite = true)
          ?_ ?_ ?_
          (state.entries.filter (fun e => e.status == StepStatus.todo))
          ?_ r rest hs y hy'
        · intro x _
          exact le_of_eq (compareVal_self x.toStepIdentifier)
        · intro x y' hx hy''' hxy
          have h := compareVal_neg x.toStepIdentifier y'.toStepIdentifier hx hy'''
          simp only [] at hxy ⊢
          omega
        · intro x y' z hx hy''' hz h1 h2
          exact compareVal_trans x.toStepIdentifier y'.toStepIdentifier z.toStepIdentifier
            hx hy''' hz h1 h2
        · intro x hx
          exact hfin x (List.mem_filter.mp hx).1
  · intro hnoIn hnoTodo
    have hfi : state.entries.filter (fun e => e.status == StepStatus.inProgress) = [] := by
      rw [List.filter_eq_nil_iff]
      intro e he
      simpa using hnoIn e he
    have hft : state.entries.filter (fun e => e.status == StepStatus.todo) = [] := by
      rw [List.filter_eq_nil_iff]
      intro e he
      simpa using hnoTodo e he
    simp only [findNextActionableStep, hfi, hft, jsSort]
    rfl
  · intro r hr
    cases hfi : state.entries.filter (fun e => e.status == StepStatus.inProgress) with
    | cons e rest =>
      simp only [findNextActionableStep, hfi] at hr
      simp at hr
      subst hr
      have : e ∈ state.entries.filter (fun e => e.status == StepStatus.inProgress) := by
        rw [hfi]; exact List.mem_cons_self e rest
      left
      simpa using (List.mem_filter.mp this).2
    | nil =>
      simp only [findNextActionableStep, hfi] at hr
      cases hs : jsSort (fun a b => compareStepIdentifiers a.toStepIdentifier b.toStepIdentifier)
          (state.entries.filter (fun e => e.status == StepStatus.todo)) with
      | nil => rw [hs] at hr; simp at hr
      | cons a t =>
        rw [hs] at hr
        simp at hr
        subst hr
        have : a ∈ state.entries.filter (fun e => e.status == StepStatus.todo) := by
          have ha : a ∈ jsSort (fun a b => compareStepIdentifiers a.toStepIdentifier b.toStepIdentifier)
              (state.entries.filter (fun e => e.status == StepStatus.todo)) := by
            rw [hs]; exact List.mem_cons_self a t
          exact (jsSort_mem _ _ _).mp ha
        right
        simpa using (List.mem_filter.mp this).2

/-- Witness for claim C2 at a concrete state: with one in-progress row and one
todo row the in-progress row is selected. -/
theorem claim_C2_next_actionable_witness :
    findNextActionableStep
        (WorkState.mk [⟨⟨JSNum.int 1, "1", "a"⟩, StepStatus.todo, none⟩,
          ⟨⟨JSNum.int 2, "1", "b"⟩, StepStatus.inProgress, none⟩]) =
      some ⟨⟨JSNum.int 2, "1", "b"⟩, StepStatus.inProgress, none⟩ :=
  (claim_C2_next_actionable
      (WorkState.mk [⟨⟨JSNum.int 1, "1", "a"⟩, StepStatus.todo, none⟩,
        ⟨⟨JSNum.int 2, "1", "b"⟩, StepStatus.inProgress, none⟩])).1
    ⟨⟨JSNum.int 2, "1", "b"⟩, StepStatus.inProgress, none⟩ (by decide)

/-- Characterization of successful unique insertion. -/
theorem insertUnique_ok_iff {α : Type} (keyOf : α → String) :
    ∀ (xs : List α) (acc m : List (String × α)),
      insertUnique keyOf acc xs = Except.ok m ↔
        (m = acc ++ xs.map (fun x => (keyOf x, x)) ∧
          (xs.map keyOf).Nodup ∧
          ∀ x ∈ xs, keyOf x ∉ acc.map Prod.fst) := by
  intro xs
  induction xs with
  | nil =>
    intro acc m
    simp [insertUnique, eq_comm]
  | cons x xs ih =>
    intro acc m
    simp only [insertUnique]
    by_cases h : (acc.map Prod.fst).contains (keyOf x)
    · rw [if_pos h]
      rw [List.elem_iff] at h
      constructor
      · intro hc; cases hc
      · rintro ⟨-, -, hall⟩
        exact absurd h (hall x (List.mem_cons_self x xs))
    · rw [if_neg h]
      rw [ih]
      have hx : keyOf x ∉ acc.map Prod.fst := by
        intro hc
        exact h (List.elem_iff.mpr hc)
      constructor
      · rintro ⟨hm, hnd, hall⟩
        refine ⟨?_, ?_, ?_⟩
        · rw [hm]; simp
        · rw [List.map_cons, List.nodup_cons]
          refine ⟨?_, hnd⟩
          intro hmem
          rcases List.mem_map.mp hmem with ⟨y, hy, hky⟩
          have h2 := hall y hy
          rw [List.map_append] at h2
          simp only [List.mem_append, List.map_cons, List.map_nil,
            List.mem_singleton, not_or] at h2
          exact h2.2 hky
        · intro y hy
          rcases List.mem_cons.mp hy with rfl | hy2
          · exact hx
          · have h2 := hall y hy2
            rw [List.map_append] at h2
            simp only [List.mem_append, List.map_cons, List.map_nil,
              List.mem_singleton, not_or] at h2
            exact h2.1
      · rintro ⟨hm, hnd2, hall⟩
        rw [List.map_cons, List.nodup_cons] at hnd2
        refine ⟨?_, hnd2.2, ?_⟩
        · rw [hm]; simp
        · intro y hy
          rw [List.map_append]
          simp only [List.mem_append, List.map_cons, List.map_nil,
            List.mem_singleton, not_or]
          constructor
          · exact hall y (List.mem_cons_of_mem x hy)
          · intro hc
            exact hnd2.1 (List.mem_map.mpr ⟨y, hy, hc⟩)

/-- Failure of unique insertion implies a duplicated key. -/
theorem insertUnique_error {α : Type} (keyOf : α → String) (xs : List α) (k : String)
    (h : insertUnique keyOf [] xs = Except.error k) : ¬ (xs.map keyOf).Nodup := by
  intro hnd
  have hok : insertUnique keyOf [] xs =
      Except.ok ([] ++ xs.map (fun x => (keyOf x, x))) :=
    (insertUnique_ok_iff keyOf xs [] _).mpr ⟨rfl, hnd, by simp⟩
  rw [hok] at h
  cases h

/-- Lookup failure means the key is absent. -/
theorem mapGet_eq_none_iff {α : Type} (m : List (String × α)) (k : String) :
    mapGet m k = none ↔ k ∉ m.map Prod.fst := by
  simp only [mapGet, Option.map_eq_none', List.find?_eq_none]
  constructor
  · intro h hk
    rcases List.mem_map.mp hk with ⟨p, hp, hpk⟩
    have h2 := h p hp
    simp only [beq_iff_eq] at h2
    exact h2 hpk
  · intro h p hp
    simp only [beq_iff_eq]
    intro hc
    exact h (List.mem_map.mpr ⟨p, hp, hc⟩)

/-- Lookup success produces a member carrying the looked-up key. -/
theorem mapGet_eq_some_mem {α : Type} (m : List (String × α)) (k : String) (v : α)
    (h : mapGet m k = some v) : (k, v) ∈ m := by
  simp only [mapGet, Option.map_eq_some'] at h
  rcases h with ⟨p, hp, hps⟩
  have hmem := List.mem_of_find?_eq_some hp
  have hkey := List.find?_some hp
  simp only [beq_iff_eq] at hkey
  have hpv : p = (k, v) := by
    obtain ⟨p1, p2⟩ := p
    simp only at hps hkey
    rw [hkey, hps]
  rw [← hpv]
  exact hmem

/-- Lookup over duplicate-free keys finds exactly each stored pair. -/
theorem mapGet_of_mem_nodup {α : Type} (m : List (String × α)) (k : String) (v : α)
    (hnd : (m.map Prod.fst).Nodup) (hmem : (k, v) ∈ m) : mapGet m k = some v := by
  induction m with
  | nil => simp at hmem
  | cons p rest ih =>
    rw [List.map_cons, List.nodup_cons] at hnd
    rcases List.mem_cons.mp hmem with rfl | hmem2
    · simp [mapGet, List.find?_cons]
    · have hne : p.fst ≠ k := by
        intro hc
        exact hnd.1 (List.mem_map.mpr ⟨(k, v), hmem2, by rw [hc]⟩)
      have hb : (p.fst == k) = false := by simpa using hne
      have hstep : mapGet (p :: rest) k = mapGet rest k := by
        simp [mapGet, List.find?_cons, hb]
      rw [hstep]
      exact ih hnd.2 hmem2

/-- Computation rule: a missing state key fails the plan-entry check. -/
theorem checkPlanEntries_cons_none (stateMap : List (String × StateRow))
    (key : String) (stp : PlanStep) (rest : List (String × PlanStep))
    (hmg : mapGet stateMap key = none) :
    checkPlanEntries stateMap ((key, stp) :: rest) =
      Except.error (ConsistencyError.missingStateEntry key stp.label) := by
  simp [checkPlanEntries, hmg]

/-- Computation rule: a label mismatch fails the plan-entry check. -/
theorem checkPlanEntries_cons_mismatch (stateMap : List (String × StateRow))
    (key : String) (stp : PlanStep) (rest : List (String × PlanStep)) (entry : StateRow)
    (hmg : mapGet stateMap key = some entry) (hl : entry.label ≠ stp.label) :
    checkPlanEntries stateMap ((key, stp) :: rest) =
      Except.error (ConsistencyError.labelMismatch key stp.label entry.label) := by
  simp [checkPlanEntries, hmg, hl]

/-- Computation rule: a matching entry lets the plan-entry check continue. -/
theorem checkPlanEntries_cons_match (stateMap : List (String × StateRow))
    (key : String) (stp : PlanStep) (rest : List (String × PlanStep)) (entry : StateRow)
    (hmg : mapGet stateMap key = some entry) (hl : entry.label = stp.label) :
    checkPlanEntries stateMap ((key, stp) :: rest) = checkPlanEntries stateMap rest := by
  simp [checkPlanEntries, hmg, hl]

/-- Success characterization of the plan-against-state loop. -/
theorem checkPlanEntries_ok_iff (stateMap : List (String × StateRow)) :
    ∀ pm, checkPlanEntries stateMap pm = Except.ok () ↔
      ∀ p ∈ pm, ∃ s, mapGet stateMap p.1 = some s ∧ s.label = p.2.label := by
  intro pm
  induction pm with
  | nil => simp [checkPlanEntries]
  | cons p rest ih =>
    obtain ⟨key, stp⟩ := p
    cases hmg : mapGet stateMap key with
    | none =>
      rw [checkPlanEntries_cons_none stateMap key stp rest hmg]
      constructor
      · intro hc; cases hc
      · intro hall
        rcases hall (key, stp) (List.mem_cons_self _ _) with ⟨s, hs, -⟩
        rw [hmg] at hs
        cases hs
    | some entry =>
      by_cases hl : entry.label = stp.label
      · rw [checkPlanEntries_cons_match stateMap key stp rest entry hmg hl]
        rw [ih]
        constructor
        · intro hall q hq
          rcases List.mem_cons.mp hq with rfl | hq2
          · exact ⟨entry, hmg, hl⟩
          · exact hall q hq2
        · intro hall q hq
          exact hall q (List.mem_cons_of_mem _ hq)
      · rw [checkPlanEntries_cons_mismatch stateMap key stp rest entry hmg hl]
        constructor
        · intro hc; cases hc
        · intro hall
          rcases hall (key, stp) (List.mem_cons_self _ _) with ⟨s, hs, hsl⟩
          rw [hmg] at hs
          cases hs
          exact absurd hsl hl

/-- Failure characterization of the plan-against-state loop. -/
theorem checkPlanEntries_error (stateMap : List (String × StateRow)) :
    ∀ pm e, checkPlanEntries stateMap pm = Except.error e →
      ∃ key stp, (key, stp) ∈ pm ∧
        ((e = ConsistencyError.missingStateEntry key stp.label ∧
            mapGet stateMap key = none) ∨
          (∃ entry, e = ConsistencyError.labelMismatch key stp.label entry.label ∧
            mapGet stateMap key = some entry ∧ entry.label ≠ stp.label)) := by
  intro pm
  induction pm with
  | nil => intro e hc; cases hc
  | cons p rest ih =>
    obtain ⟨key, stp⟩ := p
    intro e he
    cases hmg : mapGet stateMap key with
    | none =>
      rw [checkPlanEntries_cons_none stateMap key stp rest hmg] at he
      cases he
      exact ⟨key, stp, List.mem_cons_self _ _, Or.inl ⟨rfl, hmg⟩⟩
    | some entry =>
      by_cases hl : entry.label = stp.label
      · rw [checkPlanEntries_cons_match stateMap key stp rest entry hmg hl] at he
        rcases ih e he with ⟨k2, s2, hmem, hrest⟩
        exact ⟨k2, s2, List.mem_cons_of_mem _ hmem, hrest⟩
      · rw [checkPlanEntries_cons_mismatch stateMap key stp rest entry hmg hl] at he
        cases he
        exact ⟨key, stp, List.mem_cons_self _ _, Or.inr ⟨entry, rfl, hmg, hl⟩⟩

/-- Success characterization of the state-against-plan loop. -/
theorem checkStateEntries_ok_iff (planMap : List (String × PlanStep)) :
    ∀ sm, checkStateEntries planMap sm = Except.ok () ↔
      ∀ s ∈ sm, s.1 ∈ planMap.map Prod.fst := by
  intro sm
  induction sm with
  | nil => simp [checkStateEntries]
  | cons p rest ih =>
    obtain ⟨key, entry⟩ := p
    simp only [checkStateEntries]
    by_cases h : key ∈ planMap.map Prod.fst
    · rw [if_pos (List.elem_iff.mpr h)]
      rw [ih]
      constructor
      · intro hall q hq
        rcases List.mem_cons.mp hq with rfl | hq2
        · exact h
        · exact hall q hq2
      · intro hall q hq
        exact hall q (List.mem_cons_of_mem _ hq)
    · rw [if_neg (fun hc => h (List.elem_iff.mp hc))]
      constructor
      · intro hc; cases hc
      · intro hall
        exact absurd (hall (key, entry) (List.mem_cons_self _ _)) h

/-- Failure characterization of the state-against-plan loop. -/
theorem checkStateEntries_error (planMap : List (String × PlanStep)) :
    ∀ sm e, checkStateEntries planMap sm = Except.error e →
      ∃ key entry, (key, entry) ∈ sm ∧
        e = ConsistencyError.unexpectedStateEntry key entry.label ∧
        key ∉ planMap.map Prod.fst := by
  intro sm
  induction sm with
  | nil => intro e hc; cases hc
  | cons p rest ih =>
    obtain ⟨key, entry⟩ := p
    intro e he
    simp only [checkStateEntries] at he
    by_cases h : key ∈ planMap.map Prod.fst
    · rw [if_pos (List.elem_iff.mpr h)] at he
      rcases ih e he with ⟨k2, e2, hmem, hrest⟩
      exact ⟨k2, e2, List.mem_cons_of_mem _ hmem, hrest⟩
    · rw [if_neg (fun hc => h (List.elem_iff.mp hc))] at he
      cases he
      exact ⟨key, entry, List.mem_cons_self _ _, rfl, h⟩

/-- Keys of the pairing map built by unique insertion. -/
theorem pairMap_fst {α : Type} (keyOf : α → String) (xs : List α) :
    (xs.map (fun x => (keyOf x, x))).map Prod.fst = xs.map keyOf := by
  simp [List.map_map, Function.comp]

/-- Membership in the pairing map. -/
theorem mem_pairMap {α : Type} (keyOf : α → String) (xs : List α) (k : String) (v : α) :
    (k, v) ∈ xs.map (fun x => (keyOf x, x)) ↔ v ∈ xs ∧ keyOf v = k := by
  rw [List.mem_map]
  constructor
  · rintro ⟨x, hx, hxe⟩
    rw [Prod.ext_iff] at hxe
    obtain ⟨h1, h2⟩ := hxe
    simp only at h1 h2
    subst h2
    exact ⟨hx, h1⟩
  · rintro ⟨hv, hk⟩
    exact ⟨v, hv, by rw [hk]⟩

/-- Success characterization of the consistency check: it passes exactly when
neither collection repeats a key, the key sets agree, and shared keys carry
identical labels. -/
theorem ensureConsistency_ok_iff (plan : WorkPlan) (state : WorkState) :
    ensurePlanStateConsistency plan state = Except.ok () ↔
      ((plan.steps.map planStepKey).Nodup ∧
        (state.entries.map stateRowKey).Nodup ∧
        (∀ k, k ∈ plan.steps.map planStepKey ↔ k ∈ state.entries.map stateRowKey) ∧
        ∀ p ∈ plan.steps, ∀ s ∈ state.entries,
          planStepKey p = stateRowKey s → p.label = s.label) := by
  constructor
  · intro h
    cases hip : insertUnique planStepKey [] plan.steps with
    | error kp =>
      simp only [ensurePlanStateConsistency, hip] at h
      cases h
    | ok planMap =>
      obtain ⟨hpm, hpnd, -⟩ := (insertUnique_ok_iff planStepKey plan.steps [] planMap).mp hip
      rw [List.nil_append] at hpm
      cases his : insertUnique stateRowKey [] state.entries with
      | error ks =>
        simp only [ensurePlanStateConsistency, hip, his] at h
        cases h
      | ok stateMap =>
        obtain ⟨hsm, hsnd, -⟩ :=
          (insertUnique_ok_iff stateRowKey state.entries [] stateMap).mp his
        rw [List.nil_append] at hsm
        have hsmf : stateMap.map Prod.fst = state.entries.map stateRowKey := by
          rw [hsm]; exact pairMap_fst stateRowKey state.entries
        have hpmf : planMap.map Prod.fst = plan.steps.map planStepKey := by
          rw [hpm]; exact pairMap_fst planStepKey plan.steps
        cases hcp : checkPlanEntries stateMap planMap with
        | error e =>
          simp only [ensurePlanStateConsistency, hip, his, hcp] at h
          cases h
        | ok u =>
          cases u
          simp only [ensurePlanStateConsistency, hip, his, hcp] at h
          have hplanok := (checkPlanEntries_ok_iff stateMap planMap).mp hcp
          have hstateok := (checkStateEntries_ok_iff planMap stateMap).mp h
          refine ⟨hpnd, hsnd, ?_, ?_⟩
          · intro k
            constructor
            · intro hk
              rcases List.mem_map.mp hk with ⟨p, hp, hpk⟩
              have hpin : (k, p) ∈ planMap := by
                rw [hpm]; exact (mem_pairMap planStepKey plan.steps k p).mpr ⟨hp, hpk⟩
              rcases hplanok (k, p) hpin with ⟨s, hs, -⟩
              have hsin : (k, s) ∈ stateMap := mapGet_eq_some_mem stateMap k s hs
              rw [hsm] at hsin
              rcases (mem_pairMap stateRowKey state.entries k s).mp hsin with ⟨hse, hsk⟩
              exact List.mem_map.mpr ⟨s, hse, hsk⟩
            · intro hk
              rcases List.mem_map.mp hk with ⟨s, hs, hsk⟩
              have hsin : (k, s) ∈ stateMap := by
                rw [hsm]; exact (mem_pairMap stateRowKey state.entries k s).mpr ⟨hs, hsk⟩
              have := hstateok (k, s) hsin
              rw [hpmf] at this
              exact this
          · intro p hp s hs hkey
            have hpin : (planStepKey p, p) ∈ planMap := by
              rw [hpm]; exact (mem_pairMap planStepKey plan.steps _ p).mpr ⟨hp, rfl⟩
            rcases hplanok (planStepKey p, p) hpin with ⟨s0, hs0, hs0l⟩
            have hsin : (planStepKey p, s) ∈ stateMap := by
              rw [hsm]
              exact (mem_pairMap stateRowKey state.entries _ s).mpr ⟨hs, hkey.symm⟩
            have hs0' : mapGet stateMap (planStepKey p) = some s :=
              mapGet_of_mem_nodup stateMap (planStepKey p) s (by rw [hsmf]; exact hsnd) hsin
            rw [hs0'] at hs0
            cases hs0
            exact hs0l.symm
  · rintro ⟨hpnd, hsnd, hkeys, hlbl⟩
    have hip : insertUnique planStepKey [] plan.steps =
        Except.ok (plan.steps.map (fun x => (planStepKey x, x))) :=
      (insertUnique_ok_iff planStepKey plan.steps [] _).mpr ⟨by simp, hpnd, by simp⟩
    have his : insertUnique stateRowKey [] state.entries =
        Except.ok (state.entries.map (fun x => (stateRowKey x, x))) :=
      (insertUnique_ok_iff stateRowKey state.entries [] _).mpr ⟨by simp, hsnd, by simp⟩
    have hcp : checkPlanEntries (state.entries.map (fun x => (stateRowKey x, x)))
        (plan.steps.map (fun x => (planStepKey x, x))) = Except.ok () := by
      rw [checkPlanEntries_ok_iff]
      rintro ⟨k, p⟩ hkp
      rcases (mem_pairMap planStepKey plan.steps k p).mp hkp with ⟨hp, hpk⟩
      have hk : k ∈ state.entries.map stateRowKey :=
        (hkeys k).mp (List.mem_map.mpr ⟨p, hp, hpk⟩)
      rcases List.mem_map.mp hk with ⟨s, hs, hsk⟩
      have hsin : (k, s) ∈ state.entries.map (fun x => (stateRowKey x, x)) :=
        (mem_pairMap stateRowKey state.entries k s).mpr ⟨hs, hsk⟩
      refine ⟨s, ?_, ?_⟩
      · exact mapGet_of_mem_nodup _ k s (by rw [pairMap_fst]; exact hsnd) hsin
      · exact (hlbl p hp s hs (by rw [hpk, hsk])).symm
    have hcs : checkStateEntries (plan.steps.map (fun x => (planStepKey x, x)))
        (state.entries.map (fun x => (stateRowKey x, x))) = Except.ok () := by
      rw [checkStateEntries_ok_iff]
      rintro ⟨k, s⟩ hks
      rcases (mem_pairMap stateRowKey state.entries k s).mp hks with ⟨hs, hsk⟩
      rw [pairMap_fst]
      exact (hkeys k).mpr (List.mem_map.mpr ⟨s, hs, hsk⟩)
    simp only [ensurePlanStateConsistency, hip, his, hcp]
    exact hcs

/-- Failure characterization of the consistency check: each error category is
produced only by its matching violation. -/
theorem ensureConsistency_error_cases (plan : WorkPlan) (state : WorkState)
    (e : ConsistencyError)
    (h : ensurePlanStateConsistency plan state = Except.error e) :
    (∃ k, e = ConsistencyError.duplicatePlanStep k ∧
      ¬ (plan.steps.map planStepKey).Nodup) ∨
    (∃ k, e = ConsistencyError.duplicateStateEntry k ∧
      (plan.steps.map planStepKey).Nodup ∧ ¬ (state.entries.map stateRowKey).Nodup) ∨
    (∃ k lbl, e = ConsistencyError.missingStateEntry k lbl ∧
      (∃ p ∈ plan.steps, planStepKey p = k ∧ p.label = lbl) ∧
      k ∉ state.entries.map stateRowKey) ∨
    (∃ k pl sl, e = ConsistencyError.labelMismatch k pl sl ∧ pl ≠ sl ∧
      (∃ p ∈ plan.steps, planStepKey p = k ∧ p.label = pl) ∧
      (∃ s ∈ state.entries, stateRowKey s = k ∧ s.label = sl)) ∨
    (∃ k lbl, e = ConsistencyError.unexpectedStateEntry k lbl ∧
      (∃ s ∈ state.entries, stateRowKey s = k ∧ s.label = lbl) ∧
      k ∉ plan.steps.map planStepKey) := by
  cases hip : insertUnique planStepKey [] plan.steps with
  | error kp =>
    simp only [ensurePlanStateConsistency, hip] at h
    cases h
    exact Or.inl ⟨kp, rfl, insertUnique_error planStepKey plan.steps kp hip⟩
  | ok planMap =>
    obtain ⟨hpm, hpnd, -⟩ := (insertUnique_ok_iff planStepKey plan.steps [] planMap).mp hip
    rw [List.nil_append] at hpm
    have hpmf : planMap.map Prod.fst = plan.steps.map planStepKey := by
      rw [hpm]; exact pairMap_fst planStepKey plan.steps
    cases his : insertUnique stateRowKey [] state.entries with
    | error ks =>
      simp only [ensurePlanStateConsistency, hip, his] at h
      cases h
      exact Or.inr (Or.inl ⟨ks, rfl, hpnd,
        insertUnique_error stateRowKey state.entries ks his⟩)
    | ok stateMap =>
      obtain ⟨hsm, hsnd, -⟩ :=
        (insertUnique_ok_iff stateRowKey state.entries [] stateMap).mp his
      rw [List.nil_append] at hsm
      have hsmf : stateMap.map Prod.fst = state.entries.map stateRowKey := by
        rw [hsm]; exact pairMap_fst stateRowKey state.entries
      cases hcp : checkPlanEntries stateMap planMap with
      | error e2 =>
        simp only [ensurePlanStateConsistency, hip, his, hcp] at h
        cases h
        rcases checkPlanEntries_error stateMap planMap _ hcp with
          ⟨key, stp, hmem, hcase⟩
        have hstp : stp ∈ plan.steps ∧ planStepKey stp = key := by
          rw [hpm] at hmem
          exact (mem_pairMap planStepKey plan.steps key stp).mp hmem
        rcases hcase with ⟨he, hnone⟩ | ⟨entry, he, hsome, hne⟩
        · refine Or.inr (Or.inr (Or.inl ⟨key, stp.label, he, ⟨stp, hstp.1, hstp.2, rfl⟩, ?_⟩))
          rw [← hsmf]
          exact (mapGet_eq_none_iff stateMap key).mp hnone
        · refine Or.inr (Or.inr (Or.inr (Or.inl
            ⟨key, stp.label, entry.label, he, fun hc => hne hc.symm,
              ⟨stp, hstp.1, hstp.2, rfl⟩, ⟨entry, ?_, ?_, rfl⟩⟩)))
          · have hsin := mapGet_eq_some_mem stateMap key entry hsome
            rw [hsm] at hsin
            exact ((mem_pairMap stateRowKey state.entries key entry).mp hsin).1
          · have hsin := mapGet_eq_some_mem stateMap key entry hsome
            rw [hsm] at hsin
            exact ((mem_pairMap stateRowKey state.entries key entry).mp hsin).2
      | ok u =>
        cases u
        simp only [ensurePlanStateConsistency, hip, his, hcp] at h
        rcases checkStateEntries_error planMap stateMap e h with
          ⟨key, entry, hmem, he, hnot⟩
        have hent : entry ∈ state.entries ∧ stateRowKey entry = key := by
          rw [hsm] at hmem
          exact (mem_pairMap stateRowKey state.entries key entry).mp hmem
        refine Or.inr (Or.inr (Or.inr (Or.inr
          ⟨key, entry.label, he, ⟨entry, hent.1, hent.2, rfl⟩, ?_⟩)))
        rw [← hpmf]
        exact hnot

/-- Claim C1: `ensurePlanStateConsistency` succeeds exactly when neither
collection repeats a `(phase, step)` key, the key sets of plan and state are
equal, and every shared key carries an identical label; on failure the error
category matches the specific violation (duplicate plan key, duplicate state
key, plan key missing from state, label mismatch on a shared key, state key
absent from plan). -/
theorem claim_C1_consistency (plan : WorkPlan) (state : WorkState) :
    (ensurePlanStateConsistency plan state = Except.ok () ↔
      ((plan.steps.map planStepKey).Nodup ∧
        (state.entries.map stateRowKey).Nodup ∧
        (∀ k, k ∈ plan.steps.map planStepKey ↔ k ∈ state.entries.map stateRowKey) ∧
        ∀ p ∈ plan.steps, ∀ s ∈ state.entries,
          planStepKey p = stateRowKey s → p.label = s.label)) ∧
    (∀ k, ensurePlanStateConsistency plan state =
        Except.error (ConsistencyError.duplicatePlanStep k) →
      ¬ (plan.steps.map planStepKey).Nodup) ∧
    (∀ k, ensurePlanStateConsistency plan state =
        Except.error (ConsistencyError.duplicateStateEntry k) →
      (plan.steps.map planStepKey).Nodup ∧ ¬ (state.entries.map stateRowKey).Nodup) ∧
    (∀ k lbl, ensurePlanStateConsistency plan state =
        Except.error (ConsistencyError.missingStateEntry k lbl) →
      (∃ p ∈ plan.steps, planStepKey p = k ∧ p.label = lbl) ∧
        k ∉ state.entries.map stateRowKey) ∧
    (∀ k pl sl, ensurePlanStateConsistency plan state =
        Except.error (ConsistencyError.labelMismatch k pl sl) →
      pl ≠ sl ∧ (∃ p ∈ plan.steps, planStepKey p = k ∧ p.label = pl) ∧
        ∃ s ∈ state.entries, stateRowKey s = k ∧ s.label = sl) ∧
    (∀ k lbl, ensurePlanStateConsistency plan state =
        Except.error (ConsistencyError.unexpectedStateEntry k lbl) →
      (∃ s ∈ state.entries, stateRowKey s = k ∧ s.label = lbl) ∧
        k ∉ plan.steps.map planStepKey) := by
  refine ⟨ensureConsistency_ok_iff plan state, ?_, ?_, ?_, ?_, ?_⟩
  · intro k h
    rcases ensureConsistency_error_cases plan state _ h with
      ⟨k2, he, hf⟩ | ⟨k2, he, hf⟩ | ⟨k2, l2, he, hf⟩ | ⟨k2, p2, s2, he, hf⟩ | ⟨k2, l2, he, hf⟩ <;>
      first
        | (cases he; exact hf)
        | cases he
  · intro k h
    rcases ensureConsistency_error_cases plan state _ h with
      ⟨k2, he, hf⟩ | ⟨k2, he, hf⟩ | ⟨k2, l2, he, hf⟩ | ⟨k2, p2, s2, he, hf⟩ | ⟨k2, l2, he, hf⟩ <;>
      first
        | (cases he; exact hf)
        | cases he
  · intro k lbl h
    rcases ensureConsistency_error_cases plan state _ h with
      ⟨k2, he, hf⟩ | ⟨k2, he, hf⟩ | ⟨k2, l2, he, hf1, hf2⟩ | ⟨k2, p2, s2, he, hf⟩ | ⟨k2, l2, he, hf⟩ <;>
      first
        | (cases he; exact ⟨hf1, hf2⟩)
        | cases he
  · intro k pl sl h
    rcases ensureConsistency_error_cases plan state _ h with
      ⟨k2, he, hf⟩ | ⟨k2, he, hf⟩ | ⟨k2, l2, he, hf1, hf2⟩ | ⟨k2, p2, s2, he, hf1, hf2, hf3⟩ | ⟨k2, l2, he, hf⟩ <;>
      first
        | (cases he; exact ⟨hf1, hf2, hf3⟩)
        | cases he
  · intro k lbl h
    rcases ensureConsistency_error_cases plan state _ h with
      ⟨k2, he, hf⟩ | ⟨k2, he, hf⟩ | ⟨k2, l2, he, hf1, hf2⟩ | ⟨k2, p2, s2, he, hf1, hf2, hf3⟩ | ⟨k2, l2, he, hf1, hf2⟩ <;>
      first
        | (cases he; exact ⟨hf1, hf2⟩)
        | cases he

/-- Witness for claim C1: a concrete consistent plan/state pair passes the
check, via the success characterization. -/
theorem claim_C1_consistency_witness :
    ensurePlanStateConsistency
        (WorkPlan.mk [⟨⟨JSNum.int 1, "1", "Do X"⟩, none⟩])
        (WorkState.mk [⟨⟨JSNum.int 1, "1", "Do X"⟩, StepStatus.todo, none⟩]) =
      Except.ok () :=
  (claim_C1_consistency
      (WorkPlan.mk [⟨⟨JSNum.int 1, "1", "Do X"⟩, none⟩])
      (WorkState.mk [⟨⟨JSNum.int 1, "1", "Do X"⟩, StepStatus.todo, none⟩])).1.mpr
    ⟨by decide, by decide, fun k => Iff.rfl, by decide⟩

/-- Lines that do not match the row shape are dropped silently, whether or not
they are blank or header lines. -/
theorem parseStateRows_skip (raw : String) (rest : List String)
    (hm : stateRowMatch raw = none) :
    parseStateRows (raw :: rest) = parseStateRows rest := by
  by_cases h : jsTrim raw = "" ∨ strStartsWith (jsTrim raw) "| Phase" = true ∨
      strStartsWith (jsTrim raw) "| -----" = true
  · simp only [parseStateRows, if_pos h]
  · simp only [parseStateRows, if_neg h, hm]

/-- Success characterization of the row scanner: parsing yields a row list
exactly when every line that is not skipped as blank/header and that matches
the row shape carries a valid status. -/
theorem parseStateRows_ok_iff : ∀ lines : List String,
    (∃ rows, parseStateRows lines = Except.ok rows) ↔
      ∀ raw ∈ lines,
        ¬(jsTrim raw = "" ∨ strStartsWith (jsTrim raw) "| Phase" = true ∨
            strStartsWith (jsTrim raw) "| -----" = true) →
        ∀ c1 c2 c3 c4 c5, stateRowMatch raw = some (c1, c2, c3, c4, c5) →
          statusOfString (jsTrim c4) ≠ none := by
  intro lines
  induction lines with
  | nil =>
    constructor
    · intro _ raw hraw
      simp at hraw
    · intro _
      exact ⟨[], rfl⟩
  | cons raw rest ih =>
    by_cases h : jsTrim raw = "" ∨ strStartsWith (jsTrim raw) "| Phase" = true ∨
        strStartsWith (jsTrim raw) "| -----" = true
    · have hstep : parseStateRows (raw :: rest) = parseStateRows rest := by
        simp only [parseStateRows, if_pos h]
      rw [hstep]
      rw [ih]
      constructor
      · intro hall raw2 hmem hskip
        rcases List.mem_cons.mp hmem with rfl | hmem2
        · exact absurd h hskip
        · exact hall raw2 hmem2 hskip
      · intro hall raw2 hmem hskip
        exact hall raw2 (List.mem_cons_of_mem _ hmem) hskip
    · cases hm : stateRowMatch raw with
      | none =>
        rw [parseStateRows_skip raw rest hm]
        rw [ih]
        constructor
        · intro hall raw2 hmem hskip
          rcases List.mem_cons.mp hmem with rfl | hmem2
          · intro c1 c2 c3 c4 c5 hc
            rw [hm] at hc
            cases hc
          · exact hall raw2 hmem2 hskip
        · intro hall raw2 hmem hskip
          exact hall raw2 (List.mem_cons_of_mem _ hmem) hskip
      | some cells =>
        obtain ⟨c1, c2, c3, c4, c5⟩ := cells
        cases hst : statusOfString (jsTrim c4) with
        | none =>
          have hstep : parseStateRows (raw :: rest) =
              Except.error ("unexpected status '" ++ jsTrim c4 ++ "' in STATE.md") := by
            simp only [parseStateRows, if_neg h, hm, hst]
          rw [hstep]
          constructor
          · rintro ⟨rows, hc⟩
            cases hc
          · intro hall
            exact absurd hst (hall raw (List.mem_cons_self _ _) h c1 c2 c3 c4 c5 hm)
        | some st =>
          constructor
          · rintro ⟨rows, hrows⟩ raw2 hmem hskip
            rcases List.mem_cons.mp hmem with rfl | hmem2
            · intro d1 d2 d3 d4 d5 hd
              rw [hm] at hd
              cases hd
              rw [hst]
              simp
            · refine (ih.mp ?_) raw2 hmem2 hskip
              simp only [parseStateRows, if_neg h, hm, hst] at hrows
              cases hrest : parseStateRows rest with
              | error e => rw [hrest] at hrows; cases hrows
              | ok rows2 => exact ⟨rows2, rfl⟩
          · intro hall
            have hrest := ih.mpr (fun raw2 hmem2 hskip =>
              hall raw2 (List.mem_cons_of_mem _ hmem2) hskip)
            rcases hrest with ⟨rows2, hrows2⟩
            cases hfull : parseStateRows (raw :: rest) with
            | ok rows => exact ⟨rows, rfl⟩
            | error e2 =>
              simp only [parseStateRows, if_neg h, hm, hst, hrows2] at hfull
              cases hfull

/-- Claim C10: the state parser silently drops every line that does not match
the exact 5-column pipe-row shape (no row, no error); parsing aborts only when
a shape-matching line carries an invalid status value; and the phase cell is
never validated as numeric, a non-numeric phase cell producing an accepted row
whose phase is `NaN`. -/
theorem claim_C10_state_parser_drops :
    (∀ raw rest, stateRowMatch raw = none →
      parseStateRows (raw :: rest) = parseStateRows rest) ∧
    (∀ lines e, parseStateRows lines = Except.error e →
      ∃ raw ∈ lines, ∃ c1 c2 c3 c4 c5,
        stateRowMatch raw = some (c1, c2, c3, c4, c5) ∧
          statusOfString (jsTrim c4) = none) ∧
    (parseStateRows ["| x | 1 | L | todo | - |"] =
      Except.ok [⟨⟨JSNum.nan, "1", "L"⟩, StepStatus.todo, none⟩]) := by
  refine ⟨parseStateRows_skip, ?_, rfl⟩
  intro lines e herr
  have hko : ¬ ∃ rows, parseStateRows lines = Except.ok rows := by
    rintro ⟨rows, hrows⟩
    rw [herr] at hrows
    cases hrows
  rw [parseStateRows_ok_iff] at hko
  push_neg at hko
  rcases hko with ⟨raw, hmem, hskip, c1, c2, c3, c4, c5, hm, hst⟩
  exact ⟨raw, hmem, c1, c2, c3, c4, c5, hm, by simpa using hst⟩

/-- Witness for claim C10: a free-text line is dropped silently. -/
theorem claim_C10_state_parser_drops_witness :
    stateRowMatch "just some notes" = none ∧
      parseStateRows ["just some notes"] = parseStateRows [] :=
  ⟨by decide, claim_C10_state_parser_drops.1 "just some notes" [] (by decide)⟩

/-- Character code of a digit character produced by `digitChar`. -/
theorem digitChar_toNat (k : Nat) (hk : k < 10) : (digitChar k).toNat = 48 + k := by
  interval_cases k <;> decide

/-- Digit value of a digit character produced by `digitChar`. -/
theorem digitVal_digitChar (k : Nat) (hk : k < 10) : digitVal (digitChar k) = k := by
  simp [digitVal, digitChar_toNat k hk]

/-- Value of an appended digit. -/
theorem digitsToNat_append (l : List Char) (c : Char) :
    digitsToNat (l ++ [c]) = 10 * digitsToNat l + digitVal c := by
  simp [digitsToNat, List.foldl_append]

/-- Specification of the fuelled digit rendering: with sufficient fuel the
digit string is non-empty, consists of decimal digit codes, and evaluates back
to the rendered number. -/
theorem natToCharsAux_spec : ∀ fuel n, n < fuel →
    natToCharsAux fuel n ≠ [] ∧
      (∀ c ∈ natToCharsAux fuel n, 48 ≤ c.toNat ∧ c.toNat ≤ 57) ∧
      digitsToNat (natToCharsAux fuel n) = n := by
  intro fuel
  induction fuel with
  | zero => intro n hn; omega
  | succ fuel ih =>
    intro n hn
    by_cases h : n < 10
    · simp only [natToCharsAux, if_pos h]
      refine ⟨by simp, ?_, ?_⟩
      · intro c hc
        simp at hc
        subst hc
        rw [digitChar_toNat n h]
        omega
      · simp [digitsToNat, digitVal_digitChar n h]
    · simp only [natToCharsAux, if_neg h]
      have hdiv : n / 10 < fuel := by omega
      obtain ⟨hne, hdig, hval⟩ := ih (n / 10) hdiv
      refine ⟨by simp, ?_, ?_⟩
      · intro c hc
        rcases List.mem_append.mp hc with hc1 | hc2
        · exact hdig c hc1
        · simp at hc2
          subst hc2
          rw [digitChar_toNat (n % 10) (by omega)]
          omega
      · rw [digitsToNat_append, hval, digitVal_digitChar (n % 10) (by omega)]
        omega

/-- Facts about decimal digit codes used when re-reading rendered numbers. -/
theorem digit_code_facts (c : Char) (h : 48 ≤ c.toNat ∧ c.toNat ≤ 57) :
    Char.isDigit c = true ∧ isJsWs c = false ∧ c ≠ '|' ∧ c ≠ '\n' ∧ c ≠ '\r' ∧
      c ≠ 'P' ∧ c ≠ '-' ∧ c ≠ '+' := by
  obtain ⟨h1, h2⟩ := h
  refine ⟨?_, ?_, ?_, ?_, ?_, ?_, ?_, ?_⟩
  · simp only [Char.isDigit, ge_iff_le, Bool.and_eq_true, decide_eq_true_iff]
    exact ⟨h1, h2⟩
  · simp only [isJsWs, decide_eq_false_iff_not]
    omega
  · intro hc; rw [hc] at h2; exact absurd h2 (by decide)
  · intro hc; rw [hc] at h1; exact absurd h1 (by decide)
  · intro hc; rw [hc] at h1; exact absurd h1 (by decide)
  · intro hc; rw [hc] at h2; exact absurd h2 (by decide)
  · intro hc; rw [hc] at h1; exact absurd h1 (by decide)
  · intro hc; rw [hc] at h1; exact absurd h1 (by decide)

/-- Lists fixed by trimming do not begin or end with whitespace. -/
theorem trim_stable_parts (l : List Char) (h : trimChars l = l) :
    l.dropWhile isJsWs = l ∧ l.reverse.dropWhile isJsWs = l.reverse := by
  have hlen : (trimChars l).length = l.length := by rw [h]
  have h1 : (l.dropWhile isJsWs).length ≤ l.length :=
    (List.dropWhile_sublist isJsWs).length_le
  have h2 : ((l.dropWhile isJsWs).reverse.dropWhile isJsWs).length ≤
      (l.dropWhile isJsWs).length := by
    have := (List.dropWhile_sublist (l := (l.dropWhile isJsWs).reverse) isJsWs).length_le
    simpa using this
  have h3 : (trimChars l).length =
      ((l.dropWhile isJsWs).reverse.dropWhile isJsWs).length := by
    simp [trimChars]
  have e1 : (l.dropWhile isJsWs).length = l.length := by omega
  have hd : l.dropWhile isJsWs = l :=
    (List.dropWhile_sublist isJsWs).eq_of_length e1
  refine ⟨hd, ?_⟩
  have e2 : ((l.dropWhile isJsWs).reverse.dropWhile isJsWs).length =
      (l.dropWhile isJsWs).reverse.length := by
    simp only [List.length_reverse]
    omega
  have hr := (List.dropWhile_sublist (l := (l.dropWhile isJsWs).reverse) isJsWs).eq_of_length e2
  rw [hd] at hr
  exact hr

/-- Dropping whitespace stops at a non-whitespace head. -/
theorem dropWhile_cons_false (c : Char) (l : List Char) (hc : isJsWs c = false) :
    (c :: l).dropWhile isJsWs = c :: l := by
  rw [List.dropWhile_cons, if_neg (by rw [hc]; simp)]

/-- Trimming is the identity on whitespace-free lists. -/
theorem trimChars_all_nonws (l : List Char) (h : ∀ c ∈ l, isJsWs c = false) :
    trimChars l = l := by
  cases l with
  | nil => rfl
  | cons c m =>
    unfold trimChars
    rw [dropWhile_cons_false c m (h c (by simp))]
    cases hr : (c :: m).reverse with
    | nil => simp at hr
    | cons d r =>
      have hd : d ∈ c :: m := by
        rw [← List.mem_reverse, hr]
        simp
      rw [dropWhile_cons_false d r (h d hd), ← hr, List.reverse_reverse]

/-- Trimming removes exactly the single-space padding that the row template
adds around a trim-stable cell. -/
theorem trim_pad (l : List Char) (h : trimChars l = l) :
    trimChars (' ' :: (l ++ [' '])) = l := by
  cases l with
  | nil => decide
  | cons x m =>
    obtain ⟨hd, hrevd⟩ := trim_stable_parts (x :: m) h
    have hx : isJsWs x = false := by
      by_contra hbad
      simp only [Bool.not_eq_false] at hbad
      rw [List.dropWhile_cons, if_pos (by rw [hbad])] at hd
      have hle := (List.dropWhile_sublist (l := m) isJsWs).length_le
      have hlen := congrArg List.length hd
      simp only [List.length_cons] at hlen
      omega
    cases hrv : (x :: m).reverse with
    | nil => simp at hrv
    | cons y r =>
      have hy : isJsWs y = false := by
        rw [hrv] at hrevd
        by_contra hbad
        simp only [Bool.not_eq_false] at hbad
        rw [List.dropWhile_cons, if_pos (by rw [hbad])] at hrevd
        have hle := (List.dropWhile_sublist (l := r) isJsWs).length_le
        have hlen := congrArg List.length hrevd
        simp only [List.length_cons] at hlen
        omega
      unfold trimChars
      rw [List.dropWhile_cons, if_pos (by decide)]
      have e1 : ((x :: m) ++ [' ']).dropWhile isJsWs = (x :: m) ++ [' '] := by
        rw [List.cons_append, List.dropWhile_cons, if_neg (by rw [hx]; simp)]
      rw [List.cons_append] at e1 ⊢
      rw [e1]
      have hmr : m.reverse ++ [x] = y :: r := by
        rw [← List.reverse_cons]
        exact hrv
      have e2 : (x :: (m ++ [' '])).reverse = ' ' :: (y :: r) := by
        rw [List.reverse_cons, List.reverse_append, ← hmr]
        simp
      rw [e2, List.dropWhile_cons, if_pos (by decide), dropWhile_cons_false y r hy,
        ← hrv, List.reverse_reverse]

/-- Trimming is the identity on a list enclosed by non-whitespace characters. -/
theorem trimChars_sandwich (x y : Char) (m : List Char)
    (hx : isJsWs x = false) (hy : isJsWs y = false) :
    trimChars (x :: (m ++ [y])) = x :: (m ++ [y]) := by
  unfold trimChars
  rw [dropWhile_cons_false x (m ++ [y]) hx]
  have hrev : (x :: (m ++ [y])).reverse = y :: (m.reverse ++ [x]) := by
    rw [List.reverse_cons, List.reverse_append]
    simp
  rw [hrev, dropWhile_cons_false y (m.reverse ++ [x]) hy, ← hrev, List.reverse_reverse]

/-- Reading back a rendered natural number recovers it. -/
theorem jsToNumber_natToChars (n : Nat) :
    jsToNumber (String.mk (natToChars n)) = JSNum.int n := by
  obtain ⟨hne, hdig, hval⟩ := natToCharsAux_spec (n + 1) n (by omega)
  have hdef : natToChars n = natToCharsAux (n + 1) n := rfl
  have htrim : trimChars (String.mk (natToChars n)).data = natToCharsAux (n + 1) n := by
    rw [show (String.mk (natToChars n)).data = natToCharsAux (n + 1) n from rfl]
    exact trimChars_all_nonws _ (fun c hc => (digit_code_facts c (hdig c hc)).2.1)
  cases hcl : natToCharsAux (n + 1) n with
  | nil => exact absurd hcl hne
  | cons c rest =>
    rw [hcl] at hdig hval htrim
    have hc := hdig c (by simp)
    obtain ⟨hcd, -, -, -, -, -, hcm, hcp⟩ := digit_code_facts c hc
    simp only [jsToNumber, htrim]
    rw [if_neg (by simp), if_neg (by simp [hcm]), if_neg (by simp [hcp]),
      if_pos (List.all_eq_true.mpr (fun d hd => (digit_code_facts d (hdig d hd)).1)), hval]

/-- Reading back a rendered phase value recovers it: the `NaN` rendering
`"NaN"` coerces back to `NaN`, and signed decimal renderings coerce back to
their integer. -/
theorem jsToNumber_jsNumToString (x : JSNum) : jsToNumber (jsNumToString x) = x := by
  cases x with
  | nan => decide
  | int n =>
    by_cases hn : n < 0
    · simp only [jsNumToString, if_pos hn]
      obtain ⟨hne, hdig, hval⟩ := natToCharsAux_spec (n.natAbs + 1) n.natAbs (by omega)
      have hdef : natToChars n.natAbs = natToCharsAux (n.natAbs + 1) n.natAbs := rfl
      have htrim : trimChars (String.mk ('-' :: natToChars n.natAbs)).data =
          '-' :: natToCharsAux (n.natAbs + 1) n.natAbs := by
        rw [show (String.mk ('-' :: natToChars n.natAbs)).data =
          '-' :: natToChars n.natAbs from rfl]
        rw [hdef]
        refine trimChars_all_nonws _ ?_
        intro c hc
        rcases List.mem_cons.mp hc with rfl | hc2
        · decide
        · exact (digit_code_facts c (hdig c hc2)).2.1
      simp only [jsToNumber, htrim]
      rw [if_neg (by simp), if_pos (by simp), List.tail_cons,
        if_pos ⟨hne, List.all_eq_true.mpr (fun d hd => (digit_code_facts d (hdig d hd)).1)⟩,
        hval]
      congr 1
      omega
    · simp only [jsNumToString, if_neg hn]
      rw [jsToNumber_natToChars]
      congr 1
      omega

/-- Character data of an appended string. -/
theorem string_data_append (a b : String) : (a ++ b).data = a.data ++ b.data := rfl

/-- Peeling one separator-free piece off the character splitter. -/
theorem splitOnCharAux_append (sep : Char) :
    ∀ (A : List Char), (∀ c ∈ A, c ≠ sep) →
    ∀ acc B, splitOnCharAux sep acc (A ++ sep :: B) =
      (acc.reverse ++ A) :: splitOnCharAux sep [] B := by
  intro A
  induction A with
  | nil =>
    intro _ acc B
    simp [splitOnCharAux]
  | cons c A' ih =>
    intro hA acc B
    have hc : c ≠ sep := hA c (by simp)
    have hstep : splitOnCharAux sep acc ((c :: A') ++ sep :: B) =
        splitOnCharAux sep (c :: acc) (A' ++ sep :: B) := by
      simp only [List.cons_append, splitOnCharAux]
      rw [if_neg hc]
      rfl
    rw [hstep, ih (fun d hd => hA d (by simp [hd])) (c :: acc) B]
    simp

/-- Peeling one newline-terminated line off the line splitter.  The line must
not contain a newline and must not end in a carriage return (which would be
consumed together with the appended newline). -/
theorem splitLinesAux_peel :
    ∀ (l : List Char), (∀ c ∈ l, c ≠ '\n') → l.getLast? ≠ some '\r' →
    ∀ acc rest, splitLinesAux acc (l ++ '\n' :: rest) =
      (acc.reverse ++ l) :: splitLinesAux [] rest := by
  intro l
  induction l with
  | nil =>
    intro _ _ acc rest
    cases rest with
    | nil => simp [splitLinesAux]
    | cons d rest2 => simp [splitLinesAux]
  | cons c l' ih =>
    intro hnl hlast acc rest
    have hc : c ≠ '\n' := hnl c (by simp)
    cases hl' : l' with
    | nil =>
      have hcr : c ≠ '\r' := by
        intro hcc
        rw [hl'] at hlast
        rw [hcc] at hlast
        simp at hlast
      cases rest with
      | nil =>
        simp only [hl', List.nil_append, List.cons_append, splitLinesAux,
          if_neg hc]
        rw [if_neg (by simp [hcr])]
        simp [splitLinesAux]
      | cons d rest2 =>
        simp only [hl', List.nil_append, List.cons_append, splitLinesAux,
          if_neg hc]
        rw [if_neg (by simp [hcr])]
        simp [splitLinesAux]
    | cons d l'' =>
      have hd : d ≠ '\n' := hnl d (by rw [hl']; simp)
      have hlast' : l'.getLast? ≠ some '\r' := by
        rw [hl']
        rw [hl'] at hlast
        rwa [List.getLast?_cons_cons] at hlast
      have hnl' : ∀ x ∈ l', x ≠ '\n' := fun x hx => hnl x (List.mem_cons_of_mem c hx)
      subst hl'
      have hstep : splitLinesAux acc ((c :: d :: l'') ++ '\n' :: rest) =
          splitLinesAux (c :: acc) ((d :: l'') ++ '\n' :: rest) := by
        simp only [List.cons_append, splitLinesAux]
        rw [if_neg hc, if_neg (fun hand => hd hand.2)]
        rfl
      rw [hstep, ih hnl' hlast' (c :: acc) rest]
      simp

/-- Splitting rejoined lines recovers them, with one trailing empty line for
the final newline. -/
theorem splitLines_join : ∀ (rest : List String) (l : String),
    (∀ s ∈ l :: rest, (∀ c ∈ s.data, c ≠ '\n') ∧ s.data.getLast? ≠ some '\r') →
    splitLines (joinWithNewline (l :: rest) ++ "\n") = (l :: rest) ++ [""] := by
  intro rest
  induction rest with
  | nil =>
    intro l h
    obtain ⟨hnl, hlast⟩ := h l (by simp)
    have hdata : (joinWithNewline [l] ++ "\n").data = l.data ++ '\n' :: [] := rfl
    unfold splitLines
    rw [hdata, splitLinesAux_peel l.data hnl hlast [] []]
    rfl
  | cons l2 rest2 ih =>
    intro l h
    obtain ⟨hnl, hlast⟩ := h l (by simp)
    have hj : joinWithNewline (l :: l2 :: rest2) =
        l ++ "\n" ++ joinWithNewline (l2 :: rest2) := rfl
    have hdata : (joinWithNewline (l :: l2 :: rest2) ++ "\n").data =
        l.data ++ '\n' :: (joinWithNewline (l2 :: rest2) ++ "\n").data := by
      rw [hj]
      simp only [string_data_append]
      simp [List.append_assoc]
    unfold splitLines
    rw [hdata, splitLinesAux_peel l.data hnl hlast [] _]
    have ih2 := ih l2 (fun s hs => h s (List.mem_cons_of_mem l hs))
    unfold splitLines at ih2
    simp only [List.map_cons, List.reverse_nil, List.nil_append]
    rw [ih2]
    rfl

/-- Row-shape recognition of a rendered 5-cell pipe row. -/
theorem stateRowMatch_render (p1 p2 p3 p4 p5 : List Char)
    (h1 : ∀ c ∈ p1, c ≠ '|') (h2 : ∀ c ∈ p2, c ≠ '|') (h3 : ∀ c ∈ p3, c ≠ '|')
    (h4 : ∀ c ∈ p4, c ≠ '|') (h5 : ∀ c ∈ p5, c ≠ '|')
    (n1 : p1 ≠ []) (n2 : p2 ≠ []) (n3 : p3 ≠ []) (n4 : p4 ≠ []) (n5 : p5 ≠ [])
    (line : String)
    (hline : line.data =
      '|' :: (p1 ++ '|' :: (p2 ++ '|' :: (p3 ++ '|' :: (p4 ++ '|' :: (p5 ++ ['|'])))))) :
    stateRowMatch line =
      some (String.mk p1, String.mk p2, String.mk p3, String.mk p4, String.mk p5) := by
  have hsplit : splitOnChar '|' line.data = [[], p1, p2, p3, p4, p5, []] := by
    rw [hline]
    unfold splitOnChar
    have e0 : splitOnCharAux '|' [] ('|' :: (p1 ++ '|' :: (p2 ++ '|' :: (p3 ++ '|' ::
        (p4 ++ '|' :: (p5 ++ ['|'])))))) = [].reverse :: splitOnCharAux '|' []
        (p1 ++ '|' :: (p2 ++ '|' :: (p3 ++ '|' :: (p4 ++ '|' :: (p5 ++ ['|']))))) := by
      simp only [splitOnCharAux]
      simp
    rw [e0, splitOnCharAux_append '|' p1 h1, splitOnCharAux_append '|' p2 h2,
      splitOnCharAux_append '|' p3 h3, splitOnCharAux_append '|' p4 h4,
      splitOnCharAux_append '|' p5 h5]
    simp [splitOnCharAux]
  unfold stateRowMatch
  rw [hsplit]
  show (if ([] : List Char) = [] ∧ ([] : List Char) = [] ∧ p1 ≠ [] ∧ p2 ≠ [] ∧
      p3 ≠ [] ∧ p4 ≠ [] ∧ p5 ≠ [] then
      some (String.mk p1, String.mk p2, String.mk p3, String.mk p4, String.mk p5)
    else none) =
    some (String.mk p1, String.mk p2, String.mk p3, String.mk p4, String.mk p5)
  rw [if_pos ⟨rfl, rfl, n1, n2, n3, n4, n5⟩]

/-- Character facts for rendered phase values: no whitespace, pipes or line
terminators occur in them, and they are non-empty. -/
theorem jsNumToString_chars (x : JSNum) :
    (jsNumToString x).data ≠ [] ∧
      ∀ c ∈ (jsNumToString x).data,
        isJsWs c = false ∧ c ≠ '|' ∧ c ≠ '\n' ∧ c ≠ '\r' := by
  cases x with
  | nan => exact ⟨by decide, by decide⟩
  | int n =>
    by_cases hn : n < 0
    · simp only [jsNumToString, if_pos hn]
      obtain ⟨hne, hdig, -⟩ := natToCharsAux_spec (n.natAbs + 1) n.natAbs (by omega)
      refine ⟨by simp, ?_⟩
      intro c hc
      rcases List.mem_cons.mp hc with rfl | hc2
      · exact ⟨by decide, by decide, by decide, by decide⟩
      · obtain ⟨-, hw, hp, hnl, hcr, -, -, -⟩ := digit_code_facts c (hdig c hc2)
        exact ⟨hw, hp, hnl, hcr⟩
    · simp only [jsNumToString, if_neg hn]
      obtain ⟨hne, hdig, -⟩ := natToCharsAux_spec (n.natAbs + 1) n.natAbs (by omega)
      refine ⟨hne, ?_⟩
      intro c hc
      obtain ⟨-, hw, hp, hnl, hcr, -, -, -⟩ := digit_code_facts c (hdig c hc)
      exact ⟨hw, hp, hnl, hcr⟩

/-- Character facts for rendered status values. -/
theorem statusToString_chars (st : StepStatus) :
    (statusToString st).data ≠ [] ∧
      ∀ c ∈ (statusToString st).data,
        isJsWs c = false ∧ c ≠ '|' ∧ c ≠ '\n' ∧ c ≠ '\r' := by
  cases st <;> exact ⟨by decide, by decide⟩

/-- Status strings parse back to their status. -/
theorem statusOfString_statusToString (st : StepStatus) :
    statusOfString (statusToString st) = some st := by
  cases st <;> rfl

/-- Status strings are trim-stable. -/
theorem statusToString_trim (st : StepStatus) :
    trimChars (statusToString st).data = (statusToString st).data := by
  cases st <;> decide

/-- Leading-character shape of rendered phase values: never `P`, and when it
is a minus sign a digit follows. -/
theorem jsNumToString_shape (x : JSNum) :
    ∃ c rest, (jsNumToString x).data = c :: rest ∧ c ≠ 'P' ∧
      (c = '-' → ∃ d rest2, rest = d :: rest2 ∧ d ≠ '-') := by
  cases x with
  | nan => exact ⟨'N', ['a', 'N'], rfl, by decide, fun h => absurd h (by decide)⟩
  | int n =>
    by_cases hn : n < 0
    · obtain ⟨hne, hdig, -⟩ := natToCharsAux_spec (n.natAbs + 1) n.natAbs (by omega)
      simp only [jsNumToString, if_pos hn]
      cases hD : natToCharsAux (n.natAbs + 1) n.natAbs with
      | nil => exact absurd hD hne
      | cons d rest2 =>
        refine ⟨'-', d :: rest2, ?_, by decide, ?_⟩
        · show '-' :: natToChars n.natAbs = '-' :: d :: rest2
          rw [show natToChars n.natAbs = natToCharsAux (n.natAbs + 1) n.natAbs from rfl, hD]
        · intro _
          refine ⟨d, rest2, rfl, ?_⟩
          exact (digit_code_facts d (hdig d (by rw [hD]; simp))).2.2.2.2.2.2.1
    · obtain ⟨hne, hdig, -⟩ := natToCharsAux_spec (n.natAbs + 1) n.natAbs (by omega)
      simp only [jsNumToString, if_neg hn]
      cases hD : natToCharsAux (n.natAbs + 1) n.natAbs with
      | nil => exact absurd hD hne
      | cons c rest =>
        have hfacts := digit_code_facts c (hdig c (by rw [hD]; simp))
        refine ⟨c, rest, ?_, hfacts.2.2.2.2.2.1, fun h => absurd h hfacts.2.2.2.2.2.2.1⟩
        show natToChars n.natAbs = c :: rest
        rw [show natToChars n.natAbs = natToCharsAux (n.natAbs + 1) n.natAbs from rfl, hD]

/-- Nested pipe decomposition of a rendered state row. -/
theorem writeStateRow_data (e : StateRow) :
    (writeStateRow e).data =
      '|' :: ((' ' :: ((jsNumToString e.phase).data ++ [' '])) ++ '|' ::
        ((' ' :: (e.step.data ++ [' '])) ++ '|' :: ((' ' :: (e.label.data ++ [' '])) ++ '|' ::
        ((' ' :: ((statusToString e.status).data ++ [' '])) ++ '|' ::
        ((' ' :: ((e.progressLog.getD "-").data ++ [' '])) ++
          ['|']))))) := by
  unfold writeStateRow
  simp only [string_data_append,
    show ("| " : String).data = ['|', ' '] from rfl,
    show (" | " : String).data = [' ', '|', ' '] from rfl,
    show (" |" : String).data = [' ', '|'] from rfl]
  simp [List.append_assoc]

/-- Concat decomposition of a rendered state row: a pipe, a middle part, and a
closing pipe. -/
theorem writeStateRow_data_concat (e : StateRow) :
    (writeStateRow e).data =
      '|' ::
        ((' ' :: ((jsNumToString e.phase).data ++ [' ']) ++
          '|' :: (' ' :: (e.step.data ++ [' ']) ++
          '|' :: (' ' :: (e.label.data ++ [' ']) ++
          '|' :: (' ' :: ((statusToString e.status).data ++ [' ']) ++
          '|' :: (' ' :: ((e.progressLog.getD "-").data ++ [' '])))))) ++ ['|']) := by
  rw [writeStateRow_data]
  simp [List.append_assoc]

/-- A rendered state row is trim-stable. -/
theorem writeStateRow_trim (e : StateRow) :
    trimChars (writeStateRow e).data = (writeStateRow e).data := by
  rw [writeStateRow_data_concat]
  exact trimChars_sandwich '|' '|' _ (by decide) (by decide)

/-- A rendered row never looks like the header or separator row, because its
phase cell starts with a digit, a minus sign followed by a digit, or `NaN`. -/
theorem writeStateRow_not_header (e : StateRow) :
    strStartsWith (writeStateRow e) "| Phase" = false ∧
    strStartsWith (writeStateRow e) "| -----" = false := by
  obtain ⟨c, rest, hshape, hcP, hcdash⟩ := jsNumToString_shape e.phase
  have hdata := writeStateRow_data e
  rw [hshape] at hdata
  unfold strStartsWith
  rw [hdata]
  constructor
  · show List.isPrefixOf ['|', ' ', 'P', 'h', 'a', 's', 'e'] _ = false
    simp only [List.cons_append, List.isPrefixOf, Bool.and_eq_false_iff]
    right; right
    left
    simpa using Ne.symm hcP
  · show List.isPrefixOf ['|', ' ', '-', '-', '-', '-', '-'] _ = false
    by_cases hc : c = '-'
    · obtain ⟨d, rest2, hrest, hd⟩ := hcdash hc
      subst hc
      rw [hrest]
      simp only [List.cons_append, List.isPrefixOf, Bool.and_eq_false_iff]
      right; right; right
      left
      simpa using Ne.symm hd
    · simp only [List.cons_append, List.isPrefixOf, Bool.and_eq_false_iff]
      right; right
      left
      simpa using Ne.symm hc

/-- Characters of a rendered row come from the template or its cells. -/
theorem writeStateRow_mem (e : StateRow) (c : Char) (hc : c ∈ (writeStateRow e).data) :
    c = '|' ∨ c = ' ' ∨ c ∈ (jsNumToString e.phase).data ∨ c ∈ e.step.data ∨
      c ∈ e.label.data ∨ c ∈ (statusToString e.status).data ∨
      c ∈ (e.progressLog.getD "-").data := by
  rw [writeStateRow_data e] at hc
  simp only [List.mem_cons, List.mem_append, List.mem_singleton,
    List.not_mem_nil, or_false] at hc
  tauto

/-- Rendered rows contain no newline and do not end in a carriage return,
provided the variable cells contain no newline. -/
theorem writeStateRow_line_ok (e : StateRow)
    (hs : ∀ c ∈ e.step.data, c ≠ '\n') (hl : ∀ c ∈ e.label.data, c ≠ '\n')
    (hp : ∀ c ∈ (e.progressLog.getD "-").data, c ≠ '\n') :
    (∀ c ∈ (writeStateRow e).data, c ≠ '\n') ∧
      (writeStateRow e).data.getLast? ≠ some '\r' := by
  constructor
  · intro c hc
    rcases writeStateRow_mem e c hc with rfl | rfl | h | h | h | h | h
    · decide
    · decide
    · exact ((jsNumToString_chars e.phase).2 c h).2.2.1
    · exact hs c h
    · exact hl c h
    · exact ((statusToString_chars e.status).2 c h).2.2.1
    · exact hp c h
  · rw [writeStateRow_data_concat e, ← List.cons_append, List.getLast?_concat]
    decide

/-- Parsing step for a rendered row: the row is recognized, its cells trim back
to the original fields, and the scan continues. -/
theorem parseStateRows_render_step (e : StateRow) (rest : List String)
    (rows : List StateRow)
    (hst : trimChars e.step.data = e.step.data) (hstp : ∀ c ∈ e.step.data, c ≠ '|')
    (hlb : trimChars e.label.data = e.label.data) (hlbp : ∀ c ∈ e.label.data, c ≠ '|')
    (hlog : e.progressLog = none ∨
      ∃ p, e.progressLog = some p ∧ trimChars p.data = p.data ∧
        (∀ c ∈ p.data, c ≠ '|') ∧ p ≠ "-" ∧ p ≠ "")
    (hrest : parseStateRows rest = Except.ok rows) :
    parseStateRows (writeStateRow e :: rest) = Except.ok (e :: rows) := by
  have htrim : jsTrim (writeStateRow e) = writeStateRow e := by
    unfold jsTrim
    rw [writeStateRow_trim e]
  have hne : writeStateRow e ≠ "" := by
    intro hcon
    have := congrArg String.data hcon
    rw [writeStateRow_data e] at this
    cases this
  have hnh := writeStateRow_not_header e
  have hskip : ¬(jsTrim (writeStateRow e) = "" ∨
      strStartsWith (jsTrim (writeStateRow e)) "| Phase" = true ∨
      strStartsWith (jsTrim (writeStateRow e)) "| -----" = true) := by
    rw [htrim]
    push_neg
    exact ⟨hne, by rw [hnh.1]; simp, by rw [hnh.2]; simp⟩
  have hplogp : ∀ c ∈ (e.progressLog.getD "-").data, c ≠ '|' := by
    rcases hlog with hnone | ⟨p, hp, -, hpp, -, -⟩
    · rw [hnone]; intro c hc; simp at hc; subst hc; decide
    · rw [hp]; exact hpp
  have hmatch := stateRowMatch_render
    (' ' :: ((jsNumToString e.phase).data ++ [' ']))
    (' ' :: (e.step.data ++ [' ']))
    (' ' :: (e.label.data ++ [' ']))
    (' ' :: ((statusToString e.status).data ++ [' ']))
    (' ' :: ((e.progressLog.getD "-").data ++ [' ']))
    (by intro c hc
        rcases List.mem_cons.mp hc with rfl | hc
        · decide
        rcases List.mem_append.mp hc with hc | hc
        · exact ((jsNumToString_chars e.phase).2 c hc).2.1
        · simp at hc; subst hc; decide)
    (by intro c hc
        rcases List.mem_cons.mp hc with rfl | hc
        · decide
        rcases List.mem_append.mp hc with hc | hc
        · exact hstp c hc
        · simp at hc; subst hc; decide)
    (by intro c hc
        rcases List.mem_cons.mp hc with rfl | hc
        · decide
        rcases List.mem_append.mp hc with hc | hc
        · exact hlbp c hc
        · simp at hc; subst hc; decide)
    (by intro c hc
        rcases List.mem_cons.mp hc with rfl | hc
        · decide
        rcases List.mem_append.mp hc with hc | hc
        · exact ((statusToString_chars e.status).2 c hc).2.1
        · simp at hc; subst hc; decide)
    (by intro c hc
        rcases List.mem_cons.mp hc with rfl | hc
        · decide
        rcases List.mem_append.mp hc with hc | hc
        · exact hplogp c hc
        · simp at hc; subst hc; decide)
    (by simp) (by simp) (by simp) (by simp) (by simp)
    (writeStateRow e) (writeStateRow_data e)
  have hphase : jsTrim (String.mk (' ' :: ((jsNumToString e.phase).data ++ [' ']))) =
      jsNumToString e.phase := by
    unfold jsTrim
    rw [show (String.mk (' ' :: ((jsNumToString e.phase).data ++ [' ']))).data =
      ' ' :: ((jsNumToString e.phase).data ++ [' ']) from rfl]
    rw [trim_pad _ (trimChars_all_nonws _ (fun c hc => ((jsNumToString_chars e.phase).2 c hc).1))]
  have hstep2 : jsTrim (String.mk (' ' :: (e.step.data ++ [' ']))) = e.step := by
    unfold jsTrim
    rw [show (String.mk (' ' :: (e.step.data ++ [' ']))).data =
      ' ' :: (e.step.data ++ [' ']) from rfl]
    rw [trim_pad _ hst]
  have hlab2 : jsTrim (String.mk (' ' :: (e.label.data ++ [' ']))) = e.label := by
    unfold jsTrim
    rw [show (String.mk (' ' :: (e.label.data ++ [' ']))).data =
      ' ' :: (e.label.data ++ [' ']) from rfl]
    rw [trim_pad _ hlb]
  have hstat2 : jsTrim (String.mk (' ' :: ((statusToString e.status).data ++ [' ']))) =
      statusToString e.status := by
    unfold jsTrim
    rw [show (String.mk (' ' :: ((statusToString e.status).data ++ [' ']))).data =
      ' ' :: ((statusToString e.status).data ++ [' ']) from rfl]
    rw [trim_pad _ (statusToString_trim e.status)]
  have hplog2 : jsTrim (String.mk (' ' :: ((e.progressLog.getD "-").data ++ [' ']))) =
      e.progressLog.getD "-" := by
    unfold jsTrim
    rw [show (String.mk (' ' :: ((e.progressLog.getD "-").data ++ [' ']))).data =
      ' ' :: ((e.progressLog.getD "-").data ++ [' ']) from rfl]
    rcases hlog with hnone | ⟨p, hp, hptrim, -, -, -⟩
    · rw [hnone]
      decide
    · rw [hp]
      simp only [Option.getD_some]
      rw [trim_pad _ hptrim]
  simp only [parseStateRows, if_neg hskip, hmatch, hstep2, hlab2, hstat2, hplog2, hphase,
    statusOfString_statusToString, jsToNumber_jsNumToString, hrest]
  have hfinal : (if e.progressLog.getD "-" = "-" ∨ e.progressLog.getD "-" = "" then
      (none : Option String) else some (e.progressLog.getD "-")) = e.progressLog := by
    rcases hlog with hnone | ⟨p, hp, -, -, hpd, hpe⟩
    · rw [hnone]
      simp
    · rw [hp]
      simp only [Option.getD_some]
      rw [if_neg (by simp [hpd, hpe])]
  rw [hfinal]

/-- Parsing the rendered rows of well-formed entries recovers the entries. -/
theorem parseStateRows_render_list (entries : List StateRow)
    (h : ∀ e ∈ entries,
      trimChars e.step.data = e.step.data ∧
        (∀ c ∈ e.step.data, c ≠ '|' ∧ c ≠ '\n') ∧
        trimChars e.label.data = e.label.data ∧
        (∀ c ∈ e.label.data, c ≠ '|' ∧ c ≠ '\n') ∧
        (e.progressLog = none ∨
          ∃ p, e.progressLog = some p ∧ trimChars p.data = p.data ∧
            (∀ c ∈ p.data, c ≠ '|' ∧ c ≠ '\n') ∧ p ≠ "-" ∧ p ≠ "")) :
    parseStateRows (entries.map writeStateRow ++ [""]) = Except.ok entries := by
  induction entries with
  | nil => rfl
  | cons e entries2 ih =>
    obtain ⟨h1, h2, h3, h4, h5⟩ := h e (List.mem_cons_self _ _)
    rw [List.map_cons, List.cons_append]
    rw [parseStateRows_render_step e (entries2.map writeStateRow ++ [""]) entries2
      h1 (fun c hc => (h2 c hc).1) h3 (fun c hc => (h4 c hc).1)
      (by rcases h5 with h5 | ⟨p, hp, ht, hpc, hd, he⟩
          · exact Or.inl h5
          · exact Or.inr ⟨p, hp, ht, fun c hc => (hpc c hc).1, hd, he⟩)
      (ih (fun e2 he2 => h e2 (List.mem_cons_of_mem _ he2)))]

/-- Claim C4, amended: serializing a `WorkState` with `writeState` and
re-parsing the text yields exactly the original rows, for states whose step
and label cells are trim-stable and free of pipes and newlines, and whose
progress-log value, when present, additionally differs from the literal `-`
and from the empty string.  (The unamended claim, quantifying over every
`WorkState`, fails: a `progressLog` of `some "-"` re-parses as `none`.) -/
theorem claim_C4_roundtrip (state : WorkState)
    (h : ∀ e ∈ state.entries,
      trimChars e.step.data = e.step.data ∧
        (∀ c ∈ e.step.data, c ≠ '|' ∧ c ≠ '\n') ∧
        trimChars e.label.data = e.label.data ∧
        (∀ c ∈ e.label.data, c ≠ '|' ∧ c ≠ '\n') ∧
        (e.progressLog = none ∨
          ∃ p, e.progressLog = some p ∧ trimChars p.data = p.data ∧
            (∀ c ∈ p.data, c ≠ '|' ∧ c ≠ '\n') ∧ p ≠ "-" ∧ p ≠ "")) :
    parseStateText (writeStateContent state) = Except.ok state.entries := by
  unfold parseStateText writeStateContent
  have hlines : ∀ s ∈ ("| Phase | Step | Label | Status | Progress Log |" ::
      "| ----- | ---- | ----- | ------ | ------------ |" ::
      state.entries.map writeStateRow),
      (∀ c ∈ s.data, c ≠ '\n') ∧ s.data.getLast? ≠ some '\r' := by
    intro s hs
    rcases List.mem_cons.mp hs with rfl | hs
    · exact ⟨by decide, by decide⟩
    rcases List.mem_cons.mp hs with rfl | hs
    · exact ⟨by decide, by decide⟩
    rcases List.mem_map.mp hs with ⟨e, he, rfl⟩
    obtain ⟨-, h2, -, h4, h5⟩ := h e he
    refine writeStateRow_line_ok e (fun c hc => (h2 c hc).2) (fun c hc => (h4 c hc).2) ?_
    rcases h5 with h5 | ⟨p, hp, -, hpc, -, -⟩
    · rw [h5]; intro c hc; simp at hc; subst hc; decide
    · rw [hp]; exact fun c hc => (hpc c hc).2
  rw [splitLines_join _ _ hlines]
  have hhdr : ∀ X, parseStateRows
      ("| Phase | Step | Label | Status | Progress Log |" :: X) = parseStateRows X := by
    intro X
    simp only [parseStateRows]
    rw [if_pos (by right; left; decide)]
  have hsep : ∀ X, parseStateRows
      ("| ----- | ---- | ----- | ------ | ------------ |" :: X) = parseStateRows X := by
    intro X
    simp only [parseStateRows]
    rw [if_pos (by right; right; decide)]
  rw [List.cons_append, List.cons_append, hhdr, hsep]
  exact parseStateRows_render_list state.entries h

/-- Witness for claim C4 at a concrete well-formed state. -/
theorem claim_C4_roundtrip_witness :
    parseStateText (writeStateContent
        (WorkState.mk [⟨⟨JSNum.int 1, "2.1", "Do X"⟩, StepStatus.done, some "logs/p1-s2.1.md"⟩])) =
      Except.ok [⟨⟨JSNum.int 1, "2.1", "Do X"⟩, StepStatus.done, some "logs/p1-s2.1.md"⟩] :=
  claim_C4_roundtrip
    (WorkState.mk [⟨⟨JSNum.int 1, "2.1", "Do X"⟩, StepStatus.done, some "logs/p1-s2.1.md"⟩])
    (by intro e he
        simp only [List.mem_singleton] at he
        subst he
        exact ⟨by decide, by decide, by decide, by decide,
          Or.inr ⟨"logs/p1-s2.1.md", rfl, by decide, by decide, by decide, by decide⟩⟩)

/-- Counterexample to claim C4 as stated: a row whose progress log is the
literal `-` string re-parses with a null progress log, so the round trip does
not preserve every `WorkState`. -/
theorem claim_C4_roundtrip_counterexample :
    parseStateText (writeStateContent
        (WorkState.mk [⟨⟨JSNum.int 1, "1", "L"⟩, StepStatus.todo, some "-"⟩])) =
      Except.ok [⟨⟨JSNum.int 1, "1", "L"⟩, StepStatus.todo, none⟩] ∧
    parseStateText (writeStateContent
        (WorkState.mk [⟨⟨JSNum.int 1, "1", "L"⟩, StepStatus.todo, some "-"⟩])) ≠
      Except.ok [⟨⟨JSNum.int 1, "1", "L"⟩, StepStatus.todo, some "-"⟩] := by
  constructor
  · rfl
  · intro hcon
    rw [show parseStateText (writeStateContent
        (WorkState.mk [⟨⟨JSNum.int 1, "1", "L"⟩, StepStatus.todo, some "-"⟩])) =
      Except.ok [⟨⟨JSNum.int 1, "1", "L"⟩, StepStatus.todo, none⟩] from rfl] at hcon
    simp at hcon

/-! Lemmas about the file-system model and `createStepLog`. -/

/-- Looking up the just-written path yields the written content. -/
theorem mapGet_fsWrite_self (fs : Fs) (p c : String) :
    mapGet (fsWrite fs p c) p = some c := by
  unfold mapGet fsWrite
  rw [List.find?_cons_of_pos]
  · rfl
  · simp

/-- A `find?` for one key ignores a filter that removes only another key. -/
theorem find?_filter_ne (p q : String) (h : q ≠ p) (l : List (String × String)) :
    List.find? (fun r => r.fst == q) (List.filter (fun r => r.fst ≠ p) l) =
      List.find? (fun r => r.fst == q) l := by
  induction l with
  | nil => rfl
  | cons a rest ih =>
    by_cases hap : a.fst = p
    · have h1 : (a.fst == q) = false := by
        rw [hap]
        exact beq_false_of_ne (Ne.symm h)
    /- the head is filtered out but could not have been found anyway -/
      rw [List.filter_cons, if_neg (by simp [hap]), ih,
        List.find?_cons_of_neg _ (by simp [h1])]
    · rw [List.filter_cons, if_pos (by simp [hap])]
      by_cases haq : a.fst = q
      · rw [List.find?_cons_of_pos _ (by simp [haq]),
          List.find?_cons_of_pos _ (by simp [haq])]
      · rw [List.find?_cons_of_neg _ (by simp [haq]),
          List.find?_cons_of_neg _ (by simp [haq]), ih]

/-- Writing one path leaves the lookup of every other path unchanged. -/
theorem mapGet_fsWrite_other (fs : Fs) (p c q : String) (h : q ≠ p) :
    mapGet (fsWrite fs p c) q = mapGet fs q := by
  unfold mapGet fsWrite
  rw [List.find?_cons_of_neg _ (by simp [Ne.symm h]), find?_filter_ne p q h]

/-- C5: log creation is idempotent.  When the canonical log file
`p<phase>-s<step>.md` already exists, `createStepLog` returns the root-relative
canonical path with the file system unchanged; therefore a second call for the
same step and layout changes nothing and returns the same relative path as the
first, and a first call on a missing file writes exactly the rendered template
at the canonical path and touches no other path. -/
theorem claim_C5_create_log_idempotent (layout : WorkNodeLayout)
    (planStep : PlanStep) (st1 st2 : StepStatus) (t1 t2 : String) (fs : Fs) :
    ((∃ content, mapGet fs
          (canonicalLogPaths layout planStep.toStepIdentifier).absolute =
        some content) →
      createStepLog layout planStep st1 t1 fs =
        (fs, (canonicalLogPaths layout planStep.toStepIdentifier).relative)) ∧
    createStepLog layout planStep st2 t2 (createStepLog layout planStep st1 t1 fs).1 =
      ((createStepLog layout planStep st1 t1 fs).1,
        (canonicalLogPaths layout planStep.toStepIdentifier).relative) ∧
    (createStepLog layout planStep st1 t1 fs).2 =
      (canonicalLogPaths layout planStep.toStepIdentifier).relative ∧
    (mapGet fs (canonicalLogPaths layout planStep.toStepIdentifier).absolute = none →
      mapGet (createStepLog layout planStep st1 t1 fs).1
          (canonicalLogPaths layout planStep.toStepIdentifier).absolute =
        some (logTemplate planStep st1 t1) ∧
      ∀ q, q ≠ (canonicalLogPaths layout planStep.toStepIdentifier).absolute →
        mapGet (createStepLog layout planStep st1 t1 fs).1 q = mapGet fs q) := by
  refine ⟨?_, ?_, ?_, ?_⟩
  · rintro ⟨content, hc⟩
    simp [createStepLog, hc]
  · cases h : mapGet fs (canonicalLogPaths layout planStep.toStepIdentifier).absolute with
    | some c => simp [createStepLog, h]
    | none => simp [createStepLog, h, mapGet_fsWrite_self]
  · cases h : mapGet fs (canonicalLogPaths layout planStep.toStepIdentifier).absolute with
    | some c => simp [createStepLog, h]
    | none => simp [createStepLog, h]
  · intro h
    refine ⟨?_, ?_⟩
    · simp [createStepLog, h, mapGet_fsWrite_self]
    · intro q hq
      simp [createStepLog, h, mapGet_fsWrite_other fs _ _ q hq]

/-- Witness for C5: with the canonical file already present under a concrete
layout, a call leaves the file system unchanged and returns `logs/p1-s2.md`. -/
theorem claim_C5_create_log_idempotent_witness :
    createStepLog (layoutOf "/w")
        { phase := JSNum.int 1, step := "2", label := "L" }
        StepStatus.todo "T1" (fsWrite [] "/w/logs/p1-s2.md" "X") =
      (fsWrite [] "/w/logs/p1-s2.md" "X", "logs/p1-s2.md") := by
  have h := (claim_C5_create_log_idempotent (layoutOf "/w")
      { phase := JSNum.int 1, step := "2", label := "L" }
      StepStatus.todo StepStatus.todo "T1" "T1"
      (fsWrite [] "/w/logs/p1-s2.md" "X")).1 ⟨"X", by decide⟩
  rw [h]
  rfl

/-! Lemmas about `validateWorkNodeLayout`. -/

/-- A required-entry check passes exactly when `stat` reports the expected
kind. -/
theorem entryFailure_none_iff (stat : String → StatResult) (cand : String)
    (k : EntryKind) (rel root : String) :
    entryFailure stat cand k rel root = none ↔ stat cand = expectedStat k := by
  cases h : stat cand <;> cases k <;> simp [entryFailure, h, expectedStat]

/-- Validation returns the concrete layout exactly when all three entry
checks pass. -/
theorem validateLayout_ok_iff_failures (stat : String → StatResult) (root : String) :
    validateWorkNodeLayout stat root = Except.ok (layoutOf root) ↔
      (entryFailure stat (pathJoin root "PLAN.md") EntryKind.file "PLAN.md" root = none ∧
       entryFailure stat (pathJoin root "STATE.md") EntryKind.file "STATE.md" root = none ∧
       entryFailure stat (pathJoin root "logs") EntryKind.directory "logs" root = none) := by
  cases he1 : entryFailure stat (pathJoin root "PLAN.md") EntryKind.file "PLAN.md" root <;>
    cases he2 : entryFailure stat (pathJoin root "STATE.md") EntryKind.file "STATE.md" root <;>
      cases he3 : entryFailure stat (pathJoin root "logs") EntryKind.directory "logs" root <;>
        simp [validateWorkNodeLayout, layoutOf, he1, he2, he3]

/-- The aggregate error of a failed validation is never empty. -/
theorem validateLayout_error_ne_nil (stat : String → StatResult) (root : String)
    (fs : List String) (h : validateWorkNodeLayout stat root = Except.error fs) :
    fs ≠ [] := by
  intro hnil
  subst hnil
  cases he1 : entryFailure stat (pathJoin root "PLAN.md") EntryKind.file "PLAN.md" root <;>
    cases he2 : entryFailure stat (pathJoin root "STATE.md") EntryKind.file "STATE.md" root <;>
      cases he3 : entryFailure stat (pathJoin root "logs") EntryKind.directory "logs" root <;>
        simp [validateWorkNodeLayout, layoutOf, he1, he2, he3] at h

/-- The aggregate error of a failed validation holds exactly the messages of
the violated entries. -/
theorem validateLayout_failures_mem (stat : String → StatResult) (root : String)
    (fs : List String)
    (h : validateWorkNodeLayout stat root = Except.error fs) (m : String) :
    m ∈ fs ↔
      (entryFailure stat (pathJoin root "PLAN.md") EntryKind.file "PLAN.md" root = some m ∨
       entryFailure stat (pathJoin root "STATE.md") EntryKind.file "STATE.md" root = some m ∨
       entryFailure stat (pathJoin root "logs") EntryKind.directory "logs" root = some m) := by
  cases he1 : entryFailure stat (pathJoin root "PLAN.md") EntryKind.file "PLAN.md" root <;>
    cases he2 : entryFailure stat (pathJoin root "STATE.md") EntryKind.file "STATE.md" root <;>
      cases he3 : entryFailure stat (pathJoin root "logs") EntryKind.directory "logs" root <;>
        simp [validateWorkNodeLayout, layoutOf, he1, he2, he3] at h <;>
          subst h <;> simp [eq_comm]

/-- C8: layout validation accumulates all failures.  It succeeds with the
concrete layout built from the root exactly when `PLAN.md` and `STATE.md` stat
as files and `logs` stats as a directory; a failed validation carries a
non-empty aggregate whose members are exactly the messages of the violated
entries; and a root missing both `PLAN.md` and `logs` reports both violations
in the one failure. -/
theorem claim_C8_layout_validation (stat : String → StatResult) (root : String) :
    (validateWorkNodeLayout stat root = Except.ok (layoutOf root) ↔
      stat (pathJoin root "PLAN.md") = StatResult.file ∧
      stat (pathJoin root "STATE.md") = StatResult.file ∧
      stat (pathJoin root "logs") = StatResult.directory) ∧
    (∀ fs, validateWorkNodeLayout stat root = Except.error fs →
      fs ≠ [] ∧
      ∀ m, m ∈ fs ↔
        (entryFailure stat (pathJoin root "PLAN.md") EntryKind.file "PLAN.md" root = some m ∨
         entryFailure stat (pathJoin root "STATE.md") EntryKind.file "STATE.md" root = some m ∨
         entryFailure stat (pathJoin root "logs") EntryKind.directory "logs" root = some m)) ∧
    (stat (pathJoin root "PLAN.md") = StatResult.enoent →
      stat (pathJoin root "STATE.md") = StatResult.file →
      stat (pathJoin root "logs") = StatResult.enoent →
      validateWorkNodeLayout stat root = Except.error
        ["PLAN.md was not found under " ++ root, "logs was not found under " ++ root]) := by
  refine ⟨?_, ?_, ?_⟩
  · rw [validateLayout_ok_iff_failures, entryFailure_none_iff, entryFailure_none_iff,
      entryFailure_none_iff]
    exact Iff.rfl
  · intro fs h
    exact ⟨validateLayout_error_ne_nil stat root fs h,
      validateLayout_failures_mem stat root fs h⟩
  · intro h1 h2 h3
    have e1 : entryFailure stat (pathJoin root "PLAN.md") EntryKind.file "PLAN.md" root =
        some ("PLAN.md was not found under " ++ root) := by simp [entryFailure, h1]
    have e2 : entryFailure stat (pathJoin root "STATE.md") EntryKind.file "STATE.md" root =
        none := by simp [entryFailure, h2]
    have e3 : entryFailure stat (pathJoin root "logs") EntryKind.directory "logs" root =
        some ("logs was not found under " ++ root) := by simp [entryFailure, h3]
    simp [validateWorkNodeLayout, layoutOf, e1, e2, e3]

/-- Witness for C8: a root where only `STATE.md` exists reports both the
missing `PLAN.md` and the missing `logs` directory in one aggregate error. -/
theorem claim_C8_layout_validation_witness :
    validateWorkNodeLayout statOnlyState "/r" =
      Except.error ["PLAN.md was not found under " ++ "/r",
        "logs was not found under " ++ "/r"] :=
  (claim_C8_layout_validation statOnlyState "/r").2.2 (by decide) (by decide) (by decide)

/-! Lemmas about `buildWorkNodeRelations`. -/

/-- No path is an ancestor of itself. -/
theorem isAncestor_self (a : String) : isAncestor a a = false := by
  simp [isAncestor]

/-- An ancestor differs from its descendant. -/
theorem isAncestor_ne {a b : String} (h : isAncestor a b = true) : a ≠ b := by
  simp only [isAncestor, Bool.and_eq_true, decide_eq_true_eq] at h
  exact h.1

/-- Membership in the ancestor-candidate list. -/
theorem ancestorCandidates_mem (S : List WorkNodeLayout) (l c : WorkNodeLayout) :
    c ∈ ancestorCandidates S l ↔
      c ∈ S ∧ c ≠ l ∧ isAncestor c.root l.root = true := by
  simp [ancestorCandidates, List.mem_filter]

/-- A layout has no parent exactly when no listed layout is an ancestor of
it. -/
theorem relationParent_none_iff (S : List WorkNodeLayout) (l : WorkNodeLayout) :
    relationParent S l = none ↔ ∀ c ∈ S, isAncestor c.root l.root = false := by
  unfold relationParent
  rw [List.head?_eq_none_iff]
  constructor
  · intro h c hc
    have hp2 := jsSort_perm rootLengthCompare (ancestorCandidates S l)
    rw [h] at hp2
    have hfnil : ancestorCandidates S l = [] := hp2.symm.eq_nil
    by_cases hcl : c = l
    · subst hcl
      exact isAncestor_self c.root
    · cases hanc : isAncestor c.root l.root
      · rfl
      · exfalso
        have hmem : c ∈ ancestorCandidates S l :=
          (ancestorCandidates_mem S l c).mpr ⟨hc, hcl, hanc⟩
        rw [hfnil] at hmem
        exact absurd hmem (List.not_mem_nil c)
  · intro h
    have hfnil : ancestorCandidates S l = [] := by
      rw [List.eq_nil_iff_forall_not_mem]
      intro c hcmem
      obtain ⟨hc, hcl, hanc⟩ := (ancestorCandidates_mem S l c).mp hcmem
      rw [h c hc] at hanc
      cases hanc
    rw [hfnil]
    rfl

/-- A parent returned by the relation loop is a listed ancestor of maximal
root length. -/
theorem relationParent_some (S : List WorkNodeLayout) (l p : WorkNodeLayout)
    (h : relationParent S l = some p) :
    p ∈ S ∧ isAncestor p.root l.root = true ∧
      ∀ c ∈ S, isAncestor c.root l.root = true → c.root.length ≤ p.root.length := by
  unfold relationParent at h
  cases hsort : jsSort rootLengthCompare (ancestorCandidates S l) with
  | nil => rw [hsort] at h; cases h
  | cons x rest =>
    rw [hsort] at h
    have hxp : x = p := by simpa using h
    subst hxp
    have hmem : x ∈ ancestorCandidates S l := by
      have hp2 := jsSort_perm rootLengthCompare (ancestorCandidates S l)
      rw [hsort] at hp2
      exact hp2.mem_iff.mp (List.mem_cons_self x rest)
    obtain ⟨hxS, _, hxanc⟩ := (ancestorCandidates_mem S l x).mp hmem
    refine ⟨hxS, hxanc, ?_⟩
    intro c hc hanc
    have hcne : c ≠ l := by
      intro he
      rw [he, isAncestor_self] at hanc
      cases hanc
    have hcf : c ∈ ancestorCandidates S l :=
      (ancestorCandidates_mem S l c).mpr ⟨hc, hcne, hanc⟩
    have hmin := jsSort_head_min rootLengthCompare (fun _ => True)
      (by intro a _
          simp [rootLengthCompare, jsSortVal])
      (by intro a b _ _ hab
          simp only [rootLengthCompare, jsSortVal] at hab ⊢
          omega)
      (by intro a b c _ _ _ hab hbc
          simp only [rootLengthCompare, jsSortVal] at hab hbc ⊢
          omega)
      (ancestorCandidates S l) (fun _ _ => trivial) x rest hsort c hcf
    simp only [rootLengthCompare, jsSortVal] at hmin
    omega

/-- C9: relation construction.  Every relation's layout comes from the input
list; its parent is null exactly when no listed layout is an ancestor of it;
an assigned parent is a listed ancestor whose root length is maximal among all
listed ancestors, and the relation's layout then appears in that parent's
children list.  The ancestor test is by path segments, not string prefix:
`/a/b` is no ancestor of `/a/bc` but is one of `/a/b/c`. -/
theorem claim_C9_relations (nodes : List WorkNodeLayout) (hnd : nodes.Nodup) :
    (∀ r ∈ buildWorkNodeRelations nodes,
      r.layout ∈ nodes ∧
      (r.parent = none ↔ ∀ c ∈ nodes, isAncestor c.root r.layout.root = false) ∧
      (∀ p, r.parent = some p →
        p ∈ nodes ∧ isAncestor p.root r.layout.root = true ∧
        (∀ c ∈ nodes, isAncestor c.root r.layout.root = true →
          c.root.length ≤ p.root.length) ∧
        ∃ rp ∈ buildWorkNodeRelations nodes,
          rp.layout = p ∧ r.layout ∈ rp.children)) ∧
    isAncestor "/a/b" "/a/bc" = false ∧ isAncestor "/a/b" "/a/b/c" = true := by
  refine ⟨?_, by decide, by decide⟩
  intro r hr
  rw [buildWorkNodeRelations, List.mem_map] at hr
  obtain ⟨l, hlS, hrl⟩ := hr
  subst hrl
  have hperm := jsSort_perm rootNameCompare nodes
  refine ⟨hperm.mem_iff.mp hlS, ?_, ?_⟩
  · have hb := relationParent_none_iff (jsSort rootNameCompare nodes) l
    exact ⟨fun h c hc => hb.mp h c (hperm.mem_iff.mpr hc),
      fun h => hb.mpr (fun c hc => h c (hperm.mem_iff.mp hc))⟩
  · intro p hp
    obtain ⟨hpF, hpanc, hpmax⟩ :=
      relationParent_some (jsSort rootNameCompare nodes) l p hp
    refine ⟨hperm.mem_iff.mp hpF, hpanc, ?_, ?_⟩
    · intro c hc hanc
      exact hpmax c (hperm.mem_iff.mpr hc) hanc
    · refine ⟨WorkNodeRelation.mk p
          (relationParent (jsSort rootNameCompare nodes) p)
          ((jsSort rootNameCompare nodes).filter
            (fun c => relationParent (jsSort rootNameCompare nodes) c = some p)),
        ?_, rfl, ?_⟩
      · rw [buildWorkNodeRelations, List.mem_map]
        exact ⟨p, hpF, rfl⟩
      · apply List.mem_filter.mpr
        refine ⟨hlS, ?_⟩
        simp only [decide_eq_true_eq]
        exact hp

/-- Witness for C9: with the two layouts rooted at `/w` and `/w/sub`, the
relation of `/w/sub` has `/w` as parent, a listed ancestor. -/
theorem claim_C9_relations_witness :
    (layoutOf "/w") ∈ [layoutOf "/w", layoutOf "/w/sub"] ∧
    isAncestor (layoutOf "/w").root (layoutOf "/w/sub").root = true := by
  have h := ((claim_C9_relations [layoutOf "/w", layoutOf "/w/sub"] (by decide)).1
    { layout := layoutOf "/w/sub", parent := some (layoutOf "/w"), children := [] }
    (by decide)).2.2 (layoutOf "/w") rfl
  exact ⟨h.1, h.2.1⟩

/-! Lemmas about `parsePlanLines`. -/

/-- Over a run of lines containing no declaration, the open step accumulates
exactly the trimmed detail captures, in order, onto its buffer, and is flushed
at the end. -/
theorem parsePlanAux_harvest :
    ∀ (rest : List String), (∀ l ∈ rest, stepDeclParse (stripCR l.data) = none) →
      ∀ (c : PlanStep) (buffer : List String) (steps : List PlanStep),
        parsePlanAux (some c) buffer steps rest =
          steps ++ [planFlushStep c (buffer ++ rest.filterMap detailOf)] := by
  intro rest
  induction rest with
  | nil =>
    intro _ c buffer steps
    simp [parsePlanAux]
  | cons l rest ih =>
    intro h c buffer steps
    have hl : stepDeclParse (stripCR l.data) = none := h l (List.mem_cons_self l rest)
    have hrest : ∀ x ∈ rest, stepDeclParse (stripCR x.data) = none :=
      fun x hx => h x (List.mem_cons_of_mem l hx)
    cases hd : detailParse (stripCR l.data) with
    | some t =>
      have e1 : parsePlanAux (some c) buffer steps (l :: rest) =
          parsePlanAux (some c) (buffer ++ [String.mk (trimChars t)]) steps rest := by
        simp [parsePlanAux, hl, hd]
      rw [e1, ih hrest]
      simp [detailOf, hd, List.filterMap_cons]
    | none =>
      have e1 : parsePlanAux (some c) buffer steps (l :: rest) =
          parsePlanAux (some c) buffer steps rest := by
        simp [parsePlanAux, hl, hd]
      rw [e1, ih hrest]
      simp [detailOf, hd, List.filterMap_cons]

/-- The block-level specification yields nothing on no input, whatever the
fuel. -/
theorem planSpecAux_nil (n : Nat) : planSpecAux n [] = [] := by
  cases n <;> rfl

/-- Dropping a prefix never lengthens a list. -/
theorem dropWhile_length_le {α : Type} (p : α → Bool) :
    ∀ l : List α, (l.dropWhile p).length ≤ l.length := by
  intro l
  induction l with
  | nil => simp
  | cons a rest ih =>
    rw [List.dropWhile_cons]
    by_cases h : p a = true
    · rw [if_pos h]
      exact Nat.le_trans ih (Nat.le_succ _)
    · rw [if_neg h]

/-- The block-level specification is fuel-insensitive once the fuel covers the
line count. -/
theorem planSpecAux_fuel :
    ∀ (n : Nat) (lines : List String) (m : Nat),
      lines.length ≤ n → lines.length ≤ m →
      planSpecAux n lines = planSpecAux m lines := by
  intro n
  induction n with
  | zero =>
    intro lines m hn _
    have hl : lines = [] := List.length_eq_zero.mp (by omega)
    subst hl
    rw [planSpecAux_nil, planSpecAux_nil]
  | succ n' ih =>
    intro lines m hn hm
    cases lines with
    | nil => rw [planSpecAux_nil, planSpecAux_nil]
    | cons raw rest =>
      cases m with
      | zero => simp at hm
      | succ m' =>
        simp only [List.length_cons] at hn hm
        cases hdecl : stepDeclParse (stripCR raw.data) with
        | none =>
          rw [show planSpecAux (n' + 1) (raw :: rest) = planSpecAux n' rest from by
              simp [planSpecAux, hdecl],
            show planSpecAux (m' + 1) (raw :: rest) = planSpecAux m' rest from by
              simp [planSpecAux, hdecl]]
          exact ih rest m' (by omega) (by omega)
        | some g =>
          rw [show planSpecAux (n' + 1) (raw :: rest) =
              planFlushStep (declStep g)
                  ((rest.takeWhile
                    (fun l => stepDeclParse (stripCR l.data) = none)).filterMap
                    detailOf) ::
                planSpecAux n'
                  (rest.dropWhile (fun l => stepDeclParse (stripCR l.data) = none))
              from by simp [planSpecAux, hdecl],
            show planSpecAux (m' + 1) (raw :: rest) =
              planFlushStep (declStep g)
                  ((rest.takeWhile
                    (fun l => stepDeclParse (stripCR l.data) = none)).filterMap
                    detailOf) ::
                planSpecAux m'
                  (rest.dropWhile (fun l => stepDeclParse (stripCR l.data) = none))
              from by simp [planSpecAux, hdecl]]
          have hlen := dropWhile_length_le
            (fun l => stepDeclParse (stripCR l.data) = none) rest
          rw [ih (rest.dropWhile (fun l => stepDeclParse (stripCR l.data) = none)) m'
            (by omega) (by omega)]

/-- Joint characterization of the parser loop against the block-level
specification, for both loop states: with no open step the loop produces
exactly the specification's blocks; with an open step it first harvests the
current block onto the buffer, flushes, and continues with the blocks of the
remaining lines. -/
theorem parsePlanAux_planSpec :
    ∀ lines : List String,
      (∀ steps : List PlanStep,
        parsePlanAux none [] steps lines = steps ++ planSpecAux lines.length lines) ∧
      (∀ (c : PlanStep) (buffer : List String) (steps : List PlanStep),
        parsePlanAux (some c) buffer steps lines =
          steps ++ planFlushStep c (buffer ++
              (lines.takeWhile
                (fun l => stepDeclParse (stripCR l.data) = none)).filterMap detailOf) ::
            planSpecAux
              (lines.dropWhile (fun l => stepDeclParse (stripCR l.data) = none)).length
              (lines.dropWhile (fun l => stepDeclParse (stripCR l.data) = none))) := by
  intro lines
  induction lines with
  | nil =>
    constructor
    · intro steps
      simp [parsePlanAux, planSpecAux_nil]
    · intro c buffer steps
      simp [parsePlanAux, planSpecAux_nil]
  | cons l rest ih =>
    obtain ⟨ih1, ih2⟩ := ih
    constructor
    · intro steps
      cases hdecl : stepDeclParse (stripCR l.data) with
      | none =>
        rw [show parsePlanAux none [] steps (l :: rest) =
            parsePlanAux none [] steps rest from by simp [parsePlanAux, hdecl]]
        rw [ih1 steps]
        rw [show planSpecAux (l :: rest).length (l :: rest) =
            planSpecAux rest.length rest from by
          simp [planSpecAux, hdecl, List.length_cons]]
      | some g =>
        rw [show parsePlanAux none [] steps (l :: rest) =
            parsePlanAux (some (declStep g)) [] steps rest from by
          simp [parsePlanAux, hdecl]]
        rw [ih2 (declStep g) [] steps]
        rw [show planSpecAux (l :: rest).length (l :: rest) =
            planFlushStep (declStep g)
                ((rest.takeWhile
                  (fun l => stepDeclParse (stripCR l.data) = none)).filterMap
                  detailOf) ::
              planSpecAux rest.length
                (rest.dropWhile (fun l => stepDeclParse (stripCR l.data) = none))
            from by simp [planSpecAux, hdecl, List.length_cons]]
        rw [planSpecAux_fuel
          (rest.dropWhile (fun l => stepDeclParse (stripCR l.data) = none)).length
          (rest.dropWhile (fun l => stepDeclParse (stripCR l.data) = none))
          rest.length (Nat.le_refl _)
          (dropWhile_length_le (fun l => stepDeclParse (stripCR l.data) = none) rest)]
        simp
    · intro c buffer steps
      cases hdecl : stepDeclParse (stripCR l.data) with
      | some g =>
        rw [show parsePlanAux (some c) buffer steps (l :: rest) =
            parsePlanAux (some (declStep g)) [] (steps ++ [planFlushStep c buffer]) rest
            from by simp [parsePlanAux, hdecl]]
        rw [ih2 (declStep g) [] (steps ++ [planFlushStep c buffer])]
        rw [show (l :: rest).takeWhile
            (fun l => stepDeclParse (stripCR l.data) = none) = [] from by
          simp [List.takeWhile_cons, hdecl]]
        rw [show (l :: rest).dropWhile
            (fun l => stepDeclParse (stripCR l.data) = none) = l :: rest from by
          simp [List.dropWhile_cons, hdecl]]
        rw [show planSpecAux (l :: rest).length (l :: rest) =
            planFlushStep (declStep g)
                ((rest.takeWhile
                  (fun l => stepDeclParse (stripCR l.data) = none)).filterMap
                  detailOf) ::
              planSpecAux rest.length
                (rest.dropWhile (fun l => stepDeclParse (stripCR l.data) = none))
            from by simp [planSpecAux, hdecl, List.length_cons]]
        rw [planSpecAux_fuel
          (rest.dropWhile (fun l => stepDeclParse (stripCR l.data) = none)).length
          (rest.dropWhile (fun l => stepDeclParse (stripCR l.data) = none))
          rest.length (Nat.le_refl _)
          (dropWhile_length_le (fun l => stepDeclParse (stripCR l.data) = none) rest)]
        simp [List.append_assoc]
      | none =>
        have htw : (l :: rest).takeWhile
            (fun l => stepDeclParse (stripCR l.data) = none) =
            l :: rest.takeWhile (fun l => stepDeclParse (stripCR l.data) = none) := by
          simp [List.takeWhile_cons, hdecl]
        have hdw : (l :: rest).dropWhile
            (fun l => stepDeclParse (stripCR l.data) = none) =
            rest.dropWhile (fun l => stepDeclParse (stripCR l.data) = none) := by
          simp [List.dropWhile_cons, hdecl]
        cases hd : detailParse (stripCR l.data) with
        | some d =>
          rw [show parsePlanAux (some c) buffer steps (l :: rest) =
              parsePlanAux (some c) (buffer ++ [String.mk (trimChars d)]) steps rest
              from by simp [parsePlanAux, hdecl, hd]]
          rw [ih2 c (buffer ++ [String.mk (trimChars d)]) steps]
          rw [htw, hdw]
          have hdl : detailOf l = some (String.mk (trimChars d)) := by
            simp [detailOf, hd]
          simp [List.filterMap_cons, hdl, List.append_assoc]
        | none =>
          rw [show parsePlanAux (some c) buffer steps (l :: rest) =
              parsePlanAux (some c) buffer steps rest from by
            simp [parsePlanAux, hdecl, hd]]
          rw [ih2 c buffer steps]
          rw [htw, hdw]
          have hdl : detailOf l = none := by simp [detailOf, hd]
          simp [List.filterMap_cons, hdl]

/-- C7 (amended): plan parsing attaches exactly the detail-pattern matches,
block by block over the whole text: the parse of any line list equals the
block-level specification, in which each declaration line opens a step whose
detail list holds the trimmed captures of the detail pattern over the lines up
to the next declaration, in source order, staying absent when there are none,
and lines before the first declaration are dropped.  Blank lines and lines not
starting with a dash after leading whitespace never declare a step and never
contribute a detail.  Declarations are recognized case-insensitively.  The
detail pattern is narrower than the specification's bulleted lines: its
negative lookahead drops a bullet whose text starts with the word step after a
single whitespace, while two whitespace characters after the dash let the same
text through. -/
theorem claim_C7_plan_details (lines : List String) :
    parsePlanLines lines = planSpec lines ∧
    (∀ raw : String, ((stripCR raw.data).dropWhile isJsWs).head? ≠ some '-' →
      stepDeclParse (stripCR raw.data) = none ∧ detailParse (stripCR raw.data) = none) ∧
    parsePlanLines ["- sTeP 1.2: x"] = [⟨⟨JSNum.int 1, "2", "x"⟩, none⟩] ∧
    parsePlanLines ["- Step 1.1: A", "-  step notes"] =
      [⟨⟨JSNum.int 1, "1", "A"⟩, some ["step notes"]⟩] := by
  refine ⟨?_, ?_, by decide, by decide⟩
  · have h := (parsePlanAux_planSpec lines).1 []
    simpa [parsePlanLines, planSpec] using h
  · intro raw hraw
    constructor
    · rw [stepDeclParse, if_neg hraw]
    · rw [detailParse, if_neg hraw]

/-- Witness for C7 on a multi-declaration plan: the preamble line is dropped
and each declaration collects exactly its own block's details. -/
theorem claim_C7_plan_details_witness :
    parsePlanLines ["intro", "- Step 1.1: A", "- alpha", "", "text",
        "- Step 2.1: B", "- beta"] =
      [⟨⟨JSNum.int 1, "1", "A"⟩, some ["alpha"]⟩,
        ⟨⟨JSNum.int 2, "1", "B"⟩, some ["beta"]⟩] := by
  have h := (claim_C7_plan_details ["intro", "- Step 1.1: A", "- alpha", "", "text",
    "- Step 2.1: B", "- beta"]).1
  rw [h]
  decide

/-- Counterexample to claim C7 as stated: `- step notes` is a bulleted line
and not a step declaration, yet after a declaration it is dropped by the
detail pattern's `(?!Step)` lookahead instead of being attached. -/
theorem claim_C7_plan_details_counterexample :
    isBulletLine "- step notes" = true ∧
    stepDeclParse (stripCR "- step notes".data) = none ∧
    parsePlanLines ["- Step 1.1: A", "- step notes"] =
      [⟨⟨JSNum.int 1, "1", "A"⟩, none⟩] ∧
    parsePlanLines ["- Step 1.1: A", "- step notes"] ≠
      [⟨⟨JSNum.int 1, "1", "A"⟩, some ["step notes"]⟩] := by
  refine ⟨by decide, by decide, by decide, by decide⟩

/-! Lemmas about the multiline anchor positions and header matching. -/

/-- Anchor positions distribute over concatenation. -/
theorem lineStartsAux_append (xs : List Char) :
    ∀ (i : Nat) (ys : List Char),
      lineStartsAux i (xs ++ ys) =
        lineStartsAux i xs ++ lineStartsAux (i + xs.length) ys := by
  induction xs with
  | nil => intro i ys; simp [lineStartsAux]
  | cons c rest ih =>
    intro i ys
    have harr : i + 1 + rest.length = i + (rest.length + 1) := by omega
    by_cases h : isLineTerm c = true
    · simp [lineStartsAux, h, ih, harr]
    · simp [lineStartsAux, h, ih, harr]

/-- A terminator-free block contributes no anchor position. -/
theorem lineStartsAux_nil :
    ∀ (l : List Char), (∀ c ∈ l, isLineTerm c = false) →
      ∀ i, lineStartsAux i l = [] := by
  intro l
  induction l with
  | nil => intro _ _; rfl
  | cons c rest ih =>
    intro h i
    have hc := h c (List.mem_cons_self c rest)
    simp [lineStartsAux, hc, ih (fun x hx => h x (List.mem_cons_of_mem c hx)) (i + 1)]

/-- Every anchor position inside a block lies past its base, within its
length. -/
theorem mem_lineStartsAux_bound :
    ∀ (l : List Char) (i q : Nat), q ∈ lineStartsAux i l →
      ∃ j, q = i + j ∧ 1 ≤ j ∧ j ≤ l.length := by
  intro l
  induction l with
  | nil =>
    intro i q h
    simp [lineStartsAux] at h
  | cons c rest ih =>
    intro i q h
    by_cases hc : isLineTerm c = true
    · rw [show lineStartsAux i (c :: rest) = (i + 1) :: lineStartsAux (i + 1) rest from by
        simp [lineStartsAux, hc]] at h
      rcases List.mem_cons.mp h with h1 | h2
      · exact ⟨1, by rw [h1], Nat.le_refl 1, by simp⟩
      · obtain ⟨j, hq, h1j, hjl⟩ := ih (i + 1) q h2
        refine ⟨j + 1, by omega, by omega, ?_⟩
        simp only [List.length_cons]
        omega
    · rw [show lineStartsAux i (c :: rest) = lineStartsAux (i + 1) rest from by
        simp [lineStartsAux, hc]] at h
      obtain ⟨j, hq, h1j, hjl⟩ := ih (i + 1) q h
      refine ⟨j + 1, by omega, by omega, ?_⟩
      simp only [List.length_cons]
      omega

/-- Anchor positions inside a block are the block's own positions shifted by
the base. -/
theorem lineStartsAux_map :
    ∀ (l : List Char) (i : Nat),
      lineStartsAux i l = (lineStartsAux 0 l).map (fun j => i + j) := by
  intro l
  induction l with
  | nil => intro i; rfl
  | cons c rest ih =>
    intro i
    by_cases hc : isLineTerm c = true
    · rw [show lineStartsAux i (c :: rest) = (i + 1) :: lineStartsAux (i + 1) rest from by
          simp [lineStartsAux, hc],
        show lineStartsAux 0 (c :: rest) = (0 + 1) :: lineStartsAux (0 + 1) rest from by
          simp [lineStartsAux, hc]]
      rw [ih (i + 1), ih (0 + 1)]
      simp only [List.map_cons, List.map_map]
      refine List.cons_eq_cons.mpr ⟨by simp, ?_⟩
      apply List.map_eq_map_iff.mpr
      intro a _
      simp only [Function.comp_apply]
      omega
    · rw [show lineStartsAux i (c :: rest) = lineStartsAux (i + 1) rest from by
          simp [lineStartsAux, hc],
        show lineStartsAux 0 (c :: rest) = lineStartsAux (0 + 1) rest from by
          simp [lineStartsAux, hc]]
      rw [ih (i + 1), ih (0 + 1), List.map_map]
      apply List.map_eq_map_iff.mpr
      intro a _
      simp only [Function.comp_apply]
      omega

/-- A scan over candidate positions fails exactly when every attempt fails. -/
theorem findFirst_none_iff (f : Nat → Option Nat) :
    ∀ ps : List Nat, findFirst f ps = none ↔ ∀ i ∈ ps, f i = none := by
  intro ps
  induction ps with
  | nil => simp [findFirst]
  | cons i rest ih =>
    cases hf : f i with
    | some len => simp [findFirst, hf]
    | none => simp [findFirst, hf, ih]

/-- A literal starting with one character is no prefix of a list starting with
a different one. -/
theorem isPrefixOf_ne_head {c d : Char} {lit l : List Char} (hl : l.head? = some d)
    (hne : c ≠ d) : (c :: lit).isPrefixOf l = false := by
  cases l with
  | nil => cases hl
  | cons x xs =>
    have hx : x = d := by simpa using hl
    show ((c == x) && List.isPrefixOf lit xs) = false
    rw [hx, beq_false_of_ne hne]
    rfl

/-- `takeWhile` passes over a block every element of which satisfies the
predicate. -/
theorem takeWhile_append_all {p : Char → Bool} :
    ∀ (xs ys : List Char), (∀ x ∈ xs, p x = true) →
      List.takeWhile p (xs ++ ys) = xs ++ List.takeWhile p ys := by
  intro xs ys
  induction xs with
  | nil => intro _; rfl
  | cons c rest ih =>
    intro h
    have hc := h c (List.mem_cons_self c rest)
    simp [List.takeWhile_cons, hc,
      ih (fun x hx => h x (List.mem_cons_of_mem c hx))]

/-- `dropWhile` passes over a block every element of which satisfies the
predicate. -/
theorem dropWhile_append_all {p : Char → Bool} :
    ∀ (xs ys : List Char), (∀ x ∈ xs, p x = true) →
      List.dropWhile p (xs ++ ys) = List.dropWhile p ys := by
  intro xs ys
  induction xs with
  | nil => intro _; rfl
  | cons c rest ih =>
    intro h
    have hc := h c (List.mem_cons_self c rest)
    simp [List.dropWhile_cons, hc,
      ih (fun x hx => h x (List.mem_cons_of_mem c hx))]

/-- A failing attempt at the head position moves the scan on. -/
theorem findFirst_cons_none {f : Nat → Option Nat} {i : Nat} {rest : List Nat}
    (h : f i = none) : findFirst f (i :: rest) = findFirst f rest := by
  simp [findFirst, h]

/-- A successful attempt at the head position ends the scan. -/
theorem findFirst_cons_some {f : Nat → Option Nat} {i len : Nat} {rest : List Nat}
    (h : f i = some len) : findFirst f (i :: rest) = some (i, len) := by
  simp [findFirst, h]

/-- On template-shaped content — a one-line heading, then a status line with a
non-empty value starting with a non-whitespace character — the status pattern
matches exactly the status line: position just after the heading's newline,
extent `status: ` plus the value. -/
theorem statusMatch_template (H v R : List Char)
    (hH0 : H.head? = some '#')
    (hHnt : ∀ c ∈ H, isLineTerm c = false)
    (hv0 : v ≠ [])
    (hvh : ∀ c, v.head? = some c → isJsWs c = false)
    (hvnt : ∀ c ∈ v, isLineTerm c = false) :
    statusRegexMatch (H ++ (['\n'] ++ ("status: ".data ++ (v ++ (['\n'] ++ R))))) =
      some (H.length + 1, 8 + v.length) := by
  have hls : lineStarts (H ++ (['\n'] ++ ("status: ".data ++ (v ++ (['\n'] ++ R))))) =
      0 :: (H.length + 1) ::
        lineStartsAux (H.length + 1) ("status: ".data ++ (v ++ (['\n'] ++ R))) := by
    rw [lineStarts, lineStartsAux_append H, lineStartsAux_nil H hHnt 0]
    simp [lineStartsAux, isLineTerm]
  have hf0 : matchHeaderAt ("status:".data)
      (H ++ (['\n'] ++ ("status: ".data ++ (v ++ (['\n'] ++ R))))) 0 = none := by
    have hch : (H ++ (['\n'] ++ ("status: ".data ++ (v ++ (['\n'] ++ R))))).head? =
        some '#' := by
      cases H with
      | nil => cases hH0
      | cons a b =>
        have ha : a = '#' := by simpa using hH0
        simp [ha]
    have hpre : ("status:".data).isPrefixOf
        ((H ++ (['\n'] ++ ("status: ".data ++ (v ++ (['\n'] ++ R))))).drop 0) = false := by
      rw [List.drop_zero]
      rw [show "status:".data = 's' :: "tatus:".data from rfl]
      exact isPrefixOf_ne_head hch (by decide)
    unfold matchHeaderAt
    rw [hpre]
    simp
  have hdrop : (H ++ (['\n'] ++ ("status: ".data ++ (v ++ (['\n'] ++ R))))).drop
      (H.length + 1) = "status: ".data ++ (v ++ (['\n'] ++ R)) := by
    rw [List.drop_append 1]
    rfl
  have htail : tailMatchLen (' ' :: (v ++ (['\n'] ++ R))) = some (1 + v.length) := by
    obtain ⟨vh, vt, rfl⟩ : ∃ vh vt, v = vh :: vt := by
      cases v with
      | nil => exact absurd rfl hv0
      | cons a b => exact ⟨a, b, rfl⟩
    have hvhw : isJsWs vh = false := hvh vh rfl
    have hdw : List.dropWhile isJsWs (' ' :: ((vh :: vt) ++ (['\n'] ++ R))) =
        (vh :: vt) ++ (['\n'] ++ R) := by
      rw [List.dropWhile_cons]
      rw [show isJsWs ' ' = true from by decide, if_pos rfl]
      rw [show (vh :: vt) ++ (['\n'] ++ R) = vh :: (vt ++ (['\n'] ++ R)) from rfl]
      rw [List.dropWhile_cons, hvhw]
      simp
    have htw : List.takeWhile isJsWs (' ' :: ((vh :: vt) ++ (['\n'] ++ R))) = [' '] := by
      rw [List.takeWhile_cons]
      rw [show isJsWs ' ' = true from by decide, if_pos rfl]
      rw [show (vh :: vt) ++ (['\n'] ++ R) = vh :: (vt ++ (['\n'] ++ R)) from rfl]
      rw [List.takeWhile_cons, hvhw]
      simp
    have hnt : List.takeWhile (fun c => !(isLineTerm c)) ((vh :: vt) ++ (['\n'] ++ R)) =
        vh :: vt := by
      rw [takeWhile_append_all (vh :: vt) (['\n'] ++ R)
        (fun x hx => by simp [hvnt x hx])]
      rw [show (['\n'] ++ R : List Char) = '\n' :: R from rfl, List.takeWhile_cons]
      rw [if_neg (by decide)]
      simp
    unfold tailMatchLen
    rw [hdw, htw, hnt]
    rw [if_pos (by simp)]
    rfl
  have hf1 : matchHeaderAt ("status:".data)
      (H ++ (['\n'] ++ ("status: ".data ++ (v ++ (['\n'] ++ R))))) (H.length + 1) =
      some (7 + (1 + v.length)) := by
    unfold matchHeaderAt
    rw [hdrop]
    rw [show ("status:".data).isPrefixOf
      ("status: ".data ++ (v ++ (['\n'] ++ R))) = true from rfl]
    rw [if_pos rfl]
    rw [show List.drop (("status:".data).length)
      ("status: ".data ++ (v ++ (['\n'] ++ R))) = ' ' :: (v ++ (['\n'] ++ R)) from rfl]
    rw [htail]
    rfl
  unfold statusRegexMatch
  rw [hls, findFirst_cons_none hf0, findFirst_cons_some hf1]
  rw [show 7 + (1 + v.length) = 8 + v.length from by omega]

/-- Anchor step over a newline. -/
theorem lineStartsAux_term_cons (i : Nat) (l : List Char) :
    lineStartsAux i ('\n' :: l) = (i + 1) :: lineStartsAux (i + 1) l := by
  simp [lineStartsAux, isLineTerm]

/-- On four-line-shaped content — heading, two terminator-free lines starting
with `s`, then a body none of whose lines (offset `0` and each position after
a terminator) starts with `completed:` — the completed pattern matches
nowhere: with the `m` flag the anchor admits only those offsets. -/
theorem completedMatch_none_parts (H S T B : List Char)
    (hH0 : H.head? = some '#')
    (hHnt : ∀ c ∈ H, isLineTerm c = false)
    (hSh : S.head? = some 's') (hSnt : ∀ c ∈ S, isLineTerm c = false)
    (hTh : T.head? = some 's') (hTnt : ∀ c ∈ T, isLineTerm c = false)
    (hBc0 : ("completed:".data).isPrefixOf B = false)
    (hBc : ∀ j ∈ lineStartsAux 0 B,
      ("completed:".data).isPrefixOf (B.drop j) = false) :
    completedRegexMatch (H ++ ('\n' :: (S ++ ('\n' :: (T ++ ('\n' :: B)))))) = none := by
  have hnone : ∀ (q : Nat) (X : List Char),
      (H ++ ('\n' :: (S ++ ('\n' :: (T ++ ('\n' :: B)))))).drop q = X →
      ("completed:".data).isPrefixOf X = false →
      matchHeaderAt ("completed:".data)
        (H ++ ('\n' :: (S ++ ('\n' :: (T ++ ('\n' :: B)))))) q = none := by
    intro q X hX hpf
    unfold matchHeaderAt
    rw [hX, hpf]
    simp
  have hd1 : (H ++ ('\n' :: (S ++ ('\n' :: (T ++ ('\n' :: B)))))).drop
      (0 + H.length + 1) = S ++ ('\n' :: (T ++ ('\n' :: B))) := by
    rw [show 0 + H.length + 1 = H.length + 1 from by omega]
    rw [List.drop_append 1]
    rfl
  have hd2 : (H ++ ('\n' :: (S ++ ('\n' :: (T ++ ('\n' :: B)))))).drop
      (0 + H.length + 1 + S.length + 1) = T ++ ('\n' :: B) := by
    rw [show 0 + H.length + 1 + S.length + 1 = H.length + (1 + (S.length + 1))
      from by omega]
    rw [List.drop_append]
    rw [show 1 + (S.length + 1) = (S.length + 1) + 1 from by omega]
    rw [List.drop_succ_cons]
    rw [List.drop_append 1]
    rfl
  have hdB : ∀ j, (H ++ ('\n' :: (S ++ ('\n' :: (T ++ ('\n' :: B)))))).drop
      (0 + H.length + 1 + S.length + 1 + T.length + 1 + j) = B.drop j := by
    intro j
    rw [show 0 + H.length + 1 + S.length + 1 + T.length + 1 + j =
      H.length + (1 + (S.length + (1 + (T.length + (1 + j))))) from by omega]
    rw [List.drop_append]
    rw [show 1 + (S.length + (1 + (T.length + (1 + j)))) =
      (S.length + (1 + (T.length + (1 + j)))) + 1 from by omega]
    rw [List.drop_succ_cons]
    rw [List.drop_append]
    rw [show 1 + (T.length + (1 + j)) = (T.length + (1 + j)) + 1 from by omega]
    rw [List.drop_succ_cons]
    rw [List.drop_append]
    rw [show 1 + j = j + 1 from by omega]
    rw [List.drop_succ_cons]
  rw [completedRegexMatch, findFirst_none_iff]
  intro q hq
  rw [lineStarts, lineStartsAux_append H, lineStartsAux_nil H hHnt 0,
    lineStartsAux_term_cons, lineStartsAux_append S, lineStartsAux_nil S hSnt,
    lineStartsAux_term_cons, lineStartsAux_append T, lineStartsAux_nil T hTnt,
    lineStartsAux_term_cons] at hq
  simp only [List.nil_append, List.mem_cons] at hq
  rcases hq with rfl | rfl | rfl | rfl | hmem
  · refine hnone 0 (H ++ ('\n' :: (S ++ ('\n' :: (T ++ ('\n' :: B)))))) (List.drop_zero _) ?_
    have hch : (H ++ ('\n' :: (S ++ ('\n' :: (T ++ ('\n' :: B)))))).head? = some '#' := by
      cases H with
      | nil => cases hH0
      | cons a b =>
        have ha : a = '#' := by simpa using hH0
        simp [ha]
    rw [show "completed:".data = 'c' :: "ompleted:".data from rfl]
    exact isPrefixOf_ne_head hch (by decide)
  · refine hnone _ (S ++ ('\n' :: (T ++ ('\n' :: B)))) hd1 ?_
    have hchS : (S ++ ('\n' :: (T ++ ('\n' :: B)))).head? = some 's' := by
      cases S with
      | nil => cases hSh
      | cons a b =>
        have ha : a = 's' := by simpa using hSh
        simp [ha]
    rw [show "completed:".data = 'c' :: "ompleted:".data from rfl]
    exact isPrefixOf_ne_head hchS (by decide)
  · refine hnone _ (T ++ ('\n' :: B)) hd2 ?_
    have hchT : (T ++ ('\n' :: B)).head? = some 's' := by
      cases T with
      | nil => cases hTh
      | cons a b =>
        have ha : a = 's' := by simpa using hTh
        simp [ha]
    rw [show "completed:".data = 'c' :: "ompleted:".data from rfl]
    exact isPrefixOf_ne_head hchT (by decide)
  · refine hnone _ B ?_ hBc0
    have := hdB 0
    simpa using this
  · rw [lineStartsAux_map B] at hmem
    obtain ⟨j, hj, hqj⟩ := List.mem_map.mp hmem
    subst hqj
    exact hnone _ (B.drop j) (hdB j) (hBc j hj)

/-- On template-shaped content whose second line does not begin with
`started:`, the started pattern first matches at the third line, covering
`started: ` and the timestamp. -/
theorem startedMatch_parts (H S t B : List Char)
    (hH0 : H.head? = some '#')
    (hHnt : ∀ c ∈ H, isLineTerm c = false)
    (hSnt : ∀ c ∈ S, isLineTerm c = false)
    (hSpre : ("started:".data).isPrefixOf
      (S ++ ('\n' :: ("started: ".data ++ (t ++ ('\n' :: B))))) = false)
    (htnt : ∀ c ∈ t, isLineTerm c = false) :
    startedRegexMatch
        (H ++ ('\n' :: (S ++ ('\n' :: ("started: ".data ++ (t ++ ('\n' :: B))))))) =
      some (0 + H.length + 1 + S.length + 1, 9 + t.length) := by
  have hd1 : (H ++ ('\n' :: (S ++ ('\n' :: ("started: ".data ++
      (t ++ ('\n' :: B))))))).drop (0 + H.length + 1) =
      S ++ ('\n' :: ("started: ".data ++ (t ++ ('\n' :: B)))) := by
    rw [show 0 + H.length + 1 = H.length + 1 from by omega]
    rw [List.drop_append 1]
    rfl
  have hd2 : (H ++ ('\n' :: (S ++ ('\n' :: ("started: ".data ++
      (t ++ ('\n' :: B))))))).drop (0 + H.length + 1 + S.length + 1) =
      "started: ".data ++ (t ++ ('\n' :: B)) := by
    rw [show 0 + H.length + 1 + S.length + 1 = H.length + (1 + (S.length + 1))
      from by omega]
    rw [List.drop_append]
    rw [show 1 + (S.length + 1) = (S.length + 1) + 1 from by omega]
    rw [List.drop_succ_cons]
    rw [List.drop_append 1]
    rfl
  have hf0 : matchStartedAt
      (H ++ ('\n' :: (S ++ ('\n' :: ("started: ".data ++ (t ++ ('\n' :: B))))))) 0 =
      none := by
    have hch : (H ++ ('\n' :: (S ++ ('\n' :: ("started: ".data ++
        (t ++ ('\n' :: B))))))).head? = some '#' := by
      cases H with
      | nil => cases hH0
      | cons a b =>
        have ha : a = '#' := by simpa using hH0
        simp [ha]
    have hpre : ("started:".data).isPrefixOf
        ((H ++ ('\n' :: (S ++ ('\n' :: ("started: ".data ++
          (t ++ ('\n' :: B))))))).drop 0) = false := by
      rw [List.drop_zero]
      rw [show "started:".data = 's' :: "tarted:".data from rfl]
      exact isPrefixOf_ne_head hch (by decide)
    unfold matchStartedAt
    rw [hpre]
    simp
  have hf1 : matchStartedAt
      (H ++ ('\n' :: (S ++ ('\n' :: ("started: ".data ++ (t ++ ('\n' :: B)))))))
      (0 + H.length + 1) = none := by
    unfold matchStartedAt
    rw [hd1, hSpre]
    simp
  have hf2 : matchStartedAt
      (H ++ ('\n' :: (S ++ ('\n' :: ("started: ".data ++ (t ++ ('\n' :: B)))))))
      (0 + H.length + 1 + S.length + 1) = some (9 + t.length) := by
    unfold matchStartedAt
    rw [hd2]
    rw [show ("started:".data).isPrefixOf
      ("started: ".data ++ (t ++ ('\n' :: B))) = true from rfl]
    rw [if_pos rfl]
    rw [show List.drop 8
      ("started: ".data ++ (t ++ ('\n' :: B))) = ' ' :: (t ++ ('\n' :: B)) from rfl]
    rw [List.takeWhile_cons]
    rw [if_pos (by decide)]
    rw [takeWhile_append_all t ('\n' :: B) (fun x hx => by simp [htnt x hx])]
    rw [List.takeWhile_cons]
    rw [if_neg (by decide)]
    simp
    omega
  rw [startedRegexMatch, lineStarts, lineStartsAux_append H, lineStartsAux_nil H hHnt 0,
    lineStartsAux_term_cons, lineStartsAux_append S, lineStartsAux_nil S hSnt,
    lineStartsAux_term_cons]
  simp only [List.nil_append]
  rw [findFirst_cons_none hf0, findFirst_cons_none hf1, findFirst_cons_some hf2]

/-- Line terminators are whitespace, so a non-whitespace character is no
terminator. -/
theorem isLineTerm_false_of_ws (c : Char) (h : isJsWs c = false) :
    isLineTerm c = false := by
  cases hlt : isLineTerm c
  · rfl
  · exfalso
    simp [isLineTerm] at hlt
    simp [isJsWs] at h
    omega

/-- Unfolding equation for the status step on a present status. -/
theorem applyStatus_eq (contents : List Char) (st : StepStatus) :
    applyStatus contents (some st) =
      match statusRegexMatch contents with
      | some (pos, len) =>
        replaceExtent contents pos len ("status: " ++ statusToString st).data
      | none => ("status: " ++ statusToString st).data ++ '\n' :: contents := rfl

/-- Unfolding equation for the completed step on a present value. -/
theorem applyCompleted_eq (contents : List Char) (comp : String) :
    applyCompleted contents (some comp) =
      if comp = "" then contents
      else
        match completedRegexMatch contents with
        | some (pos, len) => replaceExtent contents pos len ("completed: " ++ comp).data
        | none =>
          match startedRegexMatch contents with
          | some (pos, len) =>
            contents.take (pos + len) ++ ('\n' :: ("completed: " ++ comp).data) ++
              contents.drop (pos + len)
          | none => ("completed: " ++ comp).data ++ '\n' :: contents := rfl

/-- Replacing the matched status-line extent rewrites exactly that line. -/
theorem replaceExtent_template (H v R repl : List Char) :
    replaceExtent (H ++ (['\n'] ++ ("status: ".data ++ (v ++ (['\n'] ++ R)))))
      (H.length + 1) (8 + v.length) repl =
    H ++ ('\n' :: (repl ++ ('\n' :: R))) := by
  unfold replaceExtent
  rw [List.take_append 1]
  rw [show H.length + 1 + (8 + v.length) = H.length + (1 + (8 + v.length))
    from by omega]
  rw [List.drop_append]
  rw [show (['\n'] ++ ("status: ".data ++ (v ++ (['\n'] ++ R))) : List Char) =
    '\n' :: ("status: ".data ++ (v ++ (['\n'] ++ R))) from rfl]
  rw [show 1 + (8 + v.length) = (8 + v.length) + 1 from by omega]
  rw [List.drop_succ_cons]
  rw [show (8 : Nat) + v.length = ("status: ".data).length + v.length from rfl]
  rw [List.drop_append]
  rw [show List.drop v.length (v ++ (['\n'] ++ R)) = ['\n'] ++ R from
    List.drop_left v (['\n'] ++ R)]
  simp [List.append_assoc]

/-- The prefix kept by the completed-line insertion: everything up to the end
of the started line. -/
theorem insert_take_template (H S t B : List Char) :
    (H ++ ('\n' :: (S ++ ('\n' :: ("started: ".data ++ (t ++ ('\n' :: B))))))).take
      (0 + H.length + 1 + S.length + 1 + (9 + t.length)) =
    H ++ ('\n' :: (S ++ ('\n' :: ("started: ".data ++ t)))) := by
  rw [show 0 + H.length + 1 + S.length + 1 + (9 + t.length) =
    H.length + (1 + (S.length + (1 + (9 + t.length)))) from by omega]
  rw [List.take_append]
  rw [show 1 + (S.length + (1 + (9 + t.length))) =
    (S.length + (1 + (9 + t.length))) + 1 from by omega]
  rw [List.take_succ_cons]
  rw [List.take_append]
  rw [show 1 + (9 + t.length) = (9 + t.length) + 1 from by omega]
  rw [List.take_succ_cons]
  rw [show (9 : Nat) + t.length = ("started: ".data).length + t.length from rfl]
  rw [List.take_append]
  rw [show List.take t.length (t ++ ('\n' :: B)) = t from List.take_left t ('\n' :: B)]

/-- The suffix kept by the completed-line insertion: the newline before the
body and the body itself. -/
theorem insert_drop_template (H S t B : List Char) :
    (H ++ ('\n' :: (S ++ ('\n' :: ("started: ".data ++ (t ++ ('\n' :: B))))))).drop
      (0 + H.length + 1 + S.length + 1 + (9 + t.length)) = '\n' :: B := by
  rw [show 0 + H.length + 1 + S.length + 1 + (9 + t.length) =
    H.length + (1 + (S.length + (1 + (9 + t.length)))) from by omega]
  rw [List.drop_append]
  rw [show 1 + (S.length + (1 + (9 + t.length))) =
    (S.length + (1 + (9 + t.length))) + 1 from by omega]
  rw [List.drop_succ_cons]
  rw [List.drop_append]
  rw [show 1 + (9 + t.length) = (9 + t.length) + 1 from by omega]
  rw [List.drop_succ_cons]
  rw [show (9 : Nat) + t.length = ("started: ".data).length + t.length from rfl]
  rw [List.drop_append]
  rw [show List.drop t.length (t ++ ('\n' :: B)) = '\n' :: B from
    List.drop_left t ('\n' :: B)]

/-- C6 (amended): on template-shaped log content — a one-line `#` heading, a
`status:` line with a non-empty value, a `started:` line, then an arbitrary
body with no line starting `completed:` — updating both fields rewrites the
status value in place and inserts a `completed:` line right after the
`started:` line, leaving the heading and the body byte-for-byte unchanged;
with neither field given, or with only an empty (falsy) completed value, the
operation is a no-op.  The shape restriction is essential: when the status
line has an empty value the pattern's `\s*` crosses the newline and the match
swallows the next line (the counterexample). -/
theorem claim_C6_update_log_header (H v t B : List Char) (st : StepStatus)
    (comp : String)
    (hH0 : H.head? = some '#')
    (hHnt : ∀ c ∈ H, isLineTerm c = false)
    (hv0 : v ≠ [])
    (hvh : ∀ c, v.head? = some c → isJsWs c = false)
    (hvnt : ∀ c ∈ v, isLineTerm c = false)
    (htnt : ∀ c ∈ t, isLineTerm c = false)
    (hcomp : comp ≠ "")
    (hBc0 : ("completed:".data).isPrefixOf B = false)
    (hBc : ∀ j ∈ lineStartsAux 0 B,
      ("completed:".data).isPrefixOf (B.drop j) = false) :
    updateLogHeader
        (H ++ ('\n' :: ("status: ".data ++ (v ++ ('\n' :: ("started: ".data ++
          (t ++ ('\n' :: B))))))))
        { status := some st, completed := some comp } =
      H ++ ('\n' :: ("status: ".data ++ ((statusToString st).data ++ ('\n' ::
        ("started: ".data ++ (t ++ ('\n' :: ("completed: ".data ++
          (comp.data ++ ('\n' :: B)))))))))) ∧
    (∀ l : List Char, updateLogHeader l { status := none, completed := none } = l) ∧
    (∀ l : List Char, updateLogHeader l { status := none, completed := some "" } = l) := by
  refine ⟨?_, fun l => rfl, fun l => rfl⟩
  have hsm : statusRegexMatch (H ++ ('\n' :: ("status: ".data ++ (v ++ ('\n' ::
      ("started: ".data ++ (t ++ ('\n' :: B)))))))) =
      some (H.length + 1, 8 + v.length) :=
    statusMatch_template H v ("started: ".data ++ (t ++ ('\n' :: B)))
      hH0 hHnt hv0 hvh hvnt
  have e1 : applyStatus (H ++ ('\n' :: ("status: ".data ++ (v ++ ('\n' ::
      ("started: ".data ++ (t ++ ('\n' :: B)))))))) (some st) =
      H ++ ('\n' :: (("status: ".data ++ (statusToString st).data) ++ ('\n' ::
        ("started: ".data ++ (t ++ ('\n' :: B)))))) := by
    rw [applyStatus_eq, hsm]
    show replaceExtent (H ++ (['\n'] ++ ("status: ".data ++ (v ++ (['\n'] ++
        ("started: ".data ++ (t ++ ('\n' :: B))))))))
        (H.length + 1) (8 + v.length) ("status: " ++ statusToString st).data =
      H ++ ('\n' :: (("status: ".data ++ (statusToString st).data) ++ ('\n' ::
        ("started: ".data ++ (t ++ ('\n' :: B))))))
    rw [replaceExtent_template, string_data_append]
  have hSh : (("status: ".data ++ (statusToString st).data) : List Char).head? =
      some 's' := by
    cases st <;> rfl
  have hSnt : ∀ c ∈ ("status: ".data ++ (statusToString st).data),
      isLineTerm c = false := by
    intro c hc
    rcases List.mem_append.mp hc with h | h
    · have hlit : ∀ c ∈ "status: ".data, isLineTerm c = false := by decide
      exact hlit c h
    · exact isLineTerm_false_of_ws c ((statusToString_chars st).2 c h).1
  have hTh : (("started: ".data ++ t) : List Char).head? = some 's' := rfl
  have hTnt : ∀ c ∈ ("started: ".data ++ t), isLineTerm c = false := by
    intro c hc
    rcases List.mem_append.mp hc with h | h
    · have hlit : ∀ c ∈ "started: ".data, isLineTerm c = false := by decide
      exact hlit c h
    · exact htnt c h
  have hcm : completedRegexMatch (H ++ ('\n' :: (("status: ".data ++
      (statusToString st).data) ++ ('\n' ::
        ("started: ".data ++ (t ++ ('\n' :: B))))))) = none := by
    rw [show (H ++ ('\n' :: (("status: ".data ++ (statusToString st).data) ++ ('\n' ::
        ("started: ".data ++ (t ++ ('\n' :: B)))))) : List Char) =
      H ++ ('\n' :: (("status: ".data ++ (statusToString st).data) ++ ('\n' ::
        (("started: ".data ++ t) ++ ('\n' :: B))))) from by simp [List.append_assoc]]
    exact completedMatch_none_parts H ("status: ".data ++ (statusToString st).data)
      ("started: ".data ++ t) B hH0 hHnt hSh hSnt hTh hTnt hBc0 hBc
  have hstm : startedRegexMatch (H ++ ('\n' :: (("status: ".data ++
      (statusToString st).data) ++ ('\n' ::
        ("started: ".data ++ (t ++ ('\n' :: B))))))) =
      some (0 + H.length + 1 +
        ("status: ".data ++ (statusToString st).data).length + 1, 9 + t.length) :=
    startedMatch_parts H ("status: ".data ++ (statusToString st).data) t B
      hH0 hHnt hSnt (by cases st <;> rfl) htnt
  have e2 : applyCompleted (H ++ ('\n' :: (("status: ".data ++
      (statusToString st).data) ++ ('\n' ::
        ("started: ".data ++ (t ++ ('\n' :: B))))))) (some comp) =
      H ++ ('\n' :: ("status: ".data ++ ((statusToString st).data ++ ('\n' ::
        ("started: ".data ++ (t ++ ('\n' :: ("completed: ".data ++
          (comp.data ++ ('\n' :: B)))))))))) := by
    rw [applyCompleted_eq, if_neg hcomp, hcm, hstm]
    show (H ++ ('\n' :: (("status: ".data ++ (statusToString st).data) ++ ('\n' ::
        ("started: ".data ++ (t ++ ('\n' :: B))))))).take
          (0 + H.length + 1 +
            ("status: ".data ++ (statusToString st).data).length + 1 +
            (9 + t.length)) ++
        ('\n' :: ("completed: " ++ comp).data) ++
        (H ++ ('\n' :: (("status: ".data ++ (statusToString st).data) ++ ('\n' ::
          ("started: ".data ++ (t ++ ('\n' :: B))))))).drop
          (0 + H.length + 1 +
            ("status: ".data ++ (statusToString st).data).length + 1 +
            (9 + t.length)) =
      H ++ ('\n' :: ("status: ".data ++ ((statusToString st).data ++ ('\n' ::
        ("started: ".data ++ (t ++ ('\n' :: ("completed: ".data ++
          (comp.data ++ ('\n' :: B))))))))))
    rw [insert_take_template, insert_drop_template, string_data_append]
    simp [List.append_assoc]
  have e0 : updateLogHeader (H ++ ('\n' :: ("status: ".data ++ (v ++ ('\n' ::
      ("started: ".data ++ (t ++ ('\n' :: B))))))))
      { status := some st, completed := some comp } =
      applyCompleted (applyStatus (H ++ ('\n' :: ("status: ".data ++ (v ++ ('\n' ::
        ("started: ".data ++ (t ++ ('\n' :: B)))))))) (some st)) (some comp) := by
    unfold updateLogHeader
    rw [if_neg (by simp)]
  rw [e0, e1]
  exact e2

/-- Witness for C6 at a concrete well-formed log: the status value is
rewritten in place, `completed:` is inserted after the started line, heading
and body survive byte-for-byte; an empty completed value alone is a no-op. -/
theorem claim_C6_update_log_header_witness :
    updateLogHeader ("# P".data ++ ('\n' :: ("status: ".data ++ ("todo".data ++ ('\n' ::
        ("started: ".data ++ ("T0".data ++ ('\n' :: "## Notes\nkeep".data))))))))
      { status := some StepStatus.done, completed := some "T1" } =
      "# P".data ++ ('\n' :: ("status: ".data ++ ((statusToString StepStatus.done).data ++
        ('\n' :: ("started: ".data ++ ("T0".data ++ ('\n' :: ("completed: ".data ++
          ("T1".data ++ ('\n' :: "## Notes\nkeep".data)))))))))) ∧
    updateLogHeader "x".data { status := none, completed := some "" } = "x".data := by
  have h := claim_C6_update_log_header "# P".data "todo".data "T0".data
    "## Notes\nkeep".data StepStatus.done "T1"
    (by decide) (by decide) (by decide)
    (by intro c hc; cases hc; decide)
    (by decide) (by decide) (by decide) (by decide) (by decide)
  exact ⟨h.1, h.2.2 ("x".data)⟩

/-- Counterexample to claim C6 as stated: on a log whose `status:` line has an
empty value, the multiline `\s*` of the status pattern crosses the newline, so
the replacement swallows the following `## Notes` heading instead of touching
only the status line. -/
theorem claim_C6_update_log_header_counterexample :
    updateLogHeader ("# T\nstatus:\n## Notes\nkeep\n".data)
        { status := some StepStatus.done, completed := none } =
      "# T\nstatus: done\nkeep\n".data ∧
    updateLogHeader ("# T\nstatus:\n## Notes\nkeep\n".data)
        { status := some StepStatus.done, completed := none } ≠
      "# T\nstatus: done\n## Notes\nkeep\n".data ∧
    List.IsInfix ("## Notes".data) ("# T\nstatus:\n## Notes\nkeep\n".data) ∧
    ¬ List.IsInfix ("## Notes".data)
      (updateLogHeader ("# T\nstatus:\n## Notes\nkeep\n".data)
        { status := some StepStatus.done, completed := none }) := by
  refine ⟨by decide, by decide, by decide, by decide⟩
